import Mathlib

/-!
# Verification of the binary patricia merkle trie (`storage/merkle/tree.go`)

This file embeds the trie of `storage/merkle/tree.go` in Lean and proves the
spec's claims about it.  Byte strings are modelled as `List Nat` (each entry a
byte `< 256`); machine-integer indices that can go negative in Go (`hashIndex`,
`pathIndex` in `Verify`) are modelled as `Int`; Go code that can panic on an
out-of-range slice access is modelled with `Option` (`none` = panic).

The node type (`node.go`) and the bit-buffer utilities
(`ledger/common/bitutils`) are not part of the provided sources; they are
modelled from the spec (§2, §4.2, §6) as documented on each definition.  The
keyed blake2b-256 hash is external to the repository and is modelled as a
symbolic, collision-free digest (an inductive type whose constructors record
exactly the domain-separation tag and the inputs fed to the hash, per §4.2).
-/

namespace Merkle

/-- Byte strings (`[]byte` in Go): a list of byte values.  A byte is
well-formed when it is `< 256`; operations below read only the low 8 bits. -/
abbrev Bytes := List Nat

/-- All entries of a byte string are actual bytes. -/
def bytesWf (b : Bytes) : Prop := ∀ x ∈ b, x < 256

/-- Modelled from the spec: bit-buffer collaborator `read_bit(buf, i)`,
"bit 0 = MSB of `buf[0]`" (§6).  Bit `i` lives in byte `i / 8` at position
`7 - i % 8` from the least-significant end.  The Go collaborator panics on an
out-of-range byte index; here out-of-range reads yield `0` (the tree
operations below never read out of range on the states the theorems quantify
over, and `Verify`, whose out-of-range behaviour is claim-relevant, goes
through the fallible `readBitI` instead). -/
def readBit (b : Bytes) (i : Nat) : Nat :=
  ((b.getD (i / 8) 0) >>> (7 - i % 8)) &&& 1

/-- Modelled from the spec: bit-buffer collaborator `set_bit(buf, i)` (§6). -/
def setBit (b : Bytes) (i : Nat) : Bytes :=
  b.set (i / 8) ((b.getD (i / 8) 0) ||| (1 <<< (7 - i % 8)))

/-- Modelled from the spec: bit-buffer collaborator `clear_bit(buf, i)` (§6).
`255 - mask` is the complement of the single-bit mask within a byte. -/
def clearBit (b : Bytes) (i : Nat) : Bytes :=
  b.set (i / 8) ((b.getD (i / 8) 0) &&& (255 - (1 <<< (7 - i % 8))))

/-- Modelled from the spec: bit-buffer collaborator `write_bit(buf, i, v)`
(§6): clear for `v = 0`, set otherwise. -/
def writeBit (b : Bytes) (i v : Nat) : Bytes :=
  if v = 0 then clearBit b i else setBit b i

/-- Modelled from the spec: bit-buffer collaborator `make_bitvec(n_bits)`,
"length `⌈n/8⌉`, zero-initialized" (§6). -/
def makeBitVector (n : Nat) : Bytes :=
  List.replicate ((n + 7) / 8) 0

/-- The bit-copy loop `for i in [0,c): WriteBit(dst, dstOff+i, ReadBit(src,
srcOff+i))` used by `unsafePut` (tree.go lines 140-143, 171-174, 203-206) and
`merge` (lines 512-517). -/
def writeBits (dst : Bytes) (dstOff : Nat) (src : Bytes) (srcOff c : Nat) : Bytes :=
  (List.range c).foldl (fun acc i => writeBit acc (dstOff + i) (readBit src (srcOff + i))) dst

/-- A fresh bit vector of `c` bits holding bits `[srcOff, srcOff + c)` of
`src` (the `MakeBitVector` + copy-loop pattern of `unsafePut`). -/
def copyBits (src : Bytes) (srcOff c : Nat) : Bytes :=
  writeBits (makeBitVector c) 0 src srcOff c

/-- The path-byte concatenation of `merge` (tree.go lines 509-521): a fresh
vector of `c1 + c2` bits holding the `c1` bits of `p1` then the `c2` bits of
`p2`. -/
def mergePaths (c1 : Nat) (p1 : Bytes) (c2 : Nat) (p2 : Bytes) : Bytes :=
  writeBits (writeBits (makeBitVector (c1 + c2)) 0 p1 0 c1) c1 p2 0 c2

/-- The nodes of the patricia merkle tree.  `node` in Go is an interface with
concrete types `*leaf`, `*short`, `*full` (modelled from the spec §3, their
definitions are not under `src/`); the `nil` interface value, which the tree
uses for the empty root and for not-yet-filled child slots, is the `nil`
constructor here. -/
inductive Node where
  | nil
  | leaf (val : Bytes)
  | short (count : Nat) (path : Bytes) (child : Node)
  | full (left right : Node)
deriving DecidableEq, Repr

/-- The first-divergence scan of `unsafePut` (tree.go lines 120-127):
the number of leading positions `i < c` with
`ReadBit(key, i+index) = ReadBit(p, i)`, stopping at the first mismatch. -/
def commonLen (key : Bytes) (index : Nat) (p : Bytes) : Nat → Nat
  | 0 => 0
  | c + 1 =>
    if commonLen key index p c = c ∧ readBit key (index + c) = readBit p c then c + 1
    else commonLen key index p c

/-- The all-bits-match check of `unsafeGet` / `Prove` / `unsafeDel`
(tree.go lines 255-259, 333-337, 428-432). -/
def pathMatches (key : Bytes) (index : Nat) (p : Bytes) (c : Nat) : Bool :=
  (List.range c).all (fun i => readBit key (i + index) == readBit p i)

/-- The `nil` arm of `unsafePut` (tree.go lines 189-212): at the end of the
key install a leaf; otherwise install a short node carrying the remaining key
bits, whose child the immediately following loop iteration (`nil` with
`index = totalCount`) fills with the new leaf.  That trailing iteration is
inlined here. -/
def insertPath (key val : Bytes) (index : Nat) : Node :=
  let totalCount := 8 * key.length
  if index = totalCount then .leaf val
  else .short (totalCount - index) (copyBits key index (totalCount - index)) (.leaf val)

/-- `unsafePut` (tree.go lines 84-215) as a recursion over the current node;
the Go loop's slot pointer becomes the rebuilt subtree in the first component,
the returned `Bool` is the `replaced` result.
  * `full` arm: lines 103-114;
  * `short` arm, shared path (`commonCount = n.count`): lines 129-135;
  * `short` arm, split: lines 137-181 (`commonNode`, `splitNode`, `remain`;
    the continued insertion on the new-key side of the split starts at a
    `nil` slot, so it is exactly `insertPath` at `index + k + 1`);
  * `leaf` arm: lines 184-186; `nil` arm: lines 189-212 (`insertPath`). -/
def putAux (key val : Bytes) : Node → Nat → Node × Bool
  | .nil, index => (insertPath key val index, false)
  | .leaf _, _ => (.leaf val, true)
  | .full l r, index =>
    if readBit key index = 0 then
      let res := putAux key val l (index + 1)
      (.full res.1 r, res.2)
    else
      let res := putAux key val r (index + 1)
      (.full l res.1, res.2)
  | .short c p ch, index =>
    let k := commonLen key index p c
    if k = c then
      let res := putAux key val ch (index + c)
      (.short c p res.1, res.2)
    else
      let ourNode := insertPath key val (index + k + 1)
      let remainCount := c - k - 1
      let remainSide : Node :=
        if 0 < remainCount then .short remainCount (copyBits p (k + 1) remainCount) ch else ch
      let splitNode : Node :=
        if readBit p k = 1 then .full ourNode remainSide else .full remainSide ourNode
      (if 0 < k then .short k (copyBits key index k) splitNode else splitNode, false)

/-- `unsafeGet` (tree.go lines 230-276) as a recursion over the current node. -/
def getAux (key : Bytes) : Node → Nat → Option Bytes
  | .nil, _ => none
  | .leaf v, _ => some v
  | .full l r, index =>
    if readBit key index = 0 then getAux key l (index + 1) else getAux key r (index + 1)
  | .short c p ch, index =>
    if pathMatches key index p c then getAux key ch (index + c) else none

/-- `unsafeDel` (tree.go lines 385-497) as a recursion over the current node:
`none` = key not found (no mutation), `some n'` = new subtree.  The Go loop's
`last`/`parent`/`grand` bookkeeping and post-loop cleanup (lines 451-496)
appear here as the propagation of a deleted child:
  * a `short` whose child vanished vanishes itself (lines 453-458);
  * a `short` whose child became a `short` (the parent merge, lines 487-492)
    merges with it (`merge`, lines 509-521, inlined via `mergePaths`);
  * a `full` with a deleted child collapses to a one-bit short toward the
    surviving child (lines 462-478), merging with that child if it is itself
    a short (lines 480-485) — `collapseFull` below. -/
def collapseFull (surviving : Node) (bit : Nat) : Node :=
  let newPath := if bit = 0 then clearBit (makeBitVector 1) 0 else setBit (makeBitVector 1) 0
  match surviving with
  | .short c2 p2 ch2 => .short (1 + c2) (mergePaths 1 newPath c2 p2) ch2
  | s => .short 1 newPath s

/-- See `collapseFull`. -/
def delAux (key : Bytes) : Node → Nat → Option Node
  | .nil, _ => none
  | .leaf _, _ => some .nil
  | .short c p ch, index =>
    if pathMatches key index p c then
      match delAux key ch (index + c) with
      | none => none
      | some .nil => some .nil
      | some (.short c2 p2 ch2) => some (.short (c + c2) (mergePaths c p c2 p2) ch2)
      | some ch' => some (.short c p ch')
    else none
  | .full l r, index =>
    if readBit key index = 0 then
      match delAux key l (index + 1) with
      | none => none
      | some .nil => some (collapseFull r 1)
      | some l' => some (.full l' r)
    else
      match delAux key r (index + 1) with
      | none => none
      | some .nil => some (collapseFull l 0)
      | some r' => some (.full l r')

/-- Modelled from the spec: the keyed blake2b-256 digest of a node (§4.2;
`node.Hash()` is not under `src/`).  The hash primitive is external and is
idealized as collision-free: a digest is the symbolic record of the
domain-separation tag and the exact byte inputs fed to the keyed hash, so two
digests are equal exactly when tag and inputs coincide.  `dnil` stands for
the (panicking, never well-formed) hash of a `nil` node. -/
inductive Digest where
  | dnil
  | dleaf (val : Bytes)
  | dshort (enc : Bytes) (path : Bytes) (child : Digest)
  | dfull (left right : Digest)
deriving DecidableEq, Repr

/-- `serializedPathSegmentLength` (referenced by `Verify`, tree.go line 572;
defined in the missing `node.go`, modelled from the spec §4.2): the 2-byte
big-endian encoding of a path-segment length under the mod-2^16 wraparound
convention (65536 ↦ `0x00 0x00`). -/
def serializedPathSegmentLength (n : Nat) : Bytes :=
  [(n % 65536) / 256, n % 256]

/-- Modelled from the spec §4.2: `hash(leaf)` = keyed hash of the value;
`hash(short)` = keyed hash of `encode_len(count) ‖ path ‖ hash(child)`;
`hash(full)` = keyed hash of `hash(left) ‖ hash(right)`. -/
def Node.hash : Node → Digest
  | .nil => .dnil
  | .leaf v => .dleaf v
  | .short c p ch => .dshort (serializedPathSegmentLength c) p (Node.hash ch)
  | .full l r => .dfull (Node.hash l) (Node.hash r)

/-- The proof transcript (`Proof`, tree.go lines 523-528).  `shortCounts`
entries are the Go `uint8` values, i.e. `count % 256` for the traversed short
nodes and `0` for full nodes. -/
structure Proof where
  key : Bytes
  hashValue : Digest
  shortCounts : List Nat
  interimHashes : List Digest
deriving DecidableEq, Repr

/-- The traversal loop of `Prove` (tree.go lines 303-363): `none` = not
found; otherwise the leaf's value hash and the `shortCounts` /
`interimHashes` transcripts in root-to-leaf order (the Go code appends on the
way down; consing on the way back up builds the same lists).  The `uint8`
conversion at line 342 is the `% 256`. -/
def proveAux (key : Bytes) : Node → Nat → Option (Digest × List Nat × List Digest)
  | .nil, _ => none
  | .leaf v, _ => some (.dleaf v, [], [])
  | .full l r, index =>
    if readBit key index = 0 then
      (proveAux key l (index + 1)).map (fun res => (res.1, 0 :: res.2.1, r.hash :: res.2.2))
    else
      (proveAux key r (index + 1)).map (fun res => (res.1, 0 :: res.2.1, l.hash :: res.2.2))
  | .short c p ch, index =>
    if pathMatches key index p c then
      (proveAux key ch (index + c)).map (fun res => (res.1, c % 256 :: res.2.1, res.2.2))
    else none

/-- `Tree` (tree.go lines 42-45). -/
structure Tree where
  keyLength : Nat
  root : Node
deriving DecidableEq, Repr

/-- `ErrorIncompatibleKeyLength` (tree.go line 15), the only error value. -/
inductive MerkleError where
  | incompatibleKeyLength
deriving DecidableEq, Repr

/-- `maxKeyLength` (tree.go line 27). -/
def maxKeyLength : Nat := 8192

/-- `NewTree` (tree.go lines 51-59). -/
def NewTree (keyLength : Nat) : Except MerkleError Tree :=
  if keyLength < 1 ∨ maxKeyLength < keyLength then .error .incompatibleKeyLength
  else .ok ⟨keyLength, .nil⟩

/-- `Put` (tree.go lines 72-78); the updated tree is returned alongside the
`replaced` flag (Go mutates in place). -/
def Tree.put (t : Tree) (key val : Bytes) : Except MerkleError (Bool × Tree) :=
  if key.length ≠ t.keyLength then .error .incompatibleKeyLength
  else
    let res := putAux key val t.root 0
    .ok (res.2, ⟨t.keyLength, res.1⟩)

/-- `Get` (tree.go lines 219-224): `none` models `(nil, false)`. -/
def Tree.get (t : Tree) (key : Bytes) : Option Bytes :=
  if t.root = .nil ∨ t.keyLength ≠ key.length then none
  else getAux key t.root 0

/-- `Del` (tree.go lines 371-376); the updated tree is returned alongside the
`found` flag. -/
def Tree.del (t : Tree) (key : Bytes) : Bool × Tree :=
  if t.root = .nil ∨ t.keyLength ≠ key.length then (false, t)
  else
    match delAux key t.root 0 with
    | none => (false, t)
    | some root' => (true, ⟨t.keyLength, root'⟩)

/-- `Prove` (tree.go lines 283-364): note the source performs no key-length
and no empty-root check; it builds an unused `path` bit vector from the first
`t.keyLength` bits of `key` (lines 289-294, dead code) and then traverses with
`key` directly.  `none` models `(nil, false)`. -/
def Tree.prove (t : Tree) (key : Bytes) : Option Proof :=
  (proveAux key t.root 0).map (fun res => ⟨key, res.1, res.2.1, res.2.2⟩)

/-- `Hash` (tree.go lines 501-506): `none` models the zero-length byte string
returned for an empty tree, `some d` the 32-byte digest `root.Hash()`. -/
def Tree.hash (t : Tree) : Option Digest :=
  if t.root = .nil then none else some t.root.hash

/-- Fallible list indexing with a Go `int` index: `none` models the
out-of-range slice-access panic. -/
def listGetI {α : Type} (l : List α) (i : Int) : Option α :=
  if i < 0 then none else l.get? i.toNat

/-- Fallible `ReadBit` with a Go `int` index: the collaborator indexes byte
`i >> 3`, so it panics (`none`) unless `0 ≤ i` and byte `i / 8` exists. -/
def readBitI (b : Bytes) (i : Int) : Option Nat :=
  if 0 ≤ i ∧ i < 8 * (b.length : Int) then some (readBit b i.toNat) else none

/-- The common-path reconstruction of `Verify` (tree.go lines 563-569):
`MakeBitVector(sc)` then `SetBit` for every 1-bit of `key` in
`[pIdx, pIdx + sc)`; `none` if any bit read is out of range. -/
def buildCommonPath (key : Bytes) (pIdx : Int) (sc : Nat) : Option Bytes :=
  (List.range sc).foldlM
    (fun acc j => (readBitI key (pIdx + Int.ofNat j)).map
      (fun b => if b = 1 then setBit acc j else acc))
    (makeBitVector sc)

/-- The backward loop of `Verify` (tree.go lines 542-577) over the reversed
`shortCounts`, carrying `currentHash`, `hashIndex` and `pathIndex` (both Go
`int`s).  Returns the final `(currentHash, pathIndex)` or `none` for an
out-of-range access (`InterimHashes[hashIndex]` at line 545, `ReadBit` at
lines 550 and 566). -/
def verifyAux (key : Bytes) (ih : List Digest) :
    List Nat → Digest → Int → Int → Option (Digest × Int)
  | [], cur, _, pIdx => some (cur, pIdx)
  | sc :: rest, cur, hIdx, pIdx =>
    if sc = 0 then
      match listGetI ih hIdx with
      | none => none
      | some neighbour =>
        match readBitI key (pIdx - 1) with
        | none => none
        | some b =>
          let cur' := if b = 1 then Digest.dfull neighbour cur else Digest.dfull cur neighbour
          verifyAux key ih rest cur' (hIdx - 1) (pIdx - 1)
    else
      match buildCommonPath key (pIdx - sc) sc with
      | none => none
      | some commonPath =>
        verifyAux key ih rest
          (Digest.dshort (serializedPathSegmentLength sc) commonPath cur) hIdx (pIdx - sc)

/-- `Verify` (tree.go lines 531-583).  The expected root is a digest (the
caller passes `Tree.Hash()` of a non-empty tree); `some b` is a normal boolean
return, `none` an out-of-range panic. -/
def Proof.verify (p : Proof) (expectedRootHash : Digest) : Option Bool :=
  let pathIndex0 : Int :=
    (p.interimHashes.length : Int) + p.shortCounts.foldl (fun a sc => a + Int.ofNat sc) 0
  match verifyAux p.key p.interimHashes p.shortCounts.reverse p.hashValue
      ((p.interimHashes.length : Int) - 1) pathIndex0 with
  | none => none
  | some res => some (decide (res.2 = 0 ∧ res.1 = expectedRootHash))

/-! ## Derived definitions of the development -/

/-- Whether a node is a `short` node. -/
def Node.isShortB : Node → Bool
  | .short _ _ _ => true
  | _ => false

/-- The structural invariant of spec §3, localized: `goodAt n r` says the
subtree `n` is non-empty, well formed, and consumes exactly `r` further key
bits on every root-to-leaf path.  It packages spec invariants 1-4 together
with canonicality of the stored path bytes (length `⌈count/8⌉`, zero padding
beyond `count`, genuine byte entries), which `unsafePut` establishes by
building paths with `MakeBitVector` + `WriteBit`. -/
def goodAt : Node → Nat → Prop
  | .nil, _ => False
  | .leaf _, r => r = 0
  | .short c p ch, r =>
    1 ≤ c ∧ c ≤ r ∧ ch.isShortB = false ∧
    p.length = (c + 7) / 8 ∧ bytesWf p ∧ (∀ j, c ≤ j → readBit p j = 0) ∧
    goodAt ch (r - c)
  | .full l r2, r => 1 ≤ r ∧ goodAt l (r - 1) ∧ goodAt r2 (r - 1)

/-- `key2` agrees with `key` on every bit position in `[index, N)`. -/
def agreesFrom (key2 key : Bytes) (index N : Nat) : Prop :=
  ∀ j, j < N → index ≤ j → readBit key2 j = readBit key j

instance (key2 key : Bytes) (index N : Nat) : Decidable (agreesFrom key2 key index N) := by
  unfold agreesFrom
  exact Nat.decidableBallLT N _

/-- The root invariant: an empty tree or a well-formed root consuming exactly
`8 * keyLength` bits (the convention of tree.go lines 36-41). -/
def Tree.good (t : Tree) : Prop := t.root = .nil ∨ goodAt t.root (8 * t.keyLength)

/-- `Put` with the error swallowed: Go's tree is unchanged when `Put` returns
`ErrorIncompatibleKeyLength`. -/
def applyPut (t : Tree) (kv : Bytes × Bytes) : Tree :=
  match t.put kv.1 kv.2 with
  | .error _ => t
  | .ok res => res.2

/-- A tree built by a sequence of puts on a fresh tree of key length `kl`. -/
def buildTree (kl : Nat) (l : List (Bytes × Bytes)) : Tree :=
  l.foldl applyPut ⟨kl, .nil⟩

/-- The lookup function determined by a put sequence: the value of the last
entry whose key has the configured length and agrees bitwise with the probe. -/
def lookList (kl : Nat) (l : List (Bytes × Bytes)) (key2 : Bytes) : Option Bytes :=
  l.foldl (fun acc kv =>
    if kv.1.length = kl ∧ agreesFrom key2 kv.1 0 (8 * kv.1.length) then some kv.2 else acc)
    none

/-- The structural patterns claim C7 forbids: a `short` child of a `short`,
a `nil` child of a `full`, and a `short` count below 1. -/
def mergeOk : Node → Prop
  | .nil => True
  | .leaf _ => True
  | .short c _ ch => ch.isShortB = false ∧ 1 ≤ c ∧ mergeOk ch
  | .full l r => l ≠ .nil ∧ r ≠ .nil ∧ mergeOk l ∧ mergeOk r

/-- The operations of claim C7.  `Get`, `Prove` and `Hash` do not mutate the
tree (their Go receivers perform no writes), so applying them returns the
tree unchanged; `Put` and `Del` rewrite the root. -/
inductive Op where
  | put (key val : Bytes)
  | get (key : Bytes)
  | del (key : Bytes)
  | prove (key : Bytes)
  | hash

def applyOp (t : Tree) : Op → Tree
  | .put k v => applyPut t (k, v)
  | .get _ => t
  | .del k => (t.del k).2
  | .prove _ => t
  | .hash => t

instance (b : Bytes) : Decidable (bytesWf b) := by
  unfold bytesWf
  exact List.decidableBAll _ b

/-- The value of the latest put for a key, read off the put list. -/
def lastPut (l : List (Bytes × Bytes)) (k : Bytes) : Option Bytes :=
  l.foldl (fun acc kv => if kv.1 = k then some kv.2 else acc) none

/-- The node-level effect of an overwriting put: only the value in the leaf
at the end of the key path is replaced; every `full` node, every `short`
node's count, path and child structure, and every other leaf are kept. -/
def setLeaf (key val : Bytes) : Node → Nat → Node
  | .nil, _ => .nil
  | .leaf _, _ => .leaf val
  | .full l r, index =>
    if readBit key index = 0 then .full (setLeaf key val l (index + 1)) r
    else .full l (setLeaf key val r (index + 1))
  | .short c p ch, index => .short c p (setLeaf key val ch (index + c))

/-- The number of zero entries of a `shortCounts` list: each one makes the
`Verify` loop take the full-node branch and consume one interim hash. -/
def countZeros : List Nat → Nat
  | [] => 0
  | x :: rest => (if x = 0 then 1 else 0) + countZeros rest

/-- All short-node counts fit a `uint8`: `Prove` records `uint8(n.count)`
(tree.go line 342), so verification can only reproduce the structure when no
count was truncated. -/
def countsOk : Node → Bool
  | .nil => true
  | .leaf _ => true
  | .short c _ ch => decide (c ≤ 255) && countsOk ch
  | .full l r => countsOk l && countsOk r

/-! ## Termination of the traversal loops (C10)

The Go functions `unsafeGet`, `unsafePut`, `Prove`, `unsafeDel` iterate a
`for { ... }` loop over the current node.  The fuelled models below spend one
fuel unit per loop iteration and return `none` when the loop is still running
after `fuel` iterations, so `... fuel n index = some r` states that the loop
stops within `fuel` iterations with result `r`. -/

def getAuxF (key : Bytes) : Nat → Node → Nat → Option (Option Bytes)
  | 0, _, _ => none
  | _ + 1, .nil, _ => some none
  | _ + 1, .leaf v, _ => some (some v)
  | fuel + 1, .full l r, index =>
    if readBit key index = 0 then getAuxF key fuel l (index + 1)
    else getAuxF key fuel r (index + 1)
  | fuel + 1, .short c p ch, index =>
    if pathMatches key index p c then getAuxF key fuel ch (index + c) else some none

def putAuxF (key val : Bytes) : Nat → Node → Nat → Option (Node × Bool)
  | 0, _, _ => none
  | _ + 1, .nil, index => some (insertPath key val index, false)
  | _ + 1, .leaf _, _ => some (.leaf val, true)
  | fuel + 1, .full l r, index =>
    if readBit key index = 0 then
      (putAuxF key val fuel l (index + 1)).map (fun res => (.full res.1 r, res.2))
    else
      (putAuxF key val fuel r (index + 1)).map (fun res => (.full l res.1, res.2))
  | fuel + 1, .short c p ch, index =>
    let k := commonLen key index p c
    if k = c then
      (putAuxF key val fuel ch (index + c)).map (fun res => (.short c p res.1, res.2))
    else
      let ourNode := insertPath key val (index + k + 1)
      let remainCount := c - k - 1
      let remainSide : Node :=
        if 0 < remainCount then .short remainCount (copyBits p (k + 1) remainCount) ch else ch
      let splitNode : Node :=
        if readBit p k = 1 then .full ourNode remainSide else .full remainSide ourNode
      some (if 0 < k then .short k (copyBits key index k) splitNode else splitNode, false)

def proveAuxF (key : Bytes) :
    Nat → Node → Nat → Option (Option (Digest × List Nat × List Digest))
  | 0, _, _ => none
  | _ + 1, .nil, _ => some none
  | _ + 1, .leaf v, _ => some (some (.dleaf v, [], []))
  | fuel + 1, .full l r, index =>
    if readBit key index = 0 then
      (proveAuxF key fuel l (index + 1)).map
        (fun o => o.map (fun res => (res.1, 0 :: res.2.1, r.hash :: res.2.2)))
    else
      (proveAuxF key fuel r (index + 1)).map
        (fun o => o.map (fun res => (res.1, 0 :: res.2.1, l.hash :: res.2.2)))
  | fuel + 1, .short c p ch, index =>
    if pathMatches key index p c then
      (proveAuxF key fuel ch (index + c)).map
        (fun o => o.map (fun res => (res.1, c % 256 :: res.2.1, res.2.2)))
    else some none

def delAuxF (key : Bytes) : Nat → Node → Nat → Option (Option Node)
  | 0, _, _ => none
  | _ + 1, .nil, _ => some none
  | _ + 1, .leaf _, _ => some (some .nil)
  | fuel + 1, .full l r, index =>
    if readBit key index = 0 then
      (delAuxF key fuel l (index + 1)).map (fun o =>
        match o with
        | none => none
        | some .nil => some (collapseFull r 1)
        | some l2 => some (.full l2 r))
    else
      (delAuxF key fuel r (index + 1)).map (fun o =>
        match o with
        | none => none
        | some .nil => some (collapseFull l 0)
        | some r2 => some (.full l r2))
  | fuel + 1, .short c p ch, index =>
    if pathMatches key index p c then
      (delAuxF key fuel ch (index + c)).map (fun o =>
        match o with
        | none => none
        | some .nil => some .nil
        | some (.short c2 p2 ch2) => some (.short (c + c2) (mergePaths c p c2 p2) ch2)
        | some ch2 => some (.short c p ch2))
    else some none

/-! ## Bit-vector foundations -/

theorem readBit_eq_testBit (b : Bytes) (i : Nat) :
    readBit b i = if (b.getD (i / 8) 0).testBit (7 - i % 8) then 1 else 0 := by
  unfold readBit
  rw [Nat.and_one_is_mod, Nat.shiftRight_eq_div_pow, Nat.testBit_to_div_mod]
  rcases Nat.mod_two_eq_zero_or_one (b.getD (i / 8) 0 / 2 ^ (7 - i % 8)) with h | h <;>
    rw [h] <;> simp

theorem readBit_lt_two (b : Bytes) (i : Nat) : readBit b i < 2 := by
  rw [readBit_eq_testBit]
  split <;> omega

theorem readBit_of_len_le (b : Bytes) (i : Nat) (h : 8 * b.length ≤ i) : readBit b i = 0 := by
  rw [readBit_eq_testBit, List.getD_eq_default]
  · simp
  · omega

theorem byte_ext {x y : Nat} (hx : x < 256) (hy : y < 256)
    (h : ∀ m, m < 8 → x.testBit m = y.testBit m) : x = y := by
  apply Nat.eq_of_testBit_eq
  intro m
  by_cases hm : m < 8
  · exact h m hm
  · have h28 : (256 : Nat) ≤ 2 ^ m := by
      calc (256 : Nat) = 2 ^ 8 := by norm_num
      _ ≤ 2 ^ m := Nat.pow_le_pow_right (by norm_num) (by omega)
    rw [Nat.testBit_lt_two_pow (by omega), Nat.testBit_lt_two_pow (by omega)]

theorem readBit_cons_add (x : Nat) (t : Bytes) (j : Nat) :
    readBit (x :: t) (j + 8) = readBit t j := by
  rw [readBit_eq_testBit, readBit_eq_testBit]
  have h1 : (j + 8) / 8 = j / 8 + 1 := by omega
  have h2 : (j + 8) % 8 = j % 8 := by omega
  rw [h1, h2]
  rfl

theorem readBit_cons_lt (x : Nat) (t : Bytes) (j : Nat) (hj : j < 8) :
    readBit (x :: t) j = if x.testBit (7 - j) then 1 else 0 := by
  rw [readBit_eq_testBit]
  have h1 : j / 8 = 0 := by omega
  have h2 : j % 8 = j := by omega
  rw [h1, h2]
  rfl

/-- Byte strings of equal length, with genuine byte entries, are equal as soon
as all their bits agree. -/
theorem bytes_ext : ∀ {b1 b2 : Bytes}, b1.length = b2.length → bytesWf b1 → bytesWf b2 →
    (∀ j, j < 8 * b1.length → readBit b1 j = readBit b2 j) → b1 = b2 := by
  intro b1
  induction b1 with
  | nil =>
    intro b2 hlen _ _ _
    cases b2 with
    | nil => rfl
    | cons y t => simp at hlen
  | cons x t ih =>
    intro b2 hlen hwf1 hwf2 hbits
    cases b2 with
    | nil => simp at hlen
    | cons y t2 =>
      have hx : x < 256 := hwf1 x (by simp)
      have hy : y < 256 := hwf2 y (by simp)
      have hxy : x = y := by
        apply byte_ext hx hy
        intro m hm
        have hj : 7 - m < 8 * (x :: t).length := by simp; omega
        have := hbits (7 - m) hj
        rw [readBit_cons_lt x t (7 - m) (by omega), readBit_cons_lt y t2 (7 - m) (by omega)] at this
        have hmm : 7 - (7 - m) = m := by omega
        rw [hmm] at this
        by_cases hb : x.testBit m <;> by_cases hb2 : y.testBit m <;> simp [hb, hb2] at this ⊢
      have ht : t = t2 := by
        apply ih (by simpa using hlen) (fun z hz => hwf1 z (by simp [hz]))
          (fun z hz => hwf2 z (by simp [hz]))
        intro j hj
        have := hbits (j + 8) (by simp; omega)
        rwa [readBit_cons_add, readBit_cons_add] at this
      rw [hxy, ht]

theorem length_setBit (b : Bytes) (i : Nat) : (setBit b i).length = b.length := by
  simp [setBit]

theorem length_clearBit (b : Bytes) (i : Nat) : (clearBit b i).length = b.length := by
  simp [clearBit]

theorem length_writeBit (b : Bytes) (i v : Nat) : (writeBit b i v).length = b.length := by
  unfold writeBit
  split <;> simp [length_setBit, length_clearBit]

theorem getD_wf {b : Bytes} (hb : bytesWf b) (n : Nat) : b.getD n 0 < 256 := by
  by_cases hlt : n < b.length
  · rw [List.getD_eq_getElem b 0 hlt]
    exact hb _ (List.getElem_mem hlt)
  · rw [List.getD_eq_default _ _ (by omega)]
    norm_num

theorem wf_setBit {b : Bytes} (hb : bytesWf b) (i : Nat) : bytesWf (setBit b i) := by
  intro z hz
  rcases List.mem_or_eq_of_mem_set hz with h | h
  · exact hb z h
  · subst h
    have h1 : b.getD (i / 8) 0 < 2 ^ 8 := getD_wf hb _
    have h2 : 1 <<< (7 - i % 8) < 2 ^ 8 := by
      rw [Nat.one_shiftLeft]
      exact Nat.pow_lt_pow_right (by norm_num) (by omega)
    calc b.getD (i / 8) 0 ||| 1 <<< (7 - i % 8) < 2 ^ 8 := Nat.or_lt_two_pow h1 h2
    _ = 256 := by norm_num

theorem wf_clearBit {b : Bytes} (hb : bytesWf b) (i : Nat) : bytesWf (clearBit b i) := by
  intro z hz
  rcases List.mem_or_eq_of_mem_set hz with h | h
  · exact hb z h
  · subst h
    have h3 : b.getD (i / 8) 0 &&& (255 - 1 <<< (7 - i % 8)) ≤ 255 - 1 <<< (7 - i % 8) :=
      Nat.and_le_right
    have h4 : 255 - 1 <<< (7 - i % 8) ≤ 255 := Nat.sub_le _ _
    omega

theorem wf_writeBit {b : Bytes} (hb : bytesWf b) (i v : Nat) : bytesWf (writeBit b i v) := by
  unfold writeBit
  split
  · exact wf_clearBit hb i
  · exact wf_setBit hb i

theorem mask_testBit : ∀ k, k < 8 → ∀ m, m < 8 →
    ((255 - 2 ^ k).testBit m = decide (m ≠ k) ∧ (2 ^ k).testBit m = decide (m = k)) := by
  decide

theorem testBit_or_pow {x k m : Nat} (hk : k < 8) (hm : m < 8) :
    (x ||| 2 ^ k).testBit m = (x.testBit m || decide (m = k)) := by
  rw [Nat.testBit_or, (mask_testBit k hk m hm).2]

theorem testBit_and_mask {x k m : Nat} (hk : k < 8) (hm : m < 8) :
    (x &&& (255 - 2 ^ k)).testBit m = (x.testBit m && decide (m ≠ k)) := by
  rw [Nat.testBit_and, (mask_testBit k hk m hm).1]

theorem getD_set_self {l : List Nat} {n : Nat} (x : Nat) (h : n < l.length) :
    (l.set n x).getD n 0 = x := by
  simp [List.getD_eq_getElem?_getD, List.getElem?_set_self', h]

theorem getD_set_ne {l : List Nat} {n m : Nat} (x : Nat) (h : n ≠ m) :
    (l.set n x).getD m 0 = l.getD m 0 := by
  simp [List.getD_eq_getElem?_getD, List.getElem?_set_ne h]

theorem readBit_set_byte (b : Bytes) (i j x : Nat) :
    readBit (b.set (i / 8) x) j =
      if j / 8 = i / 8 ∧ i / 8 < b.length then (if x.testBit (7 - j % 8) then 1 else 0)
      else readBit b j := by
  by_cases hib : i / 8 < b.length
  · by_cases hbyte : j / 8 = i / 8
    · have hc : j / 8 = i / 8 ∧ i / 8 < b.length := ⟨hbyte, hib⟩
      rw [if_pos hc, readBit_eq_testBit, hbyte, getD_set_self x hib]
    · rw [if_neg (by tauto), readBit_eq_testBit,
        getD_set_ne x (fun hh => hbyte hh.symm), readBit_eq_testBit]
  · rw [List.set_eq_of_length_le (by omega), if_neg (by tauto)]

/-- The central read-over-write lemma: `writeBit` changes exactly bit `i`
(when byte `i / 8` exists) and leaves every other bit alone. -/
theorem readBit_writeBit (b : Bytes) (i v j : Nat) :
    readBit (writeBit b i v) j =
      if j = i ∧ i < 8 * b.length then (if v = 0 then 0 else 1) else readBit b j := by
  have hshift : (1 : Nat) <<< (7 - i % 8) = 2 ^ (7 - i % 8) := Nat.one_shiftLeft _
  by_cases hcond : j = i ∧ i < 8 * b.length
  · rw [if_pos hcond]
    obtain ⟨heq, hi⟩ := hcond
    subst heq
    have hib : j / 8 < b.length := by omega
    have hc2 : j / 8 = j / 8 ∧ j / 8 < b.length := ⟨rfl, hib⟩
    unfold writeBit setBit clearBit
    split
    · rw [readBit_set_byte, if_pos hc2, hshift, testBit_and_mask (by omega) (by omega)]
      simp
    · rw [readBit_set_byte, if_pos hc2, hshift, testBit_or_pow (by omega) (by omega)]
      simp
  · rw [if_neg hcond]
    by_cases hi : i < 8 * b.length
    · have heq : ¬ j = i := fun hh => hcond ⟨hh, hi⟩
      have hib : i / 8 < b.length := by omega
      unfold writeBit setBit clearBit
      by_cases hbyte : j / 8 = i / 8
      · have hmod : ¬ (7 - j % 8 = 7 - i % 8) := by omega
        have hc : j / 8 = i / 8 ∧ i / 8 < b.length := ⟨hbyte, hib⟩
        split
        · rw [readBit_set_byte, if_pos hc, hshift, testBit_and_mask (by omega) (by omega),
            readBit_eq_testBit, hbyte]
          simp [hmod]
        · rw [readBit_set_byte, if_pos hc, hshift, testBit_or_pow (by omega) (by omega),
            readBit_eq_testBit, hbyte]
          simp [hmod]
      · split <;> rw [readBit_set_byte, if_neg (by tauto)]
    · have hib : b.length ≤ i / 8 := by omega
      unfold writeBit setBit clearBit
      split <;> rw [List.set_eq_of_length_le hib]

theorem readBit_makeBitVector (n j : Nat) : readBit (makeBitVector n) j = 0 := by
  rw [readBit_eq_testBit]
  have h : (makeBitVector n).getD (j / 8) 0 = 0 := by
    unfold makeBitVector
    by_cases h : j / 8 < (n + 7) / 8
    · rw [List.getD_eq_getElem _ _ (by simpa using h)]
      simp
    · rw [List.getD_eq_default _ _ (by simpa using h)]
  rw [h]
  simp

theorem length_makeBitVector (n : Nat) : (makeBitVector n).length = (n + 7) / 8 := by
  simp [makeBitVector]

theorem wf_makeBitVector (n : Nat) : bytesWf (makeBitVector n) := by
  intro x hx
  unfold makeBitVector at hx
  rw [List.eq_of_mem_replicate hx]
  norm_num

theorem writeBits_succ (dst : Bytes) (dstOff : Nat) (src : Bytes) (srcOff c : Nat) :
    writeBits dst dstOff src srcOff (c + 1) =
      writeBit (writeBits dst dstOff src srcOff c) (dstOff + c) (readBit src (srcOff + c)) := by
  unfold writeBits
  rw [List.range_succ, List.foldl_append]
  rfl

theorem length_writeBits (dst : Bytes) (dstOff : Nat) (src : Bytes) (srcOff c : Nat) :
    (writeBits dst dstOff src srcOff c).length = dst.length := by
  induction c with
  | zero => rfl
  | succ c ih => rw [writeBits_succ, length_writeBit, ih]

theorem wf_writeBits {dst : Bytes} (h : bytesWf dst) (dstOff : Nat) (src : Bytes)
    (srcOff c : Nat) : bytesWf (writeBits dst dstOff src srcOff c) := by
  induction c with
  | zero => exact h
  | succ c ih =>
    rw [writeBits_succ]
    exact wf_writeBit ih _ _

theorem readBit_writeBits (dst : Bytes) (dstOff : Nat) (src : Bytes) (srcOff c : Nat) (j : Nat) :
    readBit (writeBits dst dstOff src srcOff c) j =
      if dstOff ≤ j ∧ j < dstOff + c ∧ j < 8 * dst.length
      then readBit src (srcOff + (j - dstOff)) else readBit dst j := by
  induction c with
  | zero => rw [if_neg (by omega)]; rfl
  | succ c ih =>
    rw [writeBits_succ, readBit_writeBit, length_writeBits]
    by_cases hj : j = dstOff + c ∧ dstOff + c < 8 * dst.length
    · rw [if_pos hj]
      obtain ⟨hj1, hj2⟩ := hj
      subst hj1
      have hd : dstOff + c - dstOff = c := by omega
      have hv2 := readBit_lt_two src (srcOff + c)
      by_cases hv : readBit src (srcOff + c) = 0
      · rw [if_pos hv, if_pos (by omega), hd, hv]
      · rw [if_neg hv, if_pos (by omega), hd]
        omega
    · rw [if_neg hj, ih]
      by_cases hcase : dstOff ≤ j ∧ j < dstOff + c ∧ j < 8 * dst.length
      · rw [if_pos hcase, if_pos (by omega)]
      · rw [if_neg hcase, if_neg ?hside]
        case hside =>
          intro hcon
          obtain ⟨h1, h2, h3⟩ := hcon
          by_cases hlt : j < dstOff + c
          · exact hcase ⟨h1, hlt, h3⟩
          · exact hj ⟨by omega, by omega⟩

theorem length_copyBits (src : Bytes) (srcOff c : Nat) :
    (copyBits src srcOff c).length = (c + 7) / 8 := by
  unfold copyBits
  rw [length_writeBits, length_makeBitVector]

theorem wf_copyBits (src : Bytes) (srcOff c : Nat) : bytesWf (copyBits src srcOff c) :=
  wf_writeBits (wf_makeBitVector c) _ _ _ _

theorem readBit_copyBits (src : Bytes) (srcOff c j : Nat) :
    readBit (copyBits src srcOff c) j = if j < c then readBit src (srcOff + j) else 0 := by
  unfold copyBits
  rw [readBit_writeBits, length_makeBitVector]
  by_cases hj : j < c
  · rw [if_pos (by omega), if_pos hj]
    simp
  · rw [if_neg (by omega), if_neg hj, readBit_makeBitVector]

theorem length_mergePaths (c1 : Nat) (p1 : Bytes) (c2 : Nat) (p2 : Bytes) :
    (mergePaths c1 p1 c2 p2).length = (c1 + c2 + 7) / 8 := by
  unfold mergePaths
  rw [length_writeBits, length_writeBits, length_makeBitVector]

theorem wf_mergePaths (c1 : Nat) (p1 : Bytes) (c2 : Nat) (p2 : Bytes) :
    bytesWf (mergePaths c1 p1 c2 p2) :=
  wf_writeBits (wf_writeBits (wf_makeBitVector _) _ _ _ _) _ _ _ _

theorem readBit_mergePaths (c1 : Nat) (p1 : Bytes) (c2 : Nat) (p2 : Bytes) (j : Nat) :
    readBit (mergePaths c1 p1 c2 p2) j =
      if j < c1 then readBit p1 j
      else if j < c1 + c2 then readBit p2 (j - c1) else 0 := by
  unfold mergePaths
  rw [readBit_writeBits, length_writeBits, length_makeBitVector, readBit_writeBits,
    length_makeBitVector]
  by_cases h1 : j < c1
  · rw [if_neg (by omega), if_pos (by omega), if_pos h1]
    simp
  · by_cases h2 : j < c1 + c2
    · rw [if_pos (by omega), if_neg h1, if_pos h2]
      simp
    · rw [if_neg (by omega), if_neg (by omega), readBit_makeBitVector, if_neg h1, if_neg h2]

theorem commonLen_zero (key : Bytes) (index : Nat) (p : Bytes) :
    commonLen key index p 0 = 0 := rfl

theorem commonLen_succ (key : Bytes) (index : Nat) (p : Bytes) (c : Nat) :
    commonLen key index p (c + 1) =
      if commonLen key index p c = c ∧ readBit key (index + c) = readBit p c then c + 1
      else commonLen key index p c := rfl

theorem commonLen_le (key : Bytes) (index : Nat) (p : Bytes) (c : Nat) :
    commonLen key index p c ≤ c := by
  induction c with
  | zero => exact Nat.le_refl 0
  | succ c ih =>
    rw [commonLen_succ]
    split
    · exact Nat.le_refl _
    · omega

theorem commonLen_matches (key : Bytes) (index : Nat) (p : Bytes) (c : Nat) :
    ∀ i, i < commonLen key index p c → readBit key (index + i) = readBit p i := by
  induction c with
  | zero => intro i hi; exact absurd hi (by simp [commonLen_zero])
  | succ c ih =>
    intro i hi
    rw [commonLen_succ] at hi
    by_cases h : commonLen key index p c = c ∧ readBit key (index + c) = readBit p c
    · rw [if_pos h] at hi
      by_cases hic : i < c
      · exact ih i (by omega)
      · have : i = c := by omega
        rw [this]
        exact h.2
    · rw [if_neg h] at hi
      exact ih i hi

theorem commonLen_mismatch (key : Bytes) (index : Nat) (p : Bytes) (c : Nat)
    (h : commonLen key index p c < c) :
    readBit key (index + commonLen key index p c) ≠ readBit p (commonLen key index p c) := by
  induction c with
  | zero => omega
  | succ c ih =>
    rw [commonLen_succ] at h ⊢
    by_cases hc : commonLen key index p c = c ∧ readBit key (index + c) = readBit p c
    · rw [if_pos hc] at h
      omega
    · rw [if_neg hc]
      by_cases heq : commonLen key index p c = c
      · intro hbit
        exact hc ⟨heq, by rw [heq] at hbit; exact hbit⟩
      · exact ih (by have := commonLen_le key index p c; omega)

theorem pathMatches_iff (key : Bytes) (index : Nat) (p : Bytes) (c : Nat) :
    pathMatches key index p c = true ↔ ∀ i, i < c → readBit key (i + index) = readBit p i := by
  simp [pathMatches, List.mem_range]

theorem pathMatches_iff_commonLen (key : Bytes) (index : Nat) (p : Bytes) (c : Nat) :
    pathMatches key index p c = true ↔ commonLen key index p c = c := by
  rw [pathMatches_iff]
  constructor
  · intro h
    induction c with
    | zero => rfl
    | succ c ih =>
      rw [commonLen_succ, if_pos]
      constructor
      · exact ih (fun i hi => h i (by omega))
      · have := h c (by omega)
        rwa [Nat.add_comm c index] at this
  · intro h i hi
    rw [Nat.add_comm i index]
    exact commonLen_matches key index p c i (by omega)

/-! ## Structural invariant -/

theorem putAux_full_eq (key val : Bytes) (l r : Node) (index : Nat) :
    putAux key val (.full l r) index =
      if readBit key index = 0 then
        (.full (putAux key val l (index + 1)).1 r, (putAux key val l (index + 1)).2)
      else
        (.full l (putAux key val r (index + 1)).1, (putAux key val r (index + 1)).2) := by
  conv_lhs => rw [putAux]

theorem putAux_short_match (key val : Bytes) (c : Nat) (p : Bytes) (ch : Node) (index : Nat)
    (h : commonLen key index p c = c) :
    putAux key val (.short c p ch) index =
      (.short c p (putAux key val ch (index + c)).1, (putAux key val ch (index + c)).2) := by
  simp only [putAux]
  rw [if_pos h]

theorem putAux_short_split (key val : Bytes) (c : Nat) (p : Bytes) (ch : Node) (index k : Nat)
    (hk : commonLen key index p c = k) (hne : k ≠ c) :
    putAux key val (.short c p ch) index =
      (if 0 < k then
        Node.short k (copyBits key index k)
          (if readBit p k = 1 then
            Node.full (insertPath key val (index + k + 1))
              (if 0 < c - k - 1 then
                Node.short (c - k - 1) (copyBits p (k + 1) (c - k - 1)) ch
              else ch)
          else
            Node.full
              (if 0 < c - k - 1 then
                Node.short (c - k - 1) (copyBits p (k + 1) (c - k - 1)) ch
              else ch)
              (insertPath key val (index + k + 1)))
      else
        (if readBit p k = 1 then
          Node.full (insertPath key val (index + k + 1))
            (if 0 < c - k - 1 then
              Node.short (c - k - 1) (copyBits p (k + 1) (c - k - 1)) ch
            else ch)
        else
          Node.full
            (if 0 < c - k - 1 then
              Node.short (c - k - 1) (copyBits p (k + 1) (c - k - 1)) ch
            else ch)
            (insertPath key val (index + k + 1))), false) := by
  simp only [putAux]
  rw [hk, if_neg hne]

theorem insertPath_isShortB (key val : Bytes) (index : Nat) (h : index = 8 * key.length) :
    insertPath key val index = .leaf val := by
  unfold insertPath
  rw [if_pos h]

theorem putAux_fst_isShortB (key val : Bytes) (n : Node) (index : Nat)
    (h : n.isShortB = false) (hn : n ≠ .nil) :
    ((putAux key val n index).1).isShortB = false := by
  cases n with
  | nil => exact absurd rfl hn
  | leaf v => rfl
  | short c p ch => simp [Node.isShortB] at h
  | full l r =>
    rw [putAux_full_eq]
    split <;> rfl

theorem goodAt_not_nil {n : Node} {r : Nat} (h : goodAt n r) : n ≠ .nil := by
  cases n <;> simp [goodAt] at h ⊢

theorem goodAt_insertPath (key val : Bytes) (index : Nat) (h : index ≤ 8 * key.length) :
    goodAt (insertPath key val index) (8 * key.length - index) := by
  unfold insertPath
  by_cases he : index = 8 * key.length
  · rw [if_pos he]
    simp only [goodAt]
    omega
  · rw [if_neg he]
    refine ⟨by omega, by omega, rfl, length_copyBits _ _ _, wf_copyBits _ _ _, ?_, ?_⟩
    · intro j hj
      rw [readBit_copyBits, if_neg (by omega)]
    · simp only [goodAt]
      omega

theorem goodAt_putAux (key val : Bytes) :
    ∀ (n : Node) (index : Nat), goodAt n (8 * key.length - index) → index ≤ 8 * key.length →
      goodAt (putAux key val n index).1 (8 * key.length - index) := by
  intro n
  induction n with
  | nil => intro index h _; exact absurd h (by simp [goodAt])
  | leaf v => intro index h _; exact h
  | full l r ihl ihr =>
    intro index h hle
    obtain ⟨h1, hl, hr⟩ := h
    rw [putAux_full_eq]
    have harith : 8 * key.length - index - 1 = 8 * key.length - (index + 1) := by omega
    split
    · refine ⟨h1, ?_, hr⟩
      rw [harith] at hl ⊢
      exact ihl (index + 1) hl (by omega)
    · refine ⟨h1, hl, ?_⟩
      rw [harith] at hr ⊢
      exact ihr (index + 1) hr (by omega)
  | short c p ch ih =>
    intro index h hle
    obtain ⟨hc1, hcr, hns, hplen, hpwf, hppad, hch⟩ := h
    by_cases hk : commonLen key index p c = c
    · rw [putAux_short_match key val c p ch index hk]
      have harith : 8 * key.length - index - c = 8 * key.length - (index + c) := by omega
      refine ⟨hc1, hcr, ?_, hplen, hpwf, hppad, ?_⟩
      · exact putAux_fst_isShortB key val ch (index + c) hns (goodAt_not_nil hch)
      · rw [harith] at hch ⊢
        exact ih (index + c) hch (by omega)
    · rw [putAux_short_split key val c p ch index (commonLen key index p c) rfl hk]
      have hklt : commonLen key index p c < c :=
        Nat.lt_of_le_of_ne (commonLen_le key index p c) hk
      set k := commonLen key index p c with hkdef
      have hremain : goodAt
          (if 0 < c - k - 1 then
            Node.short (c - k - 1) (copyBits p (k + 1) (c - k - 1)) ch
          else ch) (8 * key.length - index - k - 1) := by
        by_cases hrc : 0 < c - k - 1
        · rw [if_pos hrc]
          refine ⟨by omega, by omega, hns, length_copyBits _ _ _, wf_copyBits _ _ _, ?_, ?_⟩
          · intro j hj
            rw [readBit_copyBits, if_neg (by omega)]
          · have harith : 8 * key.length - index - k - 1 - (c - k - 1) =
                8 * key.length - index - c := by omega
            rw [harith]
            exact hch
        · rw [if_neg hrc]
          have harith : 8 * key.length - index - k - 1 = 8 * key.length - index - c := by
            omega
          rw [harith]
          exact hch
      have hour : goodAt (insertPath key val (index + k + 1))
          (8 * key.length - index - k - 1) := by
        have harith : 8 * key.length - index - k - 1 =
            8 * key.length - (index + k + 1) := by omega
        rw [harith]
        exact goodAt_insertPath key val (index + k + 1) (by omega)
      have hsplit : goodAt
          (if readBit p k = 1 then
            Node.full (insertPath key val (index + k + 1))
              (if 0 < c - k - 1 then
                Node.short (c - k - 1) (copyBits p (k + 1) (c - k - 1)) ch
              else ch)
          else
            Node.full
              (if 0 < c - k - 1 then
                Node.short (c - k - 1) (copyBits p (k + 1) (c - k - 1)) ch
              else ch)
              (insertPath key val (index + k + 1))) (8 * key.length - index - k) := by
        have harith : 8 * key.length - index - k - 1 =
            (8 * key.length - index - k) - 1 := by omega
        rw [harith] at hour hremain
        split
        · exact ⟨by omega, hour, hremain⟩
        · exact ⟨by omega, hremain, hour⟩
      by_cases hk0 : 0 < k
      · rw [if_pos hk0]
        refine ⟨hk0, by omega, ?_, length_copyBits _ _ _, wf_copyBits _ _ _, ?_, ?_⟩
        · split <;> rfl
        · intro j hj
          rw [readBit_copyBits, if_neg (by omega)]
        · exact hsplit
      · rw [if_neg hk0]
        have harith : 8 * key.length - index - k = 8 * key.length - index := by omega
        rw [harith] at hsplit
        exact hsplit

/-! ## Lookup characterization of insertion -/

theorem readBit_cases (b : Bytes) (i : Nat) : readBit b i = 0 ∨ readBit b i = 1 := by
  have := readBit_lt_two b i
  omega

theorem getAux_leaf_eq (key v : Bytes) (index : Nat) :
    getAux key (.leaf v) index = some v := rfl

theorem getAux_full_eq (key : Bytes) (l r : Node) (index : Nat) :
    getAux key (.full l r) index =
      if readBit key index = 0 then getAux key l (index + 1) else getAux key r (index + 1) := by
  rfl

theorem getAux_short_eq (key : Bytes) (c : Nat) (p : Bytes) (ch : Node) (index : Nat) :
    getAux key (.short c p ch) index =
      if pathMatches key index p c then getAux key ch (index + c) else none := rfl

theorem getAux_insertPath (key key2 val : Bytes) (index : Nat) (h : index ≤ 8 * key.length) :
    getAux key2 (insertPath key val index) index =
      if agreesFrom key2 key index (8 * key.length) then some val else none := by
  simp only [insertPath]
  by_cases he : index = 8 * key.length
  · rw [if_pos he]
    have hv : agreesFrom key2 key index (8 * key.length) := by
      intro j hj hij
      exact absurd hj (by omega)
    rw [if_pos hv]
    rfl
  · rw [if_neg he, getAux_short_eq]
    have hiff : pathMatches key2 index (copyBits key index (8 * key.length - index))
        (8 * key.length - index) = true ↔ agreesFrom key2 key index (8 * key.length) := by
      rw [pathMatches_iff]
      constructor
      · intro hm j hjN hji
        have hmj := hm (j - index) (by omega)
        rw [readBit_copyBits, if_pos (by omega)] at hmj
        have harith : index + (j - index) = j := by omega
        have harith2 : j - index + index = j := by omega
        rw [harith] at hmj
        rw [harith2] at hmj
        exact hmj
      · intro ha i hi
        rw [readBit_copyBits, if_pos hi, Nat.add_comm i index]
        exact ha (index + i) (by omega) (by omega)
    by_cases hA : agreesFrom key2 key index (8 * key.length)
    · rw [if_pos (hiff.mpr hA), if_pos hA]
      rfl
    · rw [if_neg (fun hm => hA (hiff.mp hm)), if_neg hA]

theorem getAux_common_short (key key2 : Bytes) (index k : Nat) (S : Node)
    (hagk : ∀ i, i < k → readBit key2 (index + i) = readBit key (index + i)) :
    getAux key2 (if 0 < k then Node.short k (copyBits key index k) S else S) index =
      getAux key2 S (index + k) := by
  by_cases hk0 : 0 < k
  · rw [if_pos hk0, getAux_short_eq]
    have hm : pathMatches key2 index (copyBits key index k) k = true := by
      rw [pathMatches_iff]
      intro i hi
      rw [readBit_copyBits, if_pos hi, Nat.add_comm i index]
      exact hagk i hi
    rw [if_pos hm]
  · rw [if_neg hk0]
    have hz : k = 0 := by omega
    rw [hz, Nat.add_zero]

theorem getAux_remain_match (key2 p : Bytes) (ch : Node) (index k c : Nat) (hklt : k < c)
    (hmatch : ∀ j, j < c - k - 1 → readBit key2 (index + k + 1 + j) = readBit p (k + 1 + j)) :
    getAux key2
        (if 0 < c - k - 1 then Node.short (c - k - 1) (copyBits p (k + 1) (c - k - 1)) ch
         else ch) (index + k + 1) =
      getAux key2 ch (index + c) := by
  by_cases hrc : 0 < c - k - 1
  · rw [if_pos hrc, getAux_short_eq]
    have hm : pathMatches key2 (index + k + 1) (copyBits p (k + 1) (c - k - 1)) (c - k - 1) =
        true := by
      rw [pathMatches_iff]
      intro i hi
      rw [readBit_copyBits, if_pos hi, Nat.add_comm i (index + k + 1)]
      exact hmatch i hi
    rw [if_pos hm]
    have harith : index + k + 1 + (c - k - 1) = index + c := by omega
    rw [harith]
  · rw [if_neg hrc]
    have harith : index + k + 1 = index + c := by omega
    rw [harith]

theorem getAux_remain_miss (key2 p : Bytes) (ch : Node) (index k c : Nat) (hklt : k < c)
    (j0 : Nat) (hj0 : j0 < c - k - 1)
    (hne : readBit key2 (index + k + 1 + j0) ≠ readBit p (k + 1 + j0)) :
    getAux key2
        (if 0 < c - k - 1 then Node.short (c - k - 1) (copyBits p (k + 1) (c - k - 1)) ch
         else ch) (index + k + 1) = none := by
  have hrc : 0 < c - k - 1 := by omega
  rw [if_pos hrc, getAux_short_eq]
  have hm : ¬ (pathMatches key2 (index + k + 1) (copyBits p (k + 1) (c - k - 1)) (c - k - 1) =
      true) := by
    rw [pathMatches_iff]
    intro hmm
    have := hmm j0 hj0
    rw [readBit_copyBits, if_pos hj0, Nat.add_comm j0 (index + k + 1)] at this
    exact hne this
  rw [if_neg hm]

/-- The value found under any probe key after an insertion: the new value if
the probe agrees with the inserted key on every bit from `index` on, the old
lookup otherwise.  This is the heart of claims C1, C2, C8 and C9. -/
theorem getAux_putAux (key key2 val : Bytes) :
    ∀ (n : Node) (index : Nat), goodAt n (8 * key.length - index) → index ≤ 8 * key.length →
      getAux key2 (putAux key val n index).1 index =
        if agreesFrom key2 key index (8 * key.length) then some val
        else getAux key2 n index := by
  intro n
  induction n with
  | nil => intro index h _; exact absurd h (by simp [goodAt])
  | leaf v =>
    intro index h hle
    have he : index = 8 * key.length := by
      simp only [goodAt] at h
      omega
    have hv : agreesFrom key2 key index (8 * key.length) := fun j hj hij =>
      absurd hj (by omega)
    rw [if_pos hv]
    rfl
  | full l r ihl ihr =>
    intro index h hle
    obtain ⟨h1, hl, hr⟩ := h
    have hidx : index < 8 * key.length := by omega
    have harith : 8 * key.length - index - 1 = 8 * key.length - (index + 1) := by omega
    rw [harith] at hl hr
    have hstep : readBit key2 index = readBit key index →
        (agreesFrom key2 key index (8 * key.length) ↔
          agreesFrom key2 key (index + 1) (8 * key.length)) := by
      intro hbit
      constructor
      · intro ha j hj hij
        exact ha j hj (by omega)
      · intro ha j hj hij
        by_cases hji : j = index
        · rw [hji]
          exact hbit
        · exact ha j hj (by omega)
    rw [putAux_full_eq]
    rcases readBit_cases key index with hb | hb <;> rcases readBit_cases key2 index with hb2 | hb2
    · rw [if_pos hb, getAux_full_eq, if_pos hb2, ihl (index + 1) hl (by omega)]
      by_cases hA : agreesFrom key2 key (index + 1) (8 * key.length)
      · rw [if_pos hA, if_pos ((hstep (by rw [hb, hb2])).mpr hA)]
      · rw [if_neg hA, if_neg (fun hA0 => hA ((hstep (by rw [hb, hb2])).mp hA0)),
          getAux_full_eq, if_pos hb2]
    · have hA : ¬ agreesFrom key2 key index (8 * key.length) := by
        intro ha
        have := ha index hidx (Nat.le_refl _)
        omega
      rw [if_pos hb, getAux_full_eq, if_neg (show ¬ readBit key2 index = 0 by omega),
        if_neg hA, getAux_full_eq, if_neg (show ¬ readBit key2 index = 0 by omega)]
    · have hA : ¬ agreesFrom key2 key index (8 * key.length) := by
        intro ha
        have := ha index hidx (Nat.le_refl _)
        omega
      rw [if_neg (show ¬ readBit key index = 0 by omega), getAux_full_eq, if_pos hb2,
        if_neg hA, getAux_full_eq, if_pos hb2]
    · rw [if_neg (show ¬ readBit key index = 0 by omega), getAux_full_eq,
        if_neg (show ¬ readBit key2 index = 0 by omega), ihr (index + 1) hr (by omega)]
      by_cases hA : agreesFrom key2 key (index + 1) (8 * key.length)
      · rw [if_pos hA, if_pos ((hstep (by rw [hb, hb2])).mpr hA)]
      · rw [if_neg hA, if_neg (fun hA0 => hA ((hstep (by rw [hb, hb2])).mp hA0)),
          getAux_full_eq, if_neg (show ¬ readBit key2 index = 0 by omega)]
  | short c p ch ih =>
    intro index h hle
    obtain ⟨hc1, hcr, hns, hplen, hpwf, hppad, hch⟩ := h
    by_cases hk : commonLen key index p c = c
    · have hkm : ∀ i, i < c → readBit key (index + i) = readBit p i := fun i hi =>
        commonLen_matches key index p c i (by omega)
      rw [putAux_short_match key val c p ch index hk, getAux_short_eq, getAux_short_eq]
      have harith : 8 * key.length - index - c = 8 * key.length - (index + c) := by omega
      rw [harith] at hch
      have hpm2 : pathMatches key2 index p c = true ↔
          (∀ j, j < index + c → index ≤ j → readBit key2 j = readBit key j) := by
        rw [pathMatches_iff]
        constructor
        · intro hm j hj hij
          have hmi := hm (j - index) (by omega)
          rw [Nat.sub_add_cancel hij] at hmi
          rw [hmi, ← hkm (j - index) (by omega)]
          congr 1
          omega
        · intro ha i hi
          rw [Nat.add_comm i index, ← hkm i hi]
          exact ha (index + i) (by omega) (by omega)
      by_cases hm2 : pathMatches key2 index p c = true
      · rw [if_pos hm2, if_pos hm2, ih (index + c) hch (by omega)]
        have hiff : agreesFrom key2 key index (8 * key.length) ↔
            agreesFrom key2 key (index + c) (8 * key.length) := by
          constructor
          · intro ha j hj hij
            exact ha j hj (by omega)
          · intro ha j hj hij
            by_cases hjc : j < index + c
            · exact (hpm2.mp hm2) j hjc hij
            · exact ha j hj (by omega)
        by_cases hA : agreesFrom key2 key (index + c) (8 * key.length)
        · rw [if_pos hA, if_pos (hiff.mpr hA)]
        · rw [if_neg hA, if_neg (fun h0 => hA (hiff.mp h0))]
      · rw [if_neg hm2, if_neg hm2]
        have hA : ¬ agreesFrom key2 key index (8 * key.length) := by
          intro ha
          apply hm2
          apply hpm2.mpr
          intro j hj hij
          exact ha j (by omega) hij
        rw [if_neg hA]
    · have hklt : commonLen key index p c < c :=
        Nat.lt_of_le_of_ne (commonLen_le key index p c) hk
      rw [putAux_short_split key val c p ch index (commonLen key index p c) rfl hk]
      set k := commonLen key index p c with hkdef
      have hkm : ∀ i, i < k → readBit key (index + i) = readBit p i := fun i hi =>
        commonLen_matches key index p c i (by omega)
      have hmis : readBit key (index + k) ≠ readBit p k := commonLen_mismatch key index p c hklt
      have hik : index + k < 8 * key.length := by omega
      by_cases hagk : ∀ i, i < k → readBit key2 (index + i) = readBit key (index + i)
      · -- key2 follows key to the split point
        rw [getAux_common_short key key2 index k _ hagk]
        have hpmlow : ∀ i, i < k → readBit key2 (i + index) = readBit p i := by
          intro i hi
          rw [Nat.add_comm i index, hagk i hi]
          exact hkm i hi
        have hiff : agreesFrom key2 key index (8 * key.length) ↔
            (readBit key2 (index + k) = readBit key (index + k) ∧
              agreesFrom key2 key (index + k + 1) (8 * key.length)) := by
          constructor
          · intro ha
            exact ⟨ha (index + k) hik (by omega), fun j hj hij => ha j hj (by omega)⟩
          · rintro ⟨hbit, ha⟩ j hj hij
            by_cases hjk : j < index + k
            · have hh := hagk (j - index) (by omega)
              have harith : index + (j - index) = j := by omega
              rw [harith] at hh
              exact hh
            · by_cases hjk2 : j = index + k
              · rw [hjk2]
                exact hbit
              · exact ha j hj (by omega)
        rcases readBit_cases key (index + k) with hb | hb <;>
          rcases readBit_cases key2 (index + k) with hb2 | hb2 <;>
          rcases readBit_cases p k with hpb | hpb
        all_goals try (exact absurd (hb.trans hpb.symm) hmis)
        · -- key bit 0, key2 bit 0, path bit 1 : our side, left of the split
          rw [if_pos hpb, getAux_full_eq, if_pos hb2,
            getAux_insertPath key key2 val (index + k + 1) (by omega)]
          have hold : ¬ (pathMatches key2 index p c = true) := by
            rw [pathMatches_iff]
            intro hm
            have := hm k hklt
            rw [Nat.add_comm k index] at this
            omega
          rw [getAux_short_eq, if_neg hold]
          by_cases hA : agreesFrom key2 key (index + k + 1) (8 * key.length)
          · rw [if_pos hA, if_pos (hiff.mpr ⟨by omega, hA⟩)]
          · rw [if_neg hA, if_neg (fun h0 => hA (hiff.mp h0).2)]
        · -- key bit 0, key2 bit 1, path bit 1 : key2 follows the old remainder
          rw [if_pos hpb, getAux_full_eq,
            if_neg (show ¬ readBit key2 (index + k) = 0 by omega)]
          have hA : ¬ agreesFrom key2 key index (8 * key.length) := by
            intro ha
            have := ha (index + k) hik (by omega)
            omega
          rw [if_neg hA, getAux_short_eq]
          by_cases hrest : ∀ j, j < c - k - 1 →
              readBit key2 (index + k + 1 + j) = readBit p (k + 1 + j)
          · rw [getAux_remain_match key2 p ch index k c hklt hrest]
            have hm : pathMatches key2 index p c = true := by
              rw [pathMatches_iff]
              intro i hi
              by_cases hik2 : i < k
              · exact hpmlow i hik2
              · by_cases hieq : i = k
                · rw [hieq, Nat.add_comm k index]
                  omega
                · have hj0 : i - k - 1 < c - k - 1 := by omega
                  have hri := hrest (i - k - 1) hj0
                  have harith : index + k + 1 + (i - k - 1) = i + index := by omega
                  have harith2 : k + 1 + (i - k - 1) = i := by omega
                  rw [harith, harith2] at hri
                  exact hri
            rw [if_pos hm]
          · push_neg at hrest
            obtain ⟨j0, hj0, hj0ne⟩ := hrest
            rw [getAux_remain_miss key2 p ch index k c hklt j0 hj0 hj0ne]
            have hm : ¬ (pathMatches key2 index p c = true) := by
              rw [pathMatches_iff]
              intro hm
              have hmm := hm (k + 1 + j0) (by omega)
              have harith : k + 1 + j0 + index = index + k + 1 + j0 := by omega
              rw [harith] at hmm
              exact hj0ne hmm
            rw [if_neg hm]
        · -- key bit 1, key2 bit 0, path bit 0 : key2 follows the old remainder
          rw [if_neg (show ¬ readBit p k = 1 by omega), getAux_full_eq, if_pos hb2]
          have hA : ¬ agreesFrom key2 key index (8 * key.length) := by
            intro ha
            have := ha (index + k) hik (by omega)
            omega
          rw [if_neg hA, getAux_short_eq]
          by_cases hrest : ∀ j, j < c - k - 1 →
              readBit key2 (index + k + 1 + j) = readBit p (k + 1 + j)
          · rw [getAux_remain_match key2 p ch index k c hklt hrest]
            have hm : pathMatches key2 index p c = true := by
              rw [pathMatches_iff]
              intro i hi
              by_cases hik2 : i < k
              · exact hpmlow i hik2
              · by_cases hieq : i = k
                · rw [hieq, Nat.add_comm k index]
                  omega
                · have hj0 : i - k - 1 < c - k - 1 := by omega
                  have hri := hrest (i - k - 1) hj0
                  have harith : index + k + 1 + (i - k - 1) = i + index := by omega
                  have harith2 : k + 1 + (i - k - 1) = i := by omega
                  rw [harith, harith2] at hri
                  exact hri
            rw [if_pos hm]
          · push_neg at hrest
            obtain ⟨j0, hj0, hj0ne⟩ := hrest
            rw [getAux_remain_miss key2 p ch index k c hklt j0 hj0 hj0ne]
            have hm : ¬ (pathMatches key2 index p c = true) := by
              rw [pathMatches_iff]
              intro hm
              have hmm := hm (k + 1 + j0) (by omega)
              have harith : k + 1 + j0 + index = index + k + 1 + j0 := by omega
              rw [harith] at hmm
              exact hj0ne hmm
            rw [if_neg hm]
        · -- key bit 1, key2 bit 1, path bit 0 : our side, right of the split
          rw [if_neg (show ¬ readBit p k = 1 by omega), getAux_full_eq,
            if_neg (show ¬ readBit key2 (index + k) = 0 by omega),
            getAux_insertPath key key2 val (index + k + 1) (by omega)]
          have hold : ¬ (pathMatches key2 index p c = true) := by
            rw [pathMatches_iff]
            intro hm
            have := hm k hklt
            rw [Nat.add_comm k index] at this
            omega
          rw [getAux_short_eq, if_neg hold]
          by_cases hA : agreesFrom key2 key (index + k + 1) (8 * key.length)
          · rw [if_pos hA, if_pos (hiff.mpr ⟨by omega, hA⟩)]
          · rw [if_neg hA, if_neg (fun h0 => hA (hiff.mp h0).2)]
      · -- key2 leaves key before the split point: untouched on key2's path
        push_neg at hagk
        obtain ⟨i0, hi0k, hi0ne⟩ := hagk
        have hk0 : 0 < k := by omega
        rw [if_pos hk0, getAux_short_eq]
        have hcpfail : ¬ (pathMatches key2 index (copyBits key index k) k = true) := by
          rw [pathMatches_iff]
          intro hm
          have := hm i0 hi0k
          rw [readBit_copyBits, if_pos hi0k, Nat.add_comm i0 index] at this
          exact hi0ne this
        rw [if_neg hcpfail]
        have hA : ¬ agreesFrom key2 key index (8 * key.length) := by
          intro ha
          exact hi0ne (ha (index + i0) (by omega) (by omega))
        rw [if_neg hA, getAux_short_eq]
        have hopfail : ¬ (pathMatches key2 index p c = true) := by
          rw [pathMatches_iff]
          intro hm
          have h2 := hm i0 (by omega)
          rw [Nat.add_comm i0 index] at h2
          rw [hkm i0 hi0k] at hi0ne
          exact hi0ne h2
        rw [if_neg hopfail]

/-! ## Extensionality of good trees under lookup -/

theorem readBit_writeBits_in (dst src : Bytes) (dstOff srcOff c j : Nat)
    (h1 : dstOff ≤ j) (h2 : j < dstOff + c) (h3 : j < 8 * dst.length) :
    readBit (writeBits dst dstOff src srcOff c) j = readBit src (srcOff + (j - dstOff)) := by
  have hc : dstOff ≤ j ∧ j < dstOff + c ∧ j < 8 * dst.length := ⟨h1, h2, h3⟩
  rw [readBit_writeBits, if_pos hc]

theorem readBit_writeBits_out (dst src : Bytes) (dstOff srcOff c j : Nat)
    (h : j < dstOff ∨ dstOff + c ≤ j) :
    readBit (writeBits dst dstOff src srcOff c) j = readBit dst j := by
  rw [readBit_writeBits, if_neg (by omega)]

theorem wf_replicate_zero (L : Nat) : bytesWf (List.replicate L 0) := by
  intro x hx
  rw [List.eq_of_mem_replicate hx]
  norm_num

/-- `getAux` from `index` on a subtree consuming `r` bits reads only the key
bits in `[index, index + r)`. -/
theorem getAux_congr (key1 key2 : Bytes) :
    ∀ (n : Node) (index r : Nat), goodAt n r →
      (∀ j, index ≤ j → j < index + r → readBit key1 j = readBit key2 j) →
      getAux key1 n index = getAux key2 n index := by
  intro n
  induction n with
  | nil => intro index r h _; exact absurd h (by simp [goodAt])
  | leaf v => intro index r h _; rfl
  | full l rr ihl ihr =>
    intro index r h hag
    obtain ⟨h1, hl, hr⟩ := h
    have hbit : readBit key1 index = readBit key2 index := hag index (Nat.le_refl _) (by omega)
    rw [getAux_full_eq, getAux_full_eq, hbit]
    by_cases hb : readBit key2 index = 0
    · rw [if_pos hb, if_pos hb]
      exact ihl (index + 1) (r - 1) hl (fun j hj1 hj2 => hag j (by omega) (by omega))
    · rw [if_neg hb, if_neg hb]
      exact ihr (index + 1) (r - 1) hr (fun j hj1 hj2 => hag j (by omega) (by omega))
  | short c p ch ih =>
    intro index r h hag
    obtain ⟨hc1, hcr, hns, hplen, hpwf, hppad, hch⟩ := h
    have hpm : pathMatches key1 index p c = pathMatches key2 index p c := by
      have hiff : pathMatches key1 index p c = true ↔ pathMatches key2 index p c = true := by
        rw [pathMatches_iff, pathMatches_iff]
        constructor
        · intro hk i hi
          rw [← hk i hi]
          exact (hag (i + index) (by omega) (by omega)).symm
        · intro hk i hi
          rw [← hk i hi]
          exact hag (i + index) (by omega) (by omega)
      cases hx : pathMatches key1 index p c <;> cases hy : pathMatches key2 index p c <;>
        simp_all
    rw [getAux_short_eq, getAux_short_eq, hpm]
    by_cases hm : pathMatches key2 index p c = true
    · rw [if_pos hm, if_pos hm]
      exact ih (index + c) (r - c) hch (fun j hj1 hj2 => hag j (by omega) (by omega))
    · rw [if_neg hm, if_neg hm]

/-- Every well-formed subtree holds at least one key. -/
theorem goodAt_found (L : Nat) :
    ∀ (n : Node) (index : Nat), goodAt n (8 * L - index) → index ≤ 8 * L →
      ∃ (key v : Bytes), key.length = L ∧ bytesWf key ∧ getAux key n index = some v := by
  intro n
  induction n with
  | nil => intro index h _; exact absurd h (by simp [goodAt])
  | leaf v =>
    intro index h hle
    exact ⟨List.replicate L 0, v, by simp, wf_replicate_zero L, rfl⟩
  | full l r ihl ihr =>
    intro index h hle
    obtain ⟨h1, hl, hr⟩ := h
    have hidx : index < 8 * L := by omega
    have harith : 8 * L - index - 1 = 8 * L - (index + 1) := by omega
    rw [harith] at hl
    obtain ⟨key0, v, hklen, hkwf, hfound⟩ := ihl (index + 1) hl (by omega)
    refine ⟨writeBit key0 index 0, v, by rw [length_writeBit]; exact hklen,
      wf_writeBit hkwf _ _, ?_⟩
    have hbit : readBit (writeBit key0 index 0) index = 0 := by
      have hcc : index = index ∧ index < 8 * key0.length := ⟨rfl, by rw [hklen]; omega⟩
      rw [readBit_writeBit, if_pos hcc]
      simp
    rw [getAux_full_eq, if_pos hbit, ← hfound]
    exact getAux_congr _ key0 l (index + 1) _ hl (fun j hj1 hj2 => by
      rw [readBit_writeBit, if_neg (by omega)])
  | short c p ch ih =>
    intro index h hle
    obtain ⟨hc1, hcr, hns, hplen, hpwf, hppad, hch⟩ := h
    have harith : 8 * L - index - c = 8 * L - (index + c) := by omega
    rw [harith] at hch
    obtain ⟨key0, v, hklen, hkwf, hfound⟩ := ih (index + c) hch (by omega)
    refine ⟨writeBits key0 index p 0 c, v, by rw [length_writeBits]; exact hklen,
      wf_writeBits hkwf _ _ _ _, ?_⟩
    have hm : pathMatches (writeBits key0 index p 0 c) index p c = true := by
      rw [pathMatches_iff]
      intro i hi
      rw [readBit_writeBits_in key0 p index 0 c (i + index) (by omega) (by omega)
        (by rw [hklen]; omega)]
      congr 1
      omega
    rw [getAux_short_eq, if_pos hm, ← hfound]
    exact getAux_congr _ key0 ch (index + c) _ hch (fun j hj1 hj2 => by
      rw [readBit_writeBits_out key0 p index 0 c j (by omega)])

/-- A well-formed `full` node holds keys with either desired bit value at its
branch position. -/
theorem goodAt_full_found_bit (L : Nat) (fl fr : Node) (m bb : Nat) (hbb : bb < 2)
    (h : goodAt (.full fl fr) (8 * L - m)) (hm : m ≤ 8 * L) :
    ∃ (key v : Bytes), key.length = L ∧ bytesWf key ∧
      getAux key (.full fl fr) m = some v ∧ readBit key m = bb := by
  obtain ⟨h1, hl, hr⟩ := h
  have hidx : m < 8 * L := by omega
  have harith : 8 * L - m - 1 = 8 * L - (m + 1) := by omega
  rw [harith] at hl hr
  by_cases hb0 : bb = 0
  · obtain ⟨key0, v, hklen, hkwf, hfound⟩ := goodAt_found L fl (m + 1) hl (by omega)
    refine ⟨writeBit key0 m 0, v, by rw [length_writeBit]; exact hklen,
      wf_writeBit hkwf _ _, ?_, ?_⟩
    · have hbit : readBit (writeBit key0 m 0) m = 0 := by
        have hcc : m = m ∧ m < 8 * key0.length := ⟨rfl, by rw [hklen]; omega⟩
        rw [readBit_writeBit, if_pos hcc]
        simp
      rw [getAux_full_eq, if_pos hbit, ← hfound]
      exact getAux_congr _ key0 fl (m + 1) _ hl (fun j hj1 hj2 => by
        rw [readBit_writeBit, if_neg (by omega)])
    · have hcc : m = m ∧ m < 8 * key0.length := ⟨rfl, by rw [hklen]; omega⟩
      rw [readBit_writeBit, if_pos hcc, hb0]
      simp
  · have hb1 : bb = 1 := by omega
    obtain ⟨key0, v, hklen, hkwf, hfound⟩ := goodAt_found L fr (m + 1) hr (by omega)
    refine ⟨writeBit key0 m 1, v, by rw [length_writeBit]; exact hklen,
      wf_writeBit hkwf _ _, ?_, ?_⟩
    · have hbit : readBit (writeBit key0 m 1) m = 1 := by
        have hcc : m = m ∧ m < 8 * key0.length := ⟨rfl, by rw [hklen]; omega⟩
        rw [readBit_writeBit, if_pos hcc]
        simp
      rw [getAux_full_eq, if_neg (by omega), ← hfound]
      exact getAux_congr _ key0 fr (m + 1) _ hr (fun j hj1 hj2 => by
        rw [readBit_writeBit, if_neg (by omega)])
    · have hcc : m = m ∧ m < 8 * key0.length := ⟨rfl, by rw [hklen]; omega⟩
      rw [readBit_writeBit, if_pos hcc, hb1]
      simp

/-- Pushing a found key of the child up through a short node by overwriting
the path bits. -/
theorem found_through_short (L c : Nat) (p : Bytes) (ch : Node) (index : Nat)
    (key0 v : Bytes) (hklen : key0.length = L) (hkwf : bytesWf key0)
    (hfound : getAux key0 ch (index + c) = some v)
    (hch : goodAt ch (8 * L - (index + c))) (hcr : index + c ≤ 8 * L) :
    getAux (writeBits key0 index p 0 c) (.short c p ch) index = some v ∧
    (∀ i, i < c → readBit (writeBits key0 index p 0 c) (index + i) = readBit p i) ∧
    (∀ j, j < index ∨ index + c ≤ j → readBit (writeBits key0 index p 0 c) j = readBit key0 j) ∧
    (writeBits key0 index p 0 c).length = L ∧ bytesWf (writeBits key0 index p 0 c) := by
  have hbits : ∀ i, i < c → readBit (writeBits key0 index p 0 c) (index + i) = readBit p i := by
    intro i hi
    rw [readBit_writeBits_in key0 p index 0 c (index + i) (by omega) (by omega)
      (by rw [hklen]; omega)]
    congr 1
    omega
  have hout : ∀ j, j < index ∨ index + c ≤ j →
      readBit (writeBits key0 index p 0 c) j = readBit key0 j := by
    intro j hj
    exact readBit_writeBits_out key0 p index 0 c j (by omega)
  refine ⟨?_, hbits, hout, by rw [length_writeBits]; exact hklen, wf_writeBits hkwf _ _ _ _⟩
  have hmm : pathMatches (writeBits key0 index p 0 c) index p c = true := by
    rw [pathMatches_iff]
    intro i hi
    rw [Nat.add_comm i index]
    exact hbits i hi
  rw [getAux_short_eq, if_pos hmm, ← hfound]
  exact getAux_congr _ key0 ch (index + c) _ hch (fun j hj1 hj2 => hout j (by omega))

/-- Canonical-form uniqueness (spec §3 invariant 5): two well-formed subtrees
that answer every lookup identically are structurally equal. -/
theorem goodAt_ext (L : Nat) :
    ∀ (n1 n2 : Node) (index : Nat),
      goodAt n1 (8 * L - index) → goodAt n2 (8 * L - index) → index ≤ 8 * L →
      (∀ key : Bytes, key.length = L → bytesWf key →
        getAux key n1 index = getAux key n2 index) →
      n1 = n2 := by
  intro n1
  induction n1 with
  | nil => intro n2 index h1 _ _ _; exact absurd h1 (by simp [goodAt])
  | leaf v1 =>
    intro n2 index h1 h2 hle hagree
    have hidx : 8 * L - index = 0 := by simp only [goodAt] at h1; omega
    cases n2 with
    | nil => exact absurd h2 (by simp [goodAt])
    | leaf v2 =>
      have hk := hagree (List.replicate L 0) (by simp) (wf_replicate_zero L)
      simp only [getAux_leaf_eq, Option.some.injEq] at hk
      rw [hk]
    | short c2 p2 ch2 =>
      exfalso
      obtain ⟨hc21, hc2r, _⟩ := h2
      omega
    | full l2 r2 =>
      exfalso
      obtain ⟨hfr2, _, _⟩ := h2
      omega
  | full l1 r1 ihl ihr =>
    intro n2 index h1 h2 hle hagree
    have hfr1 := h1.1
    have hidx : index < 8 * L := by omega
    cases n2 with
    | nil => exact absurd h2 (by simp [goodAt])
    | leaf v2 =>
      exfalso
      simp only [goodAt] at h2
      omega
    | short c2 p2 ch2 =>
      exfalso
      obtain ⟨hc21, hc2r, hns2, hplen2, hpwf2, hppad2, hch2⟩ := h2
      -- a key through n1 whose bit at `index` avoids p2's first bit
      obtain ⟨key, v, hklen, hkwf, hfound, hbit⟩ :=
        goodAt_full_found_bit L l1 r1 index (1 - readBit p2 0)
          (by have := readBit_lt_two p2 0; omega) h1 (by omega)
      have hmiss : getAux key (.short c2 p2 ch2) index = none := by
        have hpm : ¬ (pathMatches key index p2 c2 = true) := by
          rw [pathMatches_iff]
          intro hmm
          have h0 := hmm 0 (by omega)
          rw [Nat.zero_add] at h0
          have := readBit_lt_two p2 0
          omega
        rw [getAux_short_eq, if_neg hpm]
      have hc := hagree key hklen hkwf
      rw [hfound, hmiss] at hc
      exact Option.noConfusion hc
    | full l2 r2 =>
      obtain ⟨hfrA, hl1, hr1⟩ := h1
      obtain ⟨hfrB, hl2, hr2⟩ := h2
      have harith : 8 * L - index - 1 = 8 * L - (index + 1) := by omega
      rw [harith] at hl1 hr1 hl2 hr2
      have hL : l1 = l2 := by
        apply ihl l2 (index + 1) hl1 hl2 (by omega)
        intro key hklen hkwf
        have hbit : readBit (writeBit key index 0) index = 0 := by
          have hcc : index = index ∧ index < 8 * key.length := ⟨rfl, by rw [hklen]; omega⟩
          rw [readBit_writeBit, if_pos hcc]
          simp
        have hag := hagree (writeBit key index 0) (by rw [length_writeBit]; exact hklen)
          (wf_writeBit hkwf _ _)
        rw [getAux_full_eq, getAux_full_eq, if_pos hbit, if_pos hbit] at hag
        have e1 : getAux (writeBit key index 0) l1 (index + 1) = getAux key l1 (index + 1) :=
          getAux_congr _ key l1 (index + 1) _ hl1 (fun j hj1 hj2 => by
            rw [readBit_writeBit, if_neg (by omega)])
        have e2 : getAux (writeBit key index 0) l2 (index + 1) = getAux key l2 (index + 1) :=
          getAux_congr _ key l2 (index + 1) _ hl2 (fun j hj1 hj2 => by
            rw [readBit_writeBit, if_neg (by omega)])
        rw [e1, e2] at hag
        exact hag
      have hR : r1 = r2 := by
        apply ihr r2 (index + 1) hr1 hr2 (by omega)
        intro key hklen hkwf
        have hbit : readBit (writeBit key index 1) index = 1 := by
          have hcc : index = index ∧ index < 8 * key.length := ⟨rfl, by rw [hklen]; omega⟩
          rw [readBit_writeBit, if_pos hcc]
          simp
        have hag := hagree (writeBit key index 1) (by rw [length_writeBit]; exact hklen)
          (wf_writeBit hkwf _ _)
        rw [getAux_full_eq, getAux_full_eq,
          if_neg (show ¬ readBit (writeBit key index 1) index = 0 by omega),
          if_neg (show ¬ readBit (writeBit key index 1) index = 0 by omega)] at hag
        have e1 : getAux (writeBit key index 1) r1 (index + 1) = getAux key r1 (index + 1) :=
          getAux_congr _ key r1 (index + 1) _ hr1 (fun j hj1 hj2 => by
            rw [readBit_writeBit, if_neg (by omega)])
        have e2 : getAux (writeBit key index 1) r2 (index + 1) = getAux key r2 (index + 1) :=
          getAux_congr _ key r2 (index + 1) _ hr2 (fun j hj1 hj2 => by
            rw [readBit_writeBit, if_neg (by omega)])
        rw [e1, e2] at hag
        exact hag
      rw [hL, hR]
  | short c1 p1 ch1 ih =>
    intro n2 index h1 h2 hle hagree
    obtain ⟨hc11, hc1r, hns1, hplen1, hpwf1, hppad1, hch1⟩ := h1
    cases n2 with
    | nil => exact absurd h2 (by simp [goodAt])
    | leaf v2 =>
      exfalso
      simp only [goodAt] at h2
      omega
    | full l2 r2 =>
      exfalso
      obtain ⟨key, v, hklen, hkwf, hfound, hbit⟩ :=
        goodAt_full_found_bit L l2 r2 index (1 - readBit p1 0)
          (by have := readBit_lt_two p1 0; omega) h2 (by omega)
      have hmiss : getAux key (.short c1 p1 ch1) index = none := by
        have hpm : ¬ (pathMatches key index p1 c1 = true) := by
          rw [pathMatches_iff]
          intro hmm
          have h0 := hmm 0 (by omega)
          rw [Nat.zero_add] at h0
          have := readBit_lt_two p1 0
          omega
        rw [getAux_short_eq, if_neg hpm]
      have hc := hagree key hklen hkwf
      rw [hfound, hmiss] at hc
      exact Option.noConfusion hc
    | short c2 p2 ch2 =>
      obtain ⟨hc21, hc2r, hns2, hplen2, hpwf2, hppad2, hch2⟩ := h2
      have harith1 : 8 * L - index - c1 = 8 * L - (index + c1) := by omega
      have harith2 : 8 * L - index - c2 = 8 * L - (index + c2) := by omega
      rw [harith1] at hch1
      rw [harith2] at hch2
      -- a found key through n1 pins down p2 on the shared range
      obtain ⟨key0, v, hklen, hkwf, hfound⟩ := goodAt_found L ch1 (index + c1) hch1 (by omega)
      obtain ⟨hfA, hbitsA, houtA, hlenA, hwfA⟩ :=
        found_through_short L c1 p1 ch1 index key0 v hklen hkwf hfound hch1 (by omega)
      have hA2 := hagree _ hlenA hwfA
      rw [hfA] at hA2
      have hm2 : pathMatches (writeBits key0 index p1 0 c1) index p2 c2 = true := by
        by_contra hmn
        rw [getAux_short_eq, if_neg hmn] at hA2
        exact Option.noConfusion hA2
      have hbits12 : ∀ i, i < c1 → i < c2 → readBit p1 i = readBit p2 i := by
        intro i hi1 hi2
        have hmi := (pathMatches_iff _ _ _ _).mp hm2 i hi2
        rw [Nat.add_comm i index, hbitsA i hi1] at hmi
        exact hmi
      have hceq : c1 = c2 := by
        by_contra hcne
        rcases Nat.lt_or_ge c1 c2 with hlt | hge
        · -- c1 < c2 forces ch1 to be a full node; its far branch escapes p2
          cases hcc : ch1 with
          | nil =>
            rw [hcc] at hch1
            exact absurd hch1 (by simp [goodAt])
          | leaf vv =>
            rw [hcc] at hch1
            simp only [goodAt] at hch1
            omega
          | short cc pp chch =>
            rw [hcc] at hns1
            simp [Node.isShortB] at hns1
          | full fl fr =>
            obtain ⟨keyf, vf, hflen, hfwf, hffound, hfbit⟩ :=
              goodAt_full_found_bit L fl fr (index + c1) (1 - readBit p2 c1)
                (by have := readBit_lt_two p2 c1; omega) (hcc ▸ hch1) (by omega)
            obtain ⟨hfB, hbitsB, houtB, hlenB, hwfB⟩ :=
              found_through_short L c1 p1 ch1 index keyf vf hflen hfwf
                (by rw [hcc]; exact hffound) hch1 (by omega)
            have hB2 := hagree _ hlenB hwfB
            rw [hfB] at hB2
            have hm2b : pathMatches (writeBits keyf index p1 0 c1) index p2 c2 = true := by
              by_contra hmn
              rw [getAux_short_eq, if_neg hmn] at hB2
              exact Option.noConfusion hB2
            have hmi := (pathMatches_iff _ _ _ _).mp hm2b c1 hlt
            rw [Nat.add_comm c1 index,
              houtB (index + c1) (by omega)] at hmi
            have := readBit_lt_two p2 c1
            omega
        · -- c2 < c1 : symmetric, using a far-branch key of ch2
          have hlt : c2 < c1 := by omega
          cases hcc : ch2 with
          | nil =>
            rw [hcc] at hch2
            exact absurd hch2 (by simp [goodAt])
          | leaf vv =>
            rw [hcc] at hch2
            simp only [goodAt] at hch2
            omega
          | short cc pp chch =>
            rw [hcc] at hns2
            simp [Node.isShortB] at hns2
          | full fl fr =>
            obtain ⟨keyf, vf, hflen, hfwf, hffound, hfbit⟩ :=
              goodAt_full_found_bit L fl fr (index + c2) (1 - readBit p1 c2)
                (by have := readBit_lt_two p1 c2; omega) (hcc ▸ hch2) (by omega)
            obtain ⟨hfB, hbitsB, houtB, hlenB, hwfB⟩ :=
              found_through_short L c2 p2 ch2 index keyf vf hflen hfwf
                (by rw [hcc]; exact hffound) hch2 (by omega)
            have hB2 := hagree _ hlenB hwfB
            rw [hfB] at hB2
            have hm1b : pathMatches (writeBits keyf index p2 0 c2) index p1 c1 = true := by
              by_contra hmn
              rw [getAux_short_eq, if_neg hmn] at hB2
              exact Option.noConfusion hB2.symm
            have hmi := (pathMatches_iff _ _ _ _).mp hm1b c2 hlt
            rw [Nat.add_comm c2 index,
              houtB (index + c2) (by omega)] at hmi
            have := readBit_lt_two p1 c2
            omega
      subst hceq
      have hpeq : p1 = p2 := by
        apply bytes_ext (by rw [hplen1, hplen2]) hpwf1 hpwf2
        intro j hj
        by_cases hjc : j < c1
        · exact hbits12 j hjc hjc
        · rw [hppad1 j (by omega), hppad2 j (by omega)]
      subst hpeq
      have hcheq : ch1 = ch2 := by
        apply ih ch2 (index + c1) hch1 hch2 (by omega)
        intro key hklen hkwf
        obtain ⟨v1, hv1⟩ : ∃ o, getAux key ch1 (index + c1) = o := ⟨_, rfl⟩
        -- write the path bits into the probe key and transfer
        have hbits : ∀ i, i < c1 →
            readBit (writeBits key index p1 0 c1) (index + i) = readBit p1 i := by
          intro i hi
          rw [readBit_writeBits_in key p1 index 0 c1 (index + i) (by omega) (by omega)
            (by rw [hklen]; omega)]
          congr 1
          omega
        have hout : ∀ j, j < index ∨ index + c1 ≤ j →
            readBit (writeBits key index p1 0 c1) j = readBit key j := by
          intro j hj
          exact readBit_writeBits_out key p1 index 0 c1 j (by omega)
        have hmm : pathMatches (writeBits key index p1 0 c1) index p1 c1 = true := by
          rw [pathMatches_iff]
          intro i hi
          rw [Nat.add_comm i index]
          exact hbits i hi
        have hag := hagree (writeBits key index p1 0 c1)
          (by rw [length_writeBits]; exact hklen) (wf_writeBits hkwf _ _ _ _)
        rw [getAux_short_eq, getAux_short_eq, if_pos hmm, if_pos hmm] at hag
        have e1 : getAux (writeBits key index p1 0 c1) ch1 (index + c1) =
            getAux key ch1 (index + c1) :=
          getAux_congr _ key ch1 (index + c1) _ hch1 (fun j hj1 hj2 => hout j (by omega))
        have e2 : getAux (writeBits key index p1 0 c1) ch2 (index + c1) =
            getAux key ch2 (index + c1) :=
          getAux_congr _ key ch2 (index + c1) _ hch2 (fun j hj1 hj2 => hout j (by omega))
        rw [e1, e2] at hag
        exact hag
      rw [hcheq]

/-! ## Deletion -/

theorem agreesFrom_succ (key2 key : Bytes) (index N : Nat) (hidx : index < N)
    (hbit : readBit key2 index = readBit key index) :
    agreesFrom key2 key index N ↔ agreesFrom key2 key (index + 1) N := by
  constructor
  · intro ha j hj hij
    exact ha j hj (by omega)
  · intro ha j hj hij
    by_cases hji : j = index
    · rw [hji]
      exact hbit
    · exact ha j hj (by omega)

theorem agreesFrom_not_of_bit (key2 key : Bytes) (index N j : Nat) (hj : index ≤ j)
    (hjN : j < N) (hne : readBit key2 j ≠ readBit key j) :
    ¬ agreesFrom key2 key index N := fun ha => hne (ha j hjN hj)

theorem agreesFrom_through_path (key2 key p : Bytes) (index c N : Nat)
    (hkm : ∀ i, i < c → readBit key (i + index) = readBit p i)
    (hm2 : ∀ i, i < c → readBit key2 (i + index) = readBit p i) :
    agreesFrom key2 key index N ↔ agreesFrom key2 key (index + c) N := by
  constructor
  · intro ha j hj hij
    exact ha j hj (by omega)
  · intro ha j hj hij
    by_cases hjc : j < index + c
    · have hh := (hm2 (j - index) (by omega)).trans (hkm (j - index) (by omega)).symm
      have harith : j - index + index = j := by omega
      rw [harith] at hh
      exact hh
    · exact ha j hj (by omega)

theorem not_agreesFrom_of_no_match (key2 key p : Bytes) (index c N : Nat)
    (hkm : ∀ i, i < c → readBit key (i + index) = readBit p i)
    (hm2 : ¬ (pathMatches key2 index p c = true)) (hcN : index + c ≤ N) :
    ¬ agreesFrom key2 key index N := by
  intro ha
  apply hm2
  rw [pathMatches_iff]
  intro i hi
  rw [← hkm i hi]
  exact ha (i + index) (by omega) (by omega)

theorem delAux_nil_eq (key : Bytes) (index : Nat) : delAux key .nil index = none := rfl

theorem delAux_leaf_eq (key v : Bytes) (index : Nat) :
    delAux key (.leaf v) index = some .nil := rfl

theorem delAux_full_eq (key : Bytes) (l r : Node) (index : Nat) :
    delAux key (.full l r) index =
      if readBit key index = 0 then
        match delAux key l (index + 1) with
        | none => none
        | some .nil => some (collapseFull r 1)
        | some l' => some (.full l' r)
      else
        match delAux key r (index + 1) with
        | none => none
        | some .nil => some (collapseFull l 0)
        | some r' => some (.full l r') := by
  conv_lhs => rw [delAux]

theorem delAux_short_eq (key : Bytes) (c : Nat) (p : Bytes) (ch : Node) (index : Nat) :
    delAux key (.short c p ch) index =
      if pathMatches key index p c then
        match delAux key ch (index + c) with
        | none => none
        | some .nil => some .nil
        | some (.short c2 p2 ch2) => some (.short (c + c2) (mergePaths c p c2 p2) ch2)
        | some ch' => some (.short c p ch')
      else none := by
  conv_lhs => rw [delAux]

theorem readBit_newPath (b : Nat) :
    readBit (if b = 0 then clearBit (makeBitVector 1) 0 else setBit (makeBitVector 1) 0) 0 =
      if b = 0 then 0 else 1 := by
  have hlen : (makeBitVector 1).length = 1 := by rw [length_makeBitVector]
  have hw : ∀ v : Nat, readBit (writeBit (makeBitVector 1) 0 v) 0 = if v = 0 then 0 else 1 := by
    intro v
    have hcc : (0 : Nat) = 0 ∧ 0 < 8 * (makeBitVector 1).length := ⟨rfl, by rw [hlen]; omega⟩
    rw [readBit_writeBit, if_pos hcc]
  split
  · have h0 := hw 0
    simp only [writeBit, if_pos rfl] at h0
    simpa using h0
  · have h1 := hw 1
    simp only [writeBit] at h1
    norm_num at h1
    simpa using h1

theorem readBit_newPath_pad (b j : Nat) (hj : 1 ≤ j) :
    readBit (if b = 0 then clearBit (makeBitVector 1) 0 else setBit (makeBitVector 1) 0) j
      = 0 := by
  have hw : ∀ v : Nat, readBit (writeBit (makeBitVector 1) 0 v) j = 0 := by
    intro v
    rw [readBit_writeBit, if_neg (by omega), readBit_makeBitVector]
  split
  · have h0 := hw 0
    simp only [writeBit, if_pos rfl] at h0
    exact h0
  · have h1 := hw 1
    simp only [writeBit] at h1
    norm_num at h1
    exact h1

theorem wf_newPath (b : Nat) :
    bytesWf (if b = 0 then clearBit (makeBitVector 1) 0 else setBit (makeBitVector 1) 0) := by
  split
  · exact wf_clearBit (wf_makeBitVector 1) 0
  · exact wf_setBit (wf_makeBitVector 1) 0

theorem length_newPath (b : Nat) :
    (if b = 0 then clearBit (makeBitVector 1) 0 else setBit (makeBitVector 1) 0).length = 1 := by
  split
  · rw [length_clearBit, length_makeBitVector]
  · rw [length_setBit, length_makeBitVector]

/-- Structural well-formedness of the collapse of a `full` node after one
child was deleted (tree.go lines 462-485). -/
theorem goodAt_collapseFull (surv : Node) (r b : Nat) (hg : goodAt surv (r - 1))
    (hr : 1 ≤ r) : goodAt (collapseFull surv b) r := by
  cases surv with
  | nil => exact absurd hg (by simp [goodAt])
  | leaf v =>
    simp only [goodAt] at hg
    refine ⟨Nat.le_refl 1, by omega, rfl, length_newPath b, wf_newPath b, ?_, ?_⟩
    · intro j hj
      exact readBit_newPath_pad b j hj
    · simp only [goodAt]
      omega
  | full fl fr =>
    obtain ⟨hg1, hgl, hgr⟩ := hg
    refine ⟨Nat.le_refl 1, by omega, rfl, length_newPath b, wf_newPath b, ?_, ?_⟩
    · intro j hj
      exact readBit_newPath_pad b j hj
    · exact ⟨hg1, hgl, hgr⟩
  | short c2 p2 ch2 =>
    obtain ⟨hc21, hc2r, hns2, hplen2, hpwf2, hppad2, hch2⟩ := hg
    refine ⟨by omega, by omega, hns2, ?_, wf_mergePaths _ _ _ _, ?_, ?_⟩
    · rw [length_mergePaths]
    · intro j hj
      rw [readBit_mergePaths, if_neg (by omega), if_neg (by omega)]
    · have harith : r - (1 + c2) = r - 1 - c2 := by omega
      rw [harith]
      exact hch2

/-- Structural well-formedness of the parent merge of two short nodes
(tree.go lines 487-492, `merge` lines 509-521). -/
theorem goodAt_merged_short (c c2 : Nat) (p p2 : Bytes) (ch2 : Node) (r : Nat)
    (h1 : 1 ≤ c) (hcr : c ≤ r) (hg2 : goodAt (.short c2 p2 ch2) (r - c)) :
    goodAt (.short (c + c2) (mergePaths c p c2 p2) ch2) r := by
  obtain ⟨hc21, hc2r, hns2, hplen2, hpwf2, hppad2, hch2⟩ := hg2
  refine ⟨by omega, by omega, hns2, ?_, wf_mergePaths _ _ _ _, ?_, ?_⟩
  · rw [length_mergePaths]
  · intro j hj
    rw [readBit_mergePaths, if_neg (by omega), if_neg (by omega)]
  · have harith : r - (c + c2) = r - c - c2 := by omega
    rw [harith]
    exact hch2

/-- Lookup through a merged short node equals lookup through the two original
short nodes in sequence. -/
theorem getAux_merged_short (key2 p p2 : Bytes) (c c2 : Nat) (ch2 : Node) (index : Nat) :
    getAux key2 (.short (c + c2) (mergePaths c p c2 p2) ch2) index =
      getAux key2 (.short c p (.short c2 p2 ch2)) index := by
  rw [getAux_short_eq, getAux_short_eq]
  have hmergeiff : pathMatches key2 index (mergePaths c p c2 p2) (c + c2) = true ↔
      (pathMatches key2 index p c = true ∧
        pathMatches key2 (index + c) p2 c2 = true) := by
    rw [pathMatches_iff, pathMatches_iff, pathMatches_iff]
    constructor
    · intro hm
      constructor
      · intro i hi
        have := hm i (by omega)
        rwa [readBit_mergePaths, if_pos hi] at this
      · intro i hi
        have := hm (c + i) (by omega)
        rw [readBit_mergePaths, if_neg (by omega), if_pos (by omega)] at this
        have harith : c + i + index = i + (index + c) := by omega
        have harith2 : c + i - c = i := by omega
        rw [harith, harith2] at this
        exact this
    · rintro ⟨hm1, hm2⟩ i hi
      rw [readBit_mergePaths]
      by_cases hic : i < c
      · rw [if_pos hic]
        exact hm1 i hic
      · rw [if_neg hic, if_pos (by omega)]
        have := hm2 (i - c) (by omega)
        have harith : i - c + (index + c) = i + index := by omega
        rw [harith] at this
        exact this
  by_cases hm1 : pathMatches key2 index p c = true
  · rw [if_pos hm1]
    by_cases hm2 : pathMatches key2 (index + c) p2 c2 = true
    · rw [if_pos (hmergeiff.mpr ⟨hm1, hm2⟩), getAux_short_eq, if_pos hm2]
      have harith : index + (c + c2) = index + c + c2 := by omega
      rw [harith]
    · rw [if_neg (fun hmm => hm2 (hmergeiff.mp hmm).2), getAux_short_eq, if_neg hm2]
  · rw [if_neg hm1, if_neg (fun hmm => hm1 (hmergeiff.mp hmm).1)]

/-- Lookup through a collapsed full node: the surviving child answers keys
whose branch bit selects it; everything else is gone. -/
theorem getAux_collapseFull (key2 : Bytes) (surv : Node) (index b : Nat) (hb : b < 2) :
    getAux key2 (collapseFull surv b) index =
      if readBit key2 index = b then getAux key2 surv (index + 1) else none := by
  have hm1 : pathMatches key2 index
      (if b = 0 then clearBit (makeBitVector 1) 0 else setBit (makeBitVector 1) 0) 1 = true ↔
      readBit key2 index = b := by
    rw [pathMatches_iff]
    constructor
    · intro hm
      have := hm 0 (by omega)
      rw [Nat.zero_add, readBit_newPath] at this
      by_cases hb0 : b = 0
      · rw [hb0]
        rw [if_pos hb0] at this
        exact this
      · rw [if_neg hb0] at this
        omega
    · intro hbit i hi
      have hi0 : i = 0 := by omega
      rw [hi0, Nat.zero_add, readBit_newPath, hbit]
      by_cases hb0 : b = 0
      · rw [if_pos hb0, hb0]
      · rw [if_neg hb0]
        omega
  cases surv with
  | nil =>
    simp only [collapseFull]
    rw [getAux_short_eq]
    by_cases hc : readBit key2 index = b
    · rw [if_pos (hm1.mpr hc), if_pos hc]
    · rw [if_neg (fun hmm => hc (hm1.mp hmm)), if_neg hc]
  | leaf v =>
    simp only [collapseFull]
    rw [getAux_short_eq]
    by_cases hc : readBit key2 index = b
    · rw [if_pos (hm1.mpr hc), if_pos hc]
    · rw [if_neg (fun hmm => hc (hm1.mp hmm)), if_neg hc]
  | full fl fr =>
    simp only [collapseFull]
    rw [getAux_short_eq]
    by_cases hc : readBit key2 index = b
    · rw [if_pos (hm1.mpr hc), if_pos hc]
    · rw [if_neg (fun hmm => hc (hm1.mp hmm)), if_neg hc]
  | short c2 p2 ch2 =>
    simp only [collapseFull]
    rw [show (1 : Nat) + c2 = 1 + c2 from rfl, getAux_merged_short key2 _ p2 1 c2 ch2 index,
      getAux_short_eq]
    by_cases hc : readBit key2 index = b
    · rw [if_pos (hm1.mpr hc), if_pos hc]
    · rw [if_neg (fun hmm => hc (hm1.mp hmm)), if_neg hc]

/-- The full specification of `unsafeDel`: a failed delete means the key was
absent; a successful delete keeps the tree well-formed (or empties it) and
removes exactly the deleted key from the lookup function. -/
theorem delAux_spec (key key2 : Bytes) :
    ∀ (n : Node) (index : Nat), goodAt n (8 * key.length - index) → index ≤ 8 * key.length →
      (delAux key n index = none → getAux key n index = none) ∧
      (∀ n', delAux key n index = some n' →
        (n' = .nil ∨ goodAt n' (8 * key.length - index)) ∧
        getAux key2 n' index =
          (if agreesFrom key2 key index (8 * key.length) then none
           else getAux key2 n index)) := by
  intro n
  induction n with
  | nil =>
    intro index h _
    exact absurd h (by simp [goodAt])
  | leaf v =>
    intro index h hle
    have hidx : index = 8 * key.length := by
      simp only [goodAt] at h
      omega
    constructor
    · intro hd
      rw [delAux_leaf_eq] at hd
      exact Option.noConfusion hd
    · intro n' hd
      rw [delAux_leaf_eq] at hd
      injection hd with hd'
      refine ⟨Or.inl hd'.symm, ?_⟩
      have hv : agreesFrom key2 key index (8 * key.length) := fun j hj hij =>
        absurd hj (by omega)
      rw [← hd', if_pos hv]
      rfl
  | full l r ihl ihr =>
    intro index h hle
    obtain ⟨h1, hl, hr⟩ := h
    have hidx : index < 8 * key.length := by omega
    have harith : 8 * key.length - index - 1 = 8 * key.length - (index + 1) := by omega
    rw [harith] at hl hr
    rcases readBit_cases key index with hb | hb
    · -- key bit 0: the left child is affected
      obtain ⟨ih1, ih2⟩ := ihl (index + 1) hl (by omega)
      rcases hdl : delAux key l (index + 1) with _ | n'
      · have hres : delAux key (.full l r) index = none := by
          rw [delAux_full_eq, if_pos hb, hdl]
        constructor
        · intro _
          rw [getAux_full_eq, if_pos hb]
          exact ih1 hdl
        · intro n' hd
          rw [hres] at hd
          exact Option.noConfusion hd
      · obtain ⟨hgood', hchar⟩ := ih2 n' hdl
        by_cases hnil : n' = Node.nil
        · subst hnil
          have hres : delAux key (.full l r) index = some (collapseFull r 1) := by
            rw [delAux_full_eq, if_pos hb, hdl]
          constructor
          · intro hdn
            rw [hres] at hdn
            exact Option.noConfusion hdn
          · intro n2 hd
            rw [hres] at hd
            injection hd with hd'
            subst hd'
            refine ⟨Or.inr (goodAt_collapseFull r _ 1 hr (by omega)), ?_⟩
            rw [getAux_collapseFull key2 r index 1 (by omega)]
            rcases readBit_cases key2 index with hb2 | hb2
            · rw [if_neg (by omega)]
              by_cases hA : agreesFrom key2 key index (8 * key.length)
              · rw [if_pos hA]
              · rw [if_neg hA, getAux_full_eq, if_pos hb2]
                have hA1 : ¬ agreesFrom key2 key (index + 1) (8 * key.length) := fun hA1 =>
                  hA ((agreesFrom_succ key2 key index _ hidx (by omega)).mpr hA1)
                have hc := hchar
                simp only [getAux] at hc
                rw [if_neg hA1] at hc
                exact hc
            · rw [if_pos hb2]
              have hA : ¬ agreesFrom key2 key index (8 * key.length) :=
                agreesFrom_not_of_bit key2 key index _ index (Nat.le_refl _) hidx (by omega)
              rw [if_neg hA, getAux_full_eq, if_neg (by omega)]
        · have hres : delAux key (.full l r) index = some (.full n' r) := by
            rw [delAux_full_eq, if_pos hb, hdl]
            cases n' with
            | nil => exact absurd rfl hnil
            | leaf _ => rfl
            | short _ _ _ => rfl
            | full _ _ => rfl
          constructor
          · intro hdn
            rw [hres] at hdn
            exact Option.noConfusion hdn
          · intro n2 hd
            rw [hres] at hd
            injection hd with hd'
            subst hd'
            have hg' : goodAt n' (8 * key.length - (index + 1)) := by
              rcases hgood' with hn | hg
              · exact absurd hn hnil
              · exact hg
            refine ⟨Or.inr ⟨h1, by rw [harith]; exact hg', by rw [harith]; exact hr⟩, ?_⟩
            rcases readBit_cases key2 index with hb2 | hb2
            · rw [getAux_full_eq, if_pos hb2, hchar]
              by_cases hA1 : agreesFrom key2 key (index + 1) (8 * key.length)
              · rw [if_pos hA1,
                  if_pos ((agreesFrom_succ key2 key index _ hidx (by omega)).mpr hA1)]
              · rw [if_neg hA1,
                  if_neg (fun hA => hA1 ((agreesFrom_succ key2 key index _ hidx
                    (by omega)).mp hA)), getAux_full_eq, if_pos hb2]
            · rw [getAux_full_eq, if_neg (by omega)]
              have hA : ¬ agreesFrom key2 key index (8 * key.length) :=
                agreesFrom_not_of_bit key2 key index _ index (Nat.le_refl _) hidx (by omega)
              rw [if_neg hA, getAux_full_eq, if_neg (by omega)]
    · -- key bit 1: the right child is affected
      obtain ⟨ih1, ih2⟩ := ihr (index + 1) hr (by omega)
      rcases hdl : delAux key r (index + 1) with _ | n'
      · have hres : delAux key (.full l r) index = none := by
          rw [delAux_full_eq, if_neg (show ¬ readBit key index = 0 by omega), hdl]
        constructor
        · intro _
          rw [getAux_full_eq, if_neg (show ¬ readBit key index = 0 by omega)]
          exact ih1 hdl
        · intro n' hd
          rw [hres] at hd
          exact Option.noConfusion hd
      · obtain ⟨hgood', hchar⟩ := ih2 n' hdl
        by_cases hnil : n' = Node.nil
        · subst hnil
          have hres : delAux key (.full l r) index = some (collapseFull l 0) := by
            rw [delAux_full_eq, if_neg (show ¬ readBit key index = 0 by omega), hdl]
          constructor
          · intro hdn
            rw [hres] at hdn
            exact Option.noConfusion hdn
          · intro n2 hd
            rw [hres] at hd
            injection hd with hd'
            subst hd'
            refine ⟨Or.inr (goodAt_collapseFull l _ 0 hl (by omega)), ?_⟩
            rw [getAux_collapseFull key2 l index 0 (by omega)]
            rcases readBit_cases key2 index with hb2 | hb2
            · rw [if_pos hb2]
              have hA : ¬ agreesFrom key2 key index (8 * key.length) :=
                agreesFrom_not_of_bit key2 key index _ index (Nat.le_refl _) hidx (by omega)
              rw [if_neg hA, getAux_full_eq, if_pos hb2]
            · rw [if_neg (by omega)]
              by_cases hA : agreesFrom key2 key index (8 * key.length)
              · rw [if_pos hA]
              · rw [if_neg hA, getAux_full_eq,
                  if_neg (show ¬ readBit key2 index = 0 by omega)]
                have hA1 : ¬ agreesFrom key2 key (index + 1) (8 * key.length) := fun hA1 =>
                  hA ((agreesFrom_succ key2 key index _ hidx (by omega)).mpr hA1)
                have hc := hchar
                simp only [getAux] at hc
                rw [if_neg hA1] at hc
                exact hc
        · have hres : delAux key (.full l r) index = some (.full l n') := by
            rw [delAux_full_eq, if_neg (show ¬ readBit key index = 0 by omega), hdl]
            cases n' with
            | nil => exact absurd rfl hnil
            | leaf _ => rfl
            | short _ _ _ => rfl
            | full _ _ => rfl
          constructor
          · intro hdn
            rw [hres] at hdn
            exact Option.noConfusion hdn
          · intro n2 hd
            rw [hres] at hd
            injection hd with hd'
            subst hd'
            have hg' : goodAt n' (8 * key.length - (index + 1)) := by
              rcases hgood' with hn | hg
              · exact absurd hn hnil
              · exact hg
            refine ⟨Or.inr ⟨h1, by rw [harith]; exact hl, by rw [harith]; exact hg'⟩, ?_⟩
            rcases readBit_cases key2 index with hb2 | hb2
            · rw [getAux_full_eq, if_pos hb2]
              have hA : ¬ agreesFrom key2 key index (8 * key.length) :=
                agreesFrom_not_of_bit key2 key index _ index (Nat.le_refl _) hidx (by omega)
              rw [if_neg hA, getAux_full_eq, if_pos hb2]
            · rw [getAux_full_eq, if_neg (show ¬ readBit key2 index = 0 by omega), hchar]
              by_cases hA1 : agreesFrom key2 key (index + 1) (8 * key.length)
              · rw [if_pos hA1,
                  if_pos ((agreesFrom_succ key2 key index _ hidx (by omega)).mpr hA1)]
              · rw [if_neg hA1,
                  if_neg (fun hA => hA1 ((agreesFrom_succ key2 key index _ hidx
                    (by omega)).mp hA)), getAux_full_eq,
                  if_neg (show ¬ readBit key2 index = 0 by omega)]
  | short c p ch ih =>
    intro index h hle
    obtain ⟨hc1, hcr, hns, hplen, hpwf, hppad, hch⟩ := h
    have harith : 8 * key.length - index - c = 8 * key.length - (index + c) := by omega
    rw [harith] at hch
    by_cases hm : pathMatches key index p c = true
    · have hkm : ∀ i, i < c → readBit key (i + index) = readBit p i :=
        (pathMatches_iff _ _ _ _).mp hm
      obtain ⟨ih1, ih2⟩ := ih (index + c) hch (by omega)
      have hiffA : ∀ (hm2 : pathMatches key2 index p c = true),
          (agreesFrom key2 key index (8 * key.length) ↔
            agreesFrom key2 key (index + c) (8 * key.length)) := fun hm2 =>
        agreesFrom_through_path key2 key p index c _ hkm ((pathMatches_iff _ _ _ _).mp hm2)
      rcases hdl : delAux key ch (index + c) with _ | n'
      · have hres : delAux key (.short c p ch) index = none := by
          rw [delAux_short_eq, if_pos hm, hdl]
        constructor
        · intro _
          rw [getAux_short_eq, if_pos hm]
          exact ih1 hdl
        · intro n' hd
          rw [hres] at hd
          exact Option.noConfusion hd
      · obtain ⟨hgood', hchar⟩ := ih2 n' hdl
        cases n' with
        | nil =>
          have hres : delAux key (.short c p ch) index = some .nil := by
            rw [delAux_short_eq, if_pos hm, hdl]
          constructor
          · intro hdn
            rw [hres] at hdn
            exact Option.noConfusion hdn
          · intro n2 hd
            rw [hres] at hd
            injection hd with hd'
            subst hd'
            refine ⟨Or.inl rfl, ?_⟩
            by_cases hA : agreesFrom key2 key index (8 * key.length)
            · rw [if_pos hA]
              rfl
            · rw [if_neg hA, getAux_short_eq]
              by_cases hm2 : pathMatches key2 index p c = true
              · rw [if_pos hm2]
                have hA2 : ¬ agreesFrom key2 key (index + c) (8 * key.length) := fun h0 =>
                  hA ((hiffA hm2).mpr h0)
                have hc2 := hchar
                simp only [getAux] at hc2
                rw [if_neg hA2] at hc2
                exact hc2
              · rw [if_neg hm2]
                rfl
        | short c2 p2 ch2 =>
          have hres : delAux key (.short c p ch) index =
              some (.short (c + c2) (mergePaths c p c2 p2) ch2) := by
            rw [delAux_short_eq, if_pos hm, hdl]
          constructor
          · intro hdn
            rw [hres] at hdn
            exact Option.noConfusion hdn
          · intro n2 hd
            rw [hres] at hd
            injection hd with hd'
            subst hd'
            have hg' : goodAt (.short c2 p2 ch2) (8 * key.length - (index + c)) := by
              rcases hgood' with hn | hg
              · exact Node.noConfusion hn
              · exact hg
            refine ⟨Or.inr (goodAt_merged_short c c2 p p2 ch2 _ hc1 hcr
              (by rw [harith]; exact hg')), ?_⟩
            rw [getAux_merged_short, getAux_short_eq]
            by_cases hm2 : pathMatches key2 index p c = true
            · rw [if_pos hm2, hchar]
              by_cases hA1 : agreesFrom key2 key (index + c) (8 * key.length)
              · rw [if_pos hA1, if_pos ((hiffA hm2).mpr hA1)]
              · rw [if_neg hA1, if_neg (fun h0 => hA1 ((hiffA hm2).mp h0)),
                  getAux_short_eq, if_pos hm2]
            · rw [if_neg hm2]
              have hA : ¬ agreesFrom key2 key index (8 * key.length) :=
                not_agreesFrom_of_no_match key2 key p index c _ hkm hm2 (by omega)
              rw [if_neg hA, getAux_short_eq, if_neg hm2]
        | leaf vv =>
          have hres : delAux key (.short c p ch) index = some (.short c p (.leaf vv)) := by
            rw [delAux_short_eq, if_pos hm, hdl]
          constructor
          · intro hdn
            rw [hres] at hdn
            exact Option.noConfusion hdn
          · intro n2 hd
            rw [hres] at hd
            injection hd with hd'
            subst hd'
            have hg' : goodAt (.leaf vv) (8 * key.length - (index + c)) := by
              rcases hgood' with hn | hg
              · exact Node.noConfusion hn
              · exact hg
            refine ⟨Or.inr ⟨hc1, hcr, rfl, hplen, hpwf, hppad,
              by rw [harith]; exact hg'⟩, ?_⟩
            rw [getAux_short_eq]
            by_cases hm2 : pathMatches key2 index p c = true
            · rw [if_pos hm2, hchar]
              by_cases hA1 : agreesFrom key2 key (index + c) (8 * key.length)
              · rw [if_pos hA1, if_pos ((hiffA hm2).mpr hA1)]
              · rw [if_neg hA1, if_neg (fun h0 => hA1 ((hiffA hm2).mp h0)),
                  getAux_short_eq, if_pos hm2]
            · rw [if_neg hm2]
              have hA : ¬ agreesFrom key2 key index (8 * key.length) :=
                not_agreesFrom_of_no_match key2 key p index c _ hkm hm2 (by omega)
              rw [if_neg hA, getAux_short_eq, if_neg hm2]
        | full fl fr =>
          have hres : delAux key (.short c p ch) index = some (.short c p (.full fl fr)) := by
            rw [delAux_short_eq, if_pos hm, hdl]
          constructor
          · intro hdn
            rw [hres] at hdn
            exact Option.noConfusion hdn
          · intro n2 hd
            rw [hres] at hd
            injection hd with hd'
            subst hd'
            have hg' : goodAt (.full fl fr) (8 * key.length - (index + c)) := by
              rcases hgood' with hn | hg
              · exact Node.noConfusion hn
              · exact hg
            refine ⟨Or.inr ⟨hc1, hcr, rfl, hplen, hpwf, hppad,
              by rw [harith]; exact hg'⟩, ?_⟩
            rw [getAux_short_eq]
            by_cases hm2 : pathMatches key2 index p c = true
            · rw [if_pos hm2, hchar]
              by_cases hA1 : agreesFrom key2 key (index + c) (8 * key.length)
              · rw [if_pos hA1, if_pos ((hiffA hm2).mpr hA1)]
              · rw [if_neg hA1, if_neg (fun h0 => hA1 ((hiffA hm2).mp h0)),
                  getAux_short_eq, if_pos hm2]
            · rw [if_neg hm2]
              have hA : ¬ agreesFrom key2 key index (8 * key.length) :=
                not_agreesFrom_of_no_match key2 key p index c _ hkm hm2 (by omega)
              rw [if_neg hA, getAux_short_eq, if_neg hm2]
    · have hres : delAux key (.short c p ch) index = none := by
        rw [delAux_short_eq, if_neg hm]
      constructor
      · intro _
        rw [getAux_short_eq, if_neg hm]
      · intro n' hd
        rw [hres] at hd
        exact Option.noConfusion hd

/-! ## Tree-level lemmas -/

theorem applyPut_step (t : Tree) (kv : Bytes × Bytes) (key2 : Bytes) (hg : t.good) :
    (applyPut t kv).keyLength = t.keyLength ∧ (applyPut t kv).good ∧
    getAux key2 (applyPut t kv).root 0 =
      (if kv.1.length = t.keyLength ∧ agreesFrom key2 kv.1 0 (8 * kv.1.length)
       then some kv.2 else getAux key2 t.root 0) := by
  unfold applyPut Tree.put
  by_cases hlen : kv.1.length = t.keyLength
  · rw [if_neg (by omega)]
    refine ⟨rfl, ?_, ?_⟩
    · rcases hg with hnil | hgood
      · right
        show goodAt (putAux kv.1 kv.2 t.root 0).1 (8 * t.keyLength)
        rw [hnil]
        show goodAt (insertPath kv.1 kv.2 0) (8 * t.keyLength)
        have := goodAt_insertPath kv.1 kv.2 0 (by omega)
        rw [Nat.sub_zero, hlen] at this
        exact this
      · right
        show goodAt (putAux kv.1 kv.2 t.root 0).1 (8 * t.keyLength)
        have hgood' : goodAt t.root (8 * kv.1.length - 0) := by
          rw [Nat.sub_zero, hlen]
          exact hgood
        have := goodAt_putAux kv.1 kv.2 t.root 0 hgood' (by omega)
        rw [Nat.sub_zero, hlen] at this
        exact this
    · show getAux key2 (putAux kv.1 kv.2 t.root 0).1 0 = _
      rcases hg with hnil | hgood
      · rw [hnil]
        show getAux key2 (insertPath kv.1 kv.2 0) 0 = _
        rw [getAux_insertPath kv.1 key2 kv.2 0 (by omega)]
        by_cases hA : agreesFrom key2 kv.1 0 (8 * kv.1.length)
        · rw [if_pos hA, if_pos ⟨hlen, hA⟩]
        · rw [if_neg hA, if_neg (by tauto)]
          rfl
      · have hgood' : goodAt t.root (8 * kv.1.length - 0) := by
          rw [Nat.sub_zero, hlen]
          exact hgood
        rw [getAux_putAux kv.1 key2 kv.2 t.root 0 hgood' (by omega)]
        by_cases hA : agreesFrom key2 kv.1 0 (8 * kv.1.length)
        · rw [if_pos hA, if_pos ⟨hlen, hA⟩]
        · rw [if_neg hA, if_neg (by tauto)]
  · rw [if_pos (by omega)]
    exact ⟨rfl, hg, by rw [if_neg (by tauto)]⟩

theorem applyDel_step (t : Tree) (k key2 : Bytes) (hg : t.good) :
    ((t.del k).2).keyLength = t.keyLength ∧ ((t.del k).2).good ∧
    getAux key2 ((t.del k).2).root 0 =
      (if k.length = t.keyLength ∧ agreesFrom key2 k 0 (8 * k.length)
       then none else getAux key2 t.root 0) := by
  unfold Tree.del
  by_cases hguard : t.root = Node.nil ∨ t.keyLength ≠ k.length
  · rw [if_pos hguard]
    refine ⟨rfl, hg, ?_⟩
    rcases hguard with hnil | hlen
    · rw [hnil]
      show (none : Option Bytes) = _
      split
      · rfl
      · rfl
    · rw [if_neg (by tauto)]
  · rw [if_neg hguard]
    push_neg at hguard
    obtain ⟨hnn, hlen⟩ := hguard
    have hgood : goodAt t.root (8 * k.length - 0) := by
      rcases hg with hnil | hgd
      · exact absurd hnil hnn
      · rw [Nat.sub_zero, ← hlen]
        exact hgd
    obtain ⟨hd1, hd2⟩ := delAux_spec k key2 t.root 0 hgood (by omega)
    rcases hdl : delAux k t.root 0 with _ | n'
    · refine ⟨rfl, hg, ?_⟩
      by_cases hA : k.length = t.keyLength ∧ agreesFrom key2 k 0 (8 * k.length)
      · rw [if_pos hA]
        have hcongr : getAux key2 t.root 0 = getAux k t.root 0 := by
          apply getAux_congr key2 k t.root 0 (8 * k.length - 0) hgood
          intro j hj1 hj2
          exact hA.2 j (by omega) hj1
        rw [hcongr]
        exact hd1 hdl
      · rw [if_neg hA]
    · obtain ⟨hgood', hchar⟩ := hd2 n' hdl
      refine ⟨rfl, ?_, ?_⟩
      · rcases hgood' with hn | hgd
        · left
          exact hn
        · right
          show goodAt n' (8 * t.keyLength)
          rw [Nat.sub_zero] at hgd
          rw [hlen]
          exact hgd
      · show getAux key2 n' 0 = _
        rw [hchar]
        by_cases hA : agreesFrom key2 k 0 (8 * k.length)
        · rw [if_pos hA, if_pos ⟨hlen.symm, hA⟩]
        · rw [if_neg hA, if_neg (by tauto)]

theorem foldPut_spec (key2 : Bytes) :
    ∀ (l : List (Bytes × Bytes)) (t : Tree), t.good →
      (l.foldl applyPut t).keyLength = t.keyLength ∧ (l.foldl applyPut t).good ∧
      getAux key2 (l.foldl applyPut t).root 0 =
        l.foldl (fun acc kv =>
          if kv.1.length = t.keyLength ∧ agreesFrom key2 kv.1 0 (8 * kv.1.length)
          then some kv.2 else acc) (getAux key2 t.root 0) := by
  intro l
  induction l with
  | nil => intro t hg; exact ⟨rfl, hg, rfl⟩
  | cons kv l ih =>
    intro t hg
    obtain ⟨hkl, hgood, hchar⟩ := applyPut_step t kv key2 hg
    obtain ⟨ihk, ihg, ihc⟩ := ih (applyPut t kv) hgood
    rw [List.foldl_cons, List.foldl_cons]
    refine ⟨by rw [ihk, hkl], ihg, ?_⟩
    rw [ihc, hchar, hkl]

/-- The tree built from a put list: key length, invariant, and the lookup
function it computes. -/
theorem buildTree_spec (kl : Nat) (l : List (Bytes × Bytes)) (key2 : Bytes) :
    (buildTree kl l).keyLength = kl ∧ (buildTree kl l).good ∧
    getAux key2 (buildTree kl l).root 0 = lookList kl l key2 := by
  have h := foldPut_spec key2 l ⟨kl, .nil⟩ (Or.inl rfl)
  exact ⟨h.1, h.2.1, h.2.2⟩

/-- Bitwise agreement between two genuine byte keys of equal length is
equality. -/
theorem agreesFrom_iff_eq (key2 k : Bytes) (hlen : key2.length = k.length)
    (hw2 : bytesWf key2) (hwk : bytesWf k) :
    agreesFrom key2 k 0 (8 * k.length) ↔ key2 = k := by
  constructor
  · intro ha
    apply bytes_ext hlen hw2 hwk
    intro j hj
    exact ha j (by omega) (by omega)
  · intro he
    rw [he]
    intro j hj hij
    rfl

theorem mergeOk_of_goodAt : ∀ (n : Node) (r : Nat), goodAt n r → mergeOk n := by
  intro n
  induction n with
  | nil => intro r h; exact absurd h (by simp [goodAt])
  | leaf v => intro r _; trivial
  | short c p ch ih =>
    intro r h
    obtain ⟨hc1, _, hns, _, _, _, hch⟩ := h
    exact ⟨hns, hc1, ih _ hch⟩
  | full l rr ihl ihr =>
    intro r h
    obtain ⟨_, hl, hr⟩ := h
    exact ⟨goodAt_not_nil hl, goodAt_not_nil hr, ihl _ hl, ihr _ hr⟩

theorem foldOps_good :
    ∀ (ops : List Op) (t : Tree), t.good →
      (ops.foldl applyOp t).good ∧ (ops.foldl applyOp t).keyLength = t.keyLength := by
  intro ops
  induction ops with
  | nil => intro t hg; exact ⟨hg, rfl⟩
  | cons op ops ih =>
    intro t hg
    have hstep : (applyOp t op).good ∧ (applyOp t op).keyLength = t.keyLength := by
      cases op with
      | put k v => exact ⟨(applyPut_step t (k, v) [] hg).2.1, (applyPut_step t (k, v) [] hg).1⟩
      | get k => exact ⟨hg, rfl⟩
      | del k => exact ⟨(applyDel_step t k [] hg).2.1, (applyDel_step t k [] hg).1⟩
      | prove k => exact ⟨hg, rfl⟩
      | hash => exact ⟨hg, rfl⟩
    obtain ⟨ihg, ihk⟩ := ih (applyOp t op) hstep.1
    rw [List.foldl_cons]
    exact ⟨ihg, by rw [ihk, hstep.2]⟩

/-- A successful lookup in the built tree comes from some entry of the put
list with the matching key. -/
theorem lookList_some (kl : Nat) (key2 : Bytes) :
    ∀ (l : List (Bytes × Bytes)) (acc : Option Bytes) (v : Bytes),
      l.foldl (fun acc kv =>
        if kv.1.length = kl ∧ agreesFrom key2 kv.1 0 (8 * kv.1.length)
        then some kv.2 else acc) acc = some v →
      (∃ kv, kv ∈ l ∧ kv.2 = v ∧ kv.1.length = kl ∧
        agreesFrom key2 kv.1 0 (8 * kv.1.length)) ∨ acc = some v := by
  intro l
  induction l with
  | nil => intro acc v h; exact Or.inr h
  | cons kv l ih =>
    intro acc v h
    rw [List.foldl_cons] at h
    rcases ih _ v h with ⟨kv', hmem, he, hc⟩ | hacc
    · exact Or.inl ⟨kv', List.mem_cons_of_mem _ hmem, he, hc⟩
    · by_cases hc : kv.1.length = kl ∧ agreesFrom key2 kv.1 0 (8 * kv.1.length)
      · rw [if_pos hc] at hacc
        injection hacc with hv
        exact Or.inl ⟨kv, List.mem_cons_self _ _, hv, hc⟩
      · rw [if_neg hc] at hacc
        exact Or.inr hacc

theorem Tree.get_eq_getAux (t : Tree) (k : Bytes) (hlen : t.keyLength = k.length) :
    t.get k = getAux k t.root 0 := by
  unfold Tree.get
  by_cases hnil : t.root = Node.nil
  · rw [if_pos (Or.inl hnil), hnil]
    rfl
  · rw [if_neg (by tauto)]

theorem lookList_eq_lastPut (kl : Nat) (k : Bytes) (hk : k.length = kl) (hkw : bytesWf k) :
    ∀ (l : List (Bytes × Bytes)), (∀ kv ∈ l, (kv.1 : Bytes).length = kl ∧ bytesWf kv.1) →
      ∀ acc : Option Bytes,
      l.foldl (fun acc kv =>
        if kv.1.length = kl ∧ agreesFrom k kv.1 0 (8 * kv.1.length) then some kv.2 else acc)
        acc =
      l.foldl (fun acc kv => if kv.1 = k then some kv.2 else acc) acc := by
  intro l
  induction l with
  | nil => intro _ acc; rfl
  | cons kv l ih =>
    intro hl acc
    rw [List.foldl_cons, List.foldl_cons]
    obtain ⟨hlen1, hwf1⟩ := hl kv (List.mem_cons_self _ _)
    have hcond : (kv.1.length = kl ∧ agreesFrom k kv.1 0 (8 * kv.1.length)) ↔ kv.1 = k := by
      constructor
      · rintro ⟨_, hA⟩
        exact ((agreesFrom_iff_eq k kv.1 (by omega) hkw hwf1).mp hA).symm
      · intro he
        refine ⟨hlen1, ?_⟩
        rw [he]
        intro j _ _
        rfl
    have hstep : (if kv.1.length = kl ∧ agreesFrom k kv.1 0 (8 * kv.1.length)
        then some kv.2 else acc) = (if kv.1 = k then some kv.2 else acc) := by
      by_cases hc : kv.1 = k
      · rw [if_pos (hcond.mpr hc), if_pos hc]
      · rw [if_neg (fun h0 => hc (hcond.mp h0)), if_neg hc]
    rw [hstep]
    exact ih (fun kv2 hm => hl kv2 (List.mem_cons_of_mem _ hm)) _

theorem lastPut_no_later (k : Bytes) :
    ∀ (l : List (Bytes × Bytes)) (acc : Option Bytes), (∀ kv ∈ l, kv.1 ≠ k) →
      l.foldl (fun acc kv => if kv.1 = k then some kv.2 else acc) acc = acc := by
  intro l
  induction l with
  | nil => intro acc _; rfl
  | cons kv l ih =>
    intro acc hne
    rw [List.foldl_cons, if_neg (hne kv (List.mem_cons_self _ _))]
    exact ih acc (fun kv2 hm => hne kv2 (List.mem_cons_of_mem _ hm))

theorem lastPut_foldl_mem (k v : Bytes) :
    ∀ (l : List (Bytes × Bytes)), (l.map Prod.fst).Nodup → (k, v) ∈ l →
      ∀ acc : Option Bytes,
        l.foldl (fun acc kv => if kv.1 = k then some kv.2 else acc) acc = some v := by
  intro l
  induction l with
  | nil => intro _ hm; exact absurd hm (List.not_mem_nil _)
  | cons kv l ih =>
    intro hnd hm acc
    rw [List.foldl_cons]
    rw [List.map_cons, List.nodup_cons] at hnd
    rcases List.mem_cons.mp hm with he | hm2
    · have hk1 : kv.1 = k := by rw [← he]
      have hk2 : kv.2 = v := by rw [← he]
      rw [if_pos hk1, hk2]
      apply lastPut_no_later
      intro kv2 hm2 he2
      apply hnd.1
      rw [hk1, ← he2]
      exact List.mem_map_of_mem Prod.fst hm2
    · have hne : kv.1 ≠ k := by
        intro he2
        apply hnd.1
        rw [he2]
        exact List.mem_map_of_mem Prod.fst hm2
      rw [if_neg hne]
      exact ih hnd.2 hm2 acc

theorem lastPut_some_mem (k v : Bytes) :
    ∀ (l : List (Bytes × Bytes)) (acc : Option Bytes),
      l.foldl (fun acc kv => if kv.1 = k then some kv.2 else acc) acc = some v →
      (k, v) ∈ l ∨ acc = some v := by
  intro l
  induction l with
  | nil => intro acc h; exact Or.inr h
  | cons kv l ih
 =>
    intro acc h
    rw [List.foldl_cons] at h
    rcases ih _ h with hm | hacc
    · exact Or.inl (List.mem_cons_of_mem _ hm)
    · by_cases hc : kv.1 = k
      · rw [if_pos hc] at hacc
        injection hacc with hv
        left
        have : kv = (k, v) := by
          cases kv
          simp only [Prod.mk.injEq]
          exact ⟨hc, hv⟩
        rw [← this]
        exact List.mem_cons_self _ _
      · rw [if_neg hc] at hacc
        exact Or.inr hacc

theorem lastPut_perm (l1 l2 : List (Bytes × Bytes)) (k : Bytes) (hperm : l1.Perm l2)
    (hnd : (l1.map Prod.fst).Nodup) : lastPut l1 k = lastPut l2 k := by
  have hnd2 : (l2.map Prod.fst).Nodup := (hperm.map Prod.fst).nodup_iff.mp hnd
  rcases hv1 : lastPut l1 k with _ | v
  · rcases hv2 : lastPut l2 k with _ | v2
    · rfl
    · exfalso
      rcases lastPut_some_mem k v2 l2 none hv2 with hm | hne
      · have hl1 : lastPut l1 k = some v2 :=
          lastPut_foldl_mem k v2 l1 hnd (hperm.mem_iff.mpr hm) none
        rw [hv1] at hl1
        exact Option.noConfusion hl1
      · exact Option.noConfusion hne
  · rcases lastPut_some_mem k v l1 none hv1 with hm | hne
    · have hl2 : lastPut l2 k = some v :=
        lastPut_foldl_mem k v l2 hnd2 (hperm.mem_iff.mp hm) none
      rw [hl2]
    · exact absurd hne (by simp)

theorem foldDel_spec (key2 : Bytes) :
    ∀ (ds : List Bytes) (t : Tree), t.good →
      (ds.foldl (fun t k => (t.del k).2) t).keyLength = t.keyLength ∧
      (ds.foldl (fun t k => (t.del k).2) t).good ∧
      getAux key2 (ds.foldl (fun t k => (t.del k).2) t).root 0 =
        (if ∃ k ∈ ds, (k : Bytes).length = t.keyLength ∧ agreesFrom key2 k 0 (8 * k.length)
         then none else getAux key2 t.root 0) := by
  intro ds
  induction ds with
  | nil =>
    intro t hg
    refine ⟨rfl, hg, ?_⟩
    rw [if_neg (by simp)]
    rfl
  | cons k ds ih =>
    intro t hg
    obtain ⟨hkl, hgood, hchar⟩ := applyDel_step t k key2 hg
    obtain ⟨ihk, ihg, ihc⟩ := ih ((t.del k).2) hgood
    rw [List.foldl_cons]
    refine ⟨by rw [ihk, hkl], ihg, ?_⟩
    rw [ihc, hchar, hkl]
    by_cases h1 : ∃ kk ∈ ds, (kk : Bytes).length = t.keyLength ∧
        agreesFrom key2 kk 0 (8 * kk.length)
    · rw [if_pos h1, if_pos ?both]
      case both =>
        obtain ⟨kk, hmm, hc⟩ := h1
        exact ⟨kk, List.mem_cons_of_mem _ hmm, hc⟩
    · rw [if_neg h1]
      by_cases h2 : k.length = t.keyLength ∧ agreesFrom key2 k 0 (8 * k.length)
      · rw [if_pos h2, if_pos ⟨k, List.mem_cons_self _ _, h2⟩]
      · rw [if_neg h2, if_neg ?nei]
        case nei =>
          rintro ⟨kk, hmm, hc⟩
          rcases List.mem_cons.mp hmm with he | hm2
          · rw [← he] at h2
            exact h2 hc
          · exact h1 ⟨kk, hm2, hc⟩

theorem putAux_overwrite (key val : Bytes) :
    ∀ (n : Node) (index : Nat), goodAt n (8 * key.length - index) → index ≤ 8 * key.length →
      (getAux key n index).isSome →
      putAux key val n index = (setLeaf key val n index, true) := by
  intro n
  induction n with
  | nil =>
    intro index h _ _
    exact absurd h (by simp [goodAt])
  | leaf v => intro index _ _ _; rfl
  | full l r ihl ihr =>
    intro index h hle hsome
    obtain ⟨h1, hl, hr⟩ := h
    have harith : 8 * key.length - index - 1 = 8 * key.length - (index + 1) := by omega
    rw [harith] at hl hr
    rw [putAux_full_eq, getAux_full_eq] at *
    by_cases hb : readBit key index = 0
    · rw [if_pos hb] at hsome ⊢
      rw [ihl (index + 1) hl (by omega) hsome,
        show setLeaf key val (.full l r) index = .full (setLeaf key val l (index + 1)) r from
          by rw [setLeaf, if_pos hb]]
    · rw [if_neg hb] at hsome ⊢
      rw [ihr (index + 1) hr (by omega) hsome,
        show setLeaf key val (.full l r) index = .full l (setLeaf key val r (index + 1)) from
          by rw [setLeaf, if_neg hb]]
  | short c p ch ih =>
    intro index h hle hsome
    obtain ⟨hc1, hcr, hns, hplen, hpwf, hppad, hch⟩ := h
    have harith : 8 * key.length - index - c = 8 * key.length - (index + c) := by omega
    rw [harith] at hch
    rw [getAux_short_eq] at hsome
    by_cases hm : pathMatches key index p c = true
    · rw [if_pos hm] at hsome
      have hcl : commonLen key index p c = c := (pathMatches_iff_commonLen _ _ _ _).mp hm
      rw [putAux_short_match key val c p ch index hcl, ih (index + c) hch (by omega) hsome]
      rfl
    · rw [if_neg hm] at hsome
      exact absurd hsome (by simp)

theorem Tree.ext_of (t1 t2 : Tree) (h1 : t1.keyLength = t2.keyLength)
    (h2 : t1.root = t2.root) : t1 = t2 := by
  cases t1
  cases t2
  simp_all

/-! ## Claims -/

/-- C2: for every sequence of `Put(k, v)` calls with well-formed keys of the
configured length (repeated keys allowed), `Get(k)` afterwards returns the
value of the latest `Put` for `k` (`found = true` is `some` here), and
`Get(k')` for a key never put returns not-found (`none`). -/
theorem C2_round_trip (kl : Nat) (l : List (Bytes × Bytes)) (k : Bytes)
    (hl : ∀ kv ∈ l, (kv.1 : Bytes).length = kl ∧ bytesWf kv.1)
    (hk : k.length = kl) (hkw : bytesWf k) :
    (buildTree kl l).get k = lastPut l k ∧
    ((∀ v : Bytes, (k, v) ∉ l) → (buildTree kl l).get k = none) := by
  obtain ⟨hkl, hgood, hchar⟩ := buildTree_spec kl l k
  have hget : (buildTree kl l).get k = lastPut l k := by
    rw [Tree.get_eq_getAux _ _ (by rw [hkl, hk]), hchar]
    exact lookList_eq_lastPut kl k hk hkw l hl none
  refine ⟨hget, ?_⟩
  intro habs
  rw [hget]
  rcases hv : lastPut l k with _ | v
  · rfl
  · exfalso
    rcases lastPut_some_mem k v l none hv with hm | hne
    · exact habs v hm
    · exact Option.noConfusion hne

theorem C2_round_trip_witness :
    (buildTree 1 [([0], [9]), ([0], [7]), ([255], [3])]).get [0] =
        lastPut [([0], [9]), ([0], [7]), ([255], [3])] [0] ∧
    ((∀ v : Bytes, (([0] : Bytes), v) ∉
        ([([0], [9]), ([0], [7]), ([255], [3])] : List (Bytes × Bytes))) →
      (buildTree 1 [([0], [9]), ([0], [7]), ([255], [3])]).get [0] = none) :=
  C2_round_trip 1 [([0], [9]), ([0], [7]), ([255], [3])] [0]
    (by decide) (by decide) (by decide)

/-- C1 counterexample: the multiset `{([0x00], [1]), ([0x00], [2])}` put in
its two orders (last write winning) produces structurally different roots and
different root hashes, because the two orders leave different final values
under the duplicated key.  This refutes the claim as stated for multisets
with repeated keys. -/
theorem C1_counterexample :
    ¬ ((buildTree 1 [([0], [1]), ([0], [2])]).root =
         (buildTree 1 [([0], [2]), ([0], [1])]).root ∧
       (buildTree 1 [([0], [1]), ([0], [2])]).hash =
         (buildTree 1 [([0], [2]), ([0], [1])]).hash) := by
  decide

/-- C1 (amended): for every multiset of well-formed `(key, value)` pairs of
the configured key length whose keys are pairwise distinct, any two orders of
insertion into fresh tries produce structurally identical trees (hence
identical roots) and equal root hashes. -/
theorem C1_canonicality (kl : Nat) (l1 l2 : List (Bytes × Bytes))
    (hperm : l1.Perm l2) (hnd : (l1.map Prod.fst).Nodup)
    (hl : ∀ kv ∈ l1, (kv.1 : Bytes).length = kl ∧ bytesWf kv.1) :
    buildTree kl l1 = buildTree kl l2 ∧
    (buildTree kl l1).hash = (buildTree kl l2).hash := by
  have hl2 : ∀ kv ∈ l2, (kv.1 : Bytes).length = kl ∧ bytesWf kv.1 := fun kv hm =>
    hl kv (hperm.mem_iff.mpr hm)
  obtain ⟨hkl1, hgood1, _⟩ := buildTree_spec kl l1 []
  obtain ⟨hkl2, hgood2, _⟩ := buildTree_spec kl l2 []
  have hagree : ∀ key2 : Bytes, key2.length = kl → bytesWf key2 →
      getAux key2 (buildTree kl l1).root 0 = getAux key2 (buildTree kl l2).root 0 := by
    intro key2 hk2 hw2
    rw [(buildTree_spec kl l1 key2).2.2, (buildTree_spec kl l2 key2).2.2]
    show lookList kl l1 key2 = lookList kl l2 key2
    unfold lookList
    rw [lookList_eq_lastPut kl key2 hk2 hw2 l1 hl none,
      lookList_eq_lastPut kl key2 hk2 hw2 l2 hl2 none]
    exact lastPut_perm l1 l2 key2 hperm hnd
  have hroot : (buildTree kl l1).root = (buildTree kl l2).root := by
    rcases hgood1 with hn1 | hg1
    · rcases hgood2 with hn2 | hg2
      · rw [hn1, hn2]
      · exfalso
        have hg2' : goodAt (buildTree kl l2).root (8 * kl - 0) := by
          rw [Nat.sub_zero]
          rw [hkl2] at hg2
          exact hg2
        obtain ⟨key, v, hklen, hkwf, hfound⟩ := goodAt_found kl _ 0 hg2' (by omega)
        have hc := hagree key hklen hkwf
        rw [hn1, hfound] at hc
        exact Option.noConfusion hc
    · rcases hgood2 with hn2 | hg2
      · exfalso
        have hg1' : goodAt (buildTree kl l1).root (8 * kl - 0) := by
          rw [Nat.sub_zero]
          rw [hkl1] at hg1
          exact hg1
        obtain ⟨key, v, hklen, hkwf, hfound⟩ := goodAt_found kl _ 0 hg1' (by omega)
        have hc := hagree key hklen hkwf
        rw [hn2, hfound] at hc
        exact Option.noConfusion hc
      · have hg1' : goodAt (buildTree kl l1).root (8 * kl - 0) := by
          rw [Nat.sub_zero]
          rw [hkl1] at hg1
          exact hg1
        have hg2' : goodAt (buildTree kl l2).root (8 * kl - 0) := by
          rw [Nat.sub_zero]
          rw [hkl2] at hg2
          exact hg2
        exact goodAt_ext kl _ _ 0 hg1' hg2' (by omega) (fun key hklen hkwf =>
          hagree key hklen hkwf)
  have hteq : buildTree kl l1 = buildTree kl l2 :=
    Tree.ext_of _ _ (by rw [hkl1, hkl2]) hroot
  exact ⟨hteq, by rw [hteq]⟩

theorem C1_canonicality_witness :
    buildTree 1 [([0], [9]), ([255], [7])] = buildTree 1 [([255], [7]), ([0], [9])] ∧
    (buildTree 1 [([0], [9]), ([255], [7])]).hash =
      (buildTree 1 [([255], [7]), ([0], [9])]).hash :=
  C1_canonicality 1 [([0], [9]), ([255], [7])] [([255], [7]), ([0], [9])]
    (by decide) (by decide) (by decide)

/-- C7: starting from a fresh trie, after every sequence of `Put`, `Get`,
`Del`, `Prove`, and `Hash` operations, the tree contains no short node whose
child is a short node, no full node with a `nil` child, and no short node
with count below 1 (`mergeOk`). -/
theorem C7_merge_discipline (kl : Nat) (t0 : Tree) (h0 : NewTree kl = .ok t0)
    (ops : List Op) : mergeOk ((ops.foldl applyOp t0).root) := by
  have ht0 : t0 = ⟨kl, .nil⟩ := by
    unfold NewTree at h0
    split at h0
    · exact Except.noConfusion h0
    · injection h0 with h
      exact h.symm
  have hg0 : t0.good := by
    rw [ht0]
    exact Or.inl rfl
  obtain ⟨hg, _⟩ := foldOps_good ops t0 hg0
  rcases hg with hnil | hgood
  · rw [hnil]
    trivial
  · exact mergeOk_of_goodAt _ _ hgood

theorem C7_merge_discipline_witness :
    mergeOk ((([Op.put [0] [1], Op.get [0], Op.put [255] [2], Op.put [0] [3],
      Op.del [0], Op.prove [255], Op.hash, Op.del [200]]).foldl applyOp
        ⟨1, Node.nil⟩).root) :=
  C7_merge_discipline 1 ⟨1, Node.nil⟩ rfl
    [Op.put [0] [1], Op.get [0], Op.put [255] [2], Op.put [0] [3],
      Op.del [0], Op.prove [255], Op.hash, Op.del [200]]

/-- C8: deleting every inserted key, in any order (any deletion list holding
exactly the put keys), leaves the trie with a `nil` root; the hash of that
trie, like the hash of a freshly created trie, is the zero-length byte string
(modelled as `none`). -/
theorem C8_del_inverse (kl : Nat) (l : List (Bytes × Bytes)) (ds : List Bytes)
    (hl : ∀ kv ∈ l, (kv.1 : Bytes).length = kl ∧ bytesWf kv.1)
    (hds : (∀ k ∈ ds, k ∈ l.map Prod.fst) ∧ (∀ k ∈ l.map Prod.fst, k ∈ ds)) :
    (ds.foldl (fun t k => (t.del k).2) (buildTree kl l)).root = .nil ∧
    (ds.foldl (fun t k => (t.del k).2) (buildTree kl l)).hash = none ∧
    (∀ t0 : Tree, NewTree kl = .ok t0 → t0.hash = none) := by
  obtain ⟨hkl, hgood, _⟩ := buildTree_spec kl l []
  have hroot : (ds.foldl (fun t k => (t.del k).2) (buildTree kl l)).root = .nil := by
    by_contra hne
    obtain ⟨hdkl, hdgood, _⟩ := foldDel_spec [] ds (buildTree kl l) hgood
    rcases hdgood with hnil | hg
    · exact hne hnil
    · have hg' : goodAt (ds.foldl (fun t k => (t.del k).2) (buildTree kl l)).root
          (8 * kl - 0) := by
        rw [Nat.sub_zero]
        rw [hdkl, hkl] at hg
        exact hg
      obtain ⟨key, v, hklen, hkwf, hfound⟩ := goodAt_found kl _ 0 hg' (by omega)
      obtain ⟨_, _, hdchar⟩ := foldDel_spec key ds (buildTree kl l) hgood
      rw [hdchar] at hfound
      by_cases hex : ∃ k ∈ ds, (k : Bytes).length = (buildTree kl l).keyLength ∧
          agreesFrom key k 0 (8 * k.length)
      · rw [if_pos hex] at hfound
        exact Option.noConfusion hfound
      · rw [if_neg hex] at hfound
        rw [(buildTree_spec kl l key).2.2] at hfound
        unfold lookList at hfound
        rcases lookList_some kl key l none v hfound with ⟨kv, hmem, hv2, hlenkv, hag⟩ | hacc
        · exact hex ⟨kv.1, hds.2 kv.1 (List.mem_map_of_mem Prod.fst hmem),
            by rw [hkl]; exact hlenkv, hag⟩
        · exact Option.noConfusion hacc
  refine ⟨hroot, ?_, ?_⟩
  · unfold Tree.hash
    rw [if_pos hroot]
  · intro t0 h0
    unfold NewTree at h0
    split at h0
    · exact Except.noConfusion h0
    · injection h0 with h
      rw [← h]
      rfl

theorem C8_del_inverse_witness :
    (([([255] : Bytes), ([0] : Bytes)]).foldl (fun t k => (t.del k).2)
      (buildTree 1 [([0], [1]), ([255], [2]), ([0], [3])])).root = .nil ∧
    (([([255] : Bytes), ([0] : Bytes)]).foldl (fun t k => (t.del k).2)
      (buildTree 1 [([0], [1]), ([255], [2]), ([0], [3])])).hash = none ∧
    (∀ t0 : Tree, NewTree 1 = .ok t0 → t0.hash = none) :=
  C8_del_inverse 1 [([0], [1]), ([255], [2]), ([0], [3])] [[255], [0]]
    (by decide) (by decide)

/-- C9 (implicit frame property of overwrite): when `Put(key, value)` hits a
key already present, the put returns `true` and the new root is `setLeaf` of
the old root — a copy in which only the value stored in the leaf at the end
of the key's path is replaced, while every full node, every short node's
count, path and child structure, and every other leaf are kept unchanged. -/
theorem C9_overwrite_frame (kl : Nat) (l : List (Bytes × Bytes)) (key val : Bytes)
    (hk : key.length = kl) (hpresent : (buildTree kl l).get key ≠ none) :
    (buildTree kl l).put key val =
      .ok (true, ⟨kl, setLeaf key val (buildTree kl l).root 0⟩) := by
  obtain ⟨hkl, hgood, _⟩ := buildTree_spec kl l []
  have hsome : (getAux key (buildTree kl l).root 0).isSome := by
    rw [Tree.get_eq_getAux _ _ (by rw [hkl, hk])] at hpresent
    rcases h : getAux key (buildTree kl l).root 0 with _ | v
    · exact absurd h hpresent
    · rfl
  have hgroot : goodAt (buildTree kl l).root (8 * key.length - 0) := by
    rcases hgood with hnil | hg
    · rw [hnil] at hsome
      exact absurd hsome (by simp [getAux])
    · rw [Nat.sub_zero, hk]
      rw [hkl] at hg
      exact hg
  unfold Tree.put
  rw [if_neg (show ¬ key.length ≠ (buildTree kl l).keyLength by rw [hk, hkl]; exact fun h => h rfl),
    putAux_overwrite key val (buildTree kl l).root 0 hgroot (by omega) hsome, hkl]

theorem C9_overwrite_frame_witness :
    (buildTree 1 [([5], [1]), ([9], [2])]).put [5] [7] =
      .ok (true, ⟨1, setLeaf [5] [7] (buildTree 1 [([5], [1]), ([9], [2])]).root 0⟩) :=
  C9_overwrite_frame 1 [([5], [1]), ([9], [2])] [5] [7] (by decide) (by decide)

/-! ## Verify-side analysis -/

theorem countZeros_nil : countZeros [] = 0 := rfl

theorem countZeros_cons (x : Nat) (rest : List Nat) :
    countZeros (x :: rest) = (if x = 0 then 1 else 0) + countZeros rest := rfl

theorem countZeros_append (l1 l2 : List Nat) :
    countZeros (l1 ++ l2) = countZeros l1 + countZeros l2 := by
  induction l1 with
  | nil =>
    rw [List.nil_append, countZeros_nil]
    omega
  | cons x t ih =>
    rw [List.cons_append, countZeros_cons, countZeros_cons, ih]
    omega

theorem countZeros_reverse (l : List Nat) : countZeros l.reverse = countZeros l := by
  induction l with
  | nil => rfl
  | cons x t ih =>
    rw [List.reverse_cons, countZeros_append, countZeros_cons, countZeros_cons,
      countZeros_nil, ih]
    omega

theorem foldl_int_sum (l : List Nat) : ∀ a : Int,
    l.foldl (fun acc sc => acc + Int.ofNat sc) a = a + (l.sum : Int) := by
  induction l with
  | nil => intro a; simp
  | cons x t ih =>
    intro a
    simp only [List.foldl_cons, List.sum_cons]
    rw [ih, Int.ofNat_eq_natCast]
    omega

theorem listGetI_neg {α : Type} (l : List α) (i : Int) (h : i < 0) : listGetI l i = none := by
  unfold listGetI
  rw [if_pos h]

theorem listGetI_ofNat {α : Type} (l : List α) (n : Nat) : listGetI l (n : Int) = l.get? n := by
  unfold listGetI
  rw [if_neg (by omega)]
  rfl

theorem listGetI_append_first {α : Type} (l1 l2 : List α) (i : Int) (h : i < (l1.length : Int)) :
    listGetI (l1 ++ l2) i = listGetI l1 i := by
  unfold listGetI
  by_cases hneg : i < 0
  · rw [if_pos hneg, if_pos hneg]
  · rw [if_neg hneg, if_neg hneg, List.get?_eq_getElem?, List.get?_eq_getElem?,
      List.getElem?_append, if_pos (by omega)]

theorem listGetI_append_last {α : Type} (l1 : List α) (a : α) (l2 : List α) (i : Int)
    (h : i = (l1.length : Int)) :
    listGetI (l1 ++ a :: l2) i = some a := by
  unfold listGetI
  rw [if_neg (by omega), List.get?_eq_getElem?, List.getElem?_append,
    if_neg (by omega)]
  have ht : i.toNat - l1.length = 0 := by omega
  rw [ht, List.getElem?_cons_zero]

theorem listGetI_some_bound {α : Type} {l : List α} {i : Int} {a : α}
    (h : listGetI l i = some a) : 0 ≤ i ∧ i < (l.length : Int) := by
  unfold listGetI at h
  by_cases hneg : i < 0
  · rw [if_pos hneg] at h
    exact Option.noConfusion h
  · rw [if_neg hneg, List.get?_eq_getElem?] at h
    by_cases hlen : i.toNat < l.length
    · omega
    · rw [List.getElem?_eq_none (by omega)] at h
      exact Option.noConfusion h

theorem listGetI_in_range {α : Type} (l : List α) (i : Int) (h : 0 ≤ i)
    (h2 : i < (l.length : Int)) : listGetI l i = some (l.getD i.toNat (l.get ⟨i.toNat, by omega⟩)) := by
  unfold listGetI
  rw [if_neg (by omega), List.get?_eq_getElem?, List.getElem?_eq_getElem (by omega),
    List.getD_eq_getElem _ _ (by omega)]

theorem listGetI_isSome {α : Type} (l : List α) (i : Int) (h : 0 ≤ i)
    (h2 : i < (l.length : Int)) : (listGetI l i).isSome := by
  unfold listGetI
  rw [if_neg (by omega), List.get?_eq_getElem?, List.getElem?_eq_getElem (by omega)]
  rfl

theorem readBitI_in (key : Bytes) (i : Int) (h1 : 0 ≤ i) (h2 : i < 8 * (key.length : Int)) :
    readBitI key i = some (readBit key i.toNat) := by
  unfold readBitI
  rw [if_pos ⟨h1, h2⟩]

theorem setBit_eq_writeBit (b : Bytes) (i : Nat) : setBit b i = writeBit b i 1 := by
  unfold writeBit
  rw [if_neg (by omega)]

theorem readBit_setBit (b : Bytes) (i j : Nat) :
    readBit (setBit b i) j = if j = i ∧ i < 8 * b.length then 1 else readBit b j := by
  rw [setBit_eq_writeBit, readBit_writeBit]
  split
  · rw [if_neg (by omega)]
  · rfl
theorem bcp_foldlM (key : Bytes) (pIdx : Int) (h0 : 0 ≤ pIdx) :
    ∀ (sc : Nat) (init : Bytes), pIdx + sc ≤ 8 * (key.length : Int) →
    (List.range sc).foldlM
      (fun acc j => (readBitI key (pIdx + Int.ofNat j)).map
        (fun b => if b = 1 then setBit acc j else acc)) init =
      some ((List.range sc).foldl
        (fun acc j => if readBit key (pIdx.toNat + j) = 1 then setBit acc j else acc) init) := by
  intro sc
  induction sc with
  | zero =>
    intro init h
    rfl
  | succ sc ih =>
    intro init h
    simp only [Int.ofNat_eq_natCast] at ih ⊢
    rw [List.range_succ sc, List.foldlM_append, List.foldl_append, ih init (by push_cast at h ⊢; omega)]
    have hr : readBitI key (pIdx + (sc : Int)) =
        some (readBit key (pIdx.toNat + sc)) := by
      rw [readBitI_in key _ (by omega) (by push_cast at h ⊢; omega)]
      have ht : (pIdx + (sc : Int)).toNat = pIdx.toNat + sc := by omega
      rw [ht]
    simp only [List.foldlM_cons, List.foldlM_nil, List.foldl_cons, List.foldl_nil, hr,
      Option.some_bind, Option.map_some]
    rfl

theorem length_bcpFold (key : Bytes) (pI : Nat) :
    ∀ (sc : Nat) (init : Bytes),
      ((List.range sc).foldl
        (fun acc j => if readBit key (pI + j) = 1 then setBit acc j else acc) init).length =
      init.length := by
  intro sc
  induction sc with
  | zero =>
    intro init
    rfl
  | succ sc ih =>
    intro init
    rw [List.range_succ sc, List.foldl_append, List.foldl_cons, List.foldl_nil]
    split
    · rw [length_setBit, ih]
    · rw [ih]

theorem wf_bcpFold (key : Bytes) (pI : Nat) :
    ∀ (sc : Nat) (init : Bytes), bytesWf init →
      bytesWf ((List.range sc).foldl
        (fun acc j => if readBit key (pI + j) = 1 then setBit acc j else acc) init) := by
  intro sc
  induction sc with
  | zero =>
    intro init h
    exact h
  | succ sc ih =>
    intro init h
    rw [List.range_succ sc, List.foldl_append, List.foldl_cons, List.foldl_nil]
    split
    · exact wf_setBit (ih init h) sc
    · exact ih init h

theorem readBit_bcpFold (key : Bytes) (pI : Nat) (j : Nat) :
    ∀ (sc : Nat) (init : Bytes),
      readBit ((List.range sc).foldl
        (fun acc j2 => if readBit key (pI + j2) = 1 then setBit acc j2 else acc) init) j =
      if j < sc ∧ j < 8 * init.length ∧ readBit key (pI + j) = 1 then 1 else readBit init j := by
  intro sc
  induction sc with
  | zero =>
    intro init
    rw [List.range_zero, List.foldl_nil, if_neg (by omega)]
  | succ sc ih =>
    intro init
    rw [List.range_succ sc, List.foldl_append, List.foldl_cons, List.foldl_nil]
    by_cases hb : readBit key (pI + sc) = 1
    · rw [if_pos hb, readBit_setBit, length_bcpFold, ih]
      by_cases hj : j = sc
      · subst hj
        by_cases hlen : j < 8 * init.length
        · rw [if_pos ⟨rfl, hlen⟩, if_pos ⟨by omega, hlen, hb⟩]
        · rw [if_neg (by omega), if_neg (by omega), if_neg (by omega)]
      · rw [if_neg (by omega)]
        by_cases hcase : j < sc ∧ j < 8 * init.length ∧ readBit key (pI + j) = 1
        · rw [if_pos hcase, if_pos ⟨by omega, hcase.2⟩]
        · rw [if_neg hcase, if_neg (by omega)]
    · rw [if_neg hb, ih]
      by_cases hcase : j < sc ∧ j < 8 * init.length ∧ readBit key (pI + j) = 1
      · rw [if_pos hcase, if_pos ⟨by omega, hcase.2⟩]
      · rw [if_neg hcase, if_neg ?hside]
        case hside =>
          intro hcon
          have hjs : j ≠ sc := by
            intro he
            rw [he] at hcon
            exact hb hcon.2.2
          exact hcase ⟨by omega, hcon.2⟩

/-- With the key long enough and a canonical stored path (as `goodAt`
guarantees), the common-path reconstruction of `Verify` rebuilds exactly the
stored path bytes. -/
theorem buildCommonPath_eq_path (key p : Bytes) (index c : Nat)
    (hin : index + c ≤ 8 * key.length)
    (hplen : p.length = (c + 7) / 8) (hpwf : bytesWf p)
    (hpad : ∀ j, c ≤ j → readBit p j = 0)
    (hmatch : pathMatches key index p c = true) :
    buildCommonPath key (index : Int) c = some p := by
  unfold buildCommonPath
  rw [bcp_foldlM key (index : Int) (by omega) c (makeBitVector c) (by push_cast; omega)]
  have ht : ((index : Int)).toNat = index := by omega
  rw [ht]
  have hmatch2 := (pathMatches_iff key index p c).mp hmatch
  congr 1
  apply bytes_ext
  · rw [length_bcpFold, length_makeBitVector, hplen]
  · exact wf_bcpFold key index c (makeBitVector c) (wf_makeBitVector c)
  · exact hpwf
  · intro j hj
    rw [readBit_bcpFold, length_makeBitVector, readBit_makeBitVector]
    by_cases hjc : j < c
    · have hkey : readBit key (j + index) = readBit p j := hmatch2 j hjc
      have hjlen : j < 8 * ((c + 7) / 8) := by omega
      have hip : index + j = j + index := by omega
      by_cases hb : readBit key (index + j) = 1
      · rw [if_pos ⟨hjc, hjlen, hb⟩]
        rw [hip, hkey] at hb
        omega
      · rw [if_neg (by tauto)]
        rw [hip, hkey] at hb
        have := readBit_lt_two p j
        omega
    · rw [if_neg (by omega), hpad j (by omega)]

theorem verifyAux_nil (key : Bytes) (ih : List Digest) (cur : Digest) (hIdx pIdx : Int) :
    verifyAux key ih [] cur hIdx pIdx = some (cur, pIdx) := rfl

theorem verifyAux_zero_some (key : Bytes) (ih : List Digest) (rest : List Nat)
    (cur : Digest) (hIdx pIdx : Int) (nb : Digest) (b : Nat)
    (h1 : listGetI ih hIdx = some nb) (h2 : readBitI key (pIdx - 1) = some b) :
    verifyAux key ih (0 :: rest) cur hIdx pIdx =
      verifyAux key ih rest (if b = 1 then .dfull nb cur else .dfull cur nb)
        (hIdx - 1) (pIdx - 1) := by
  conv_lhs => rw [verifyAux]
  rw [if_pos rfl, h1, h2]

theorem verifyAux_zero_none1 (key : Bytes) (ih : List Digest) (rest : List Nat)
    (cur : Digest) (hIdx pIdx : Int) (h1 : listGetI ih hIdx = none) :
    verifyAux key ih (0 :: rest) cur hIdx pIdx = none := by
  conv_lhs => rw [verifyAux]
  rw [if_pos rfl, h1]

theorem verifyAux_zero_none2 (key : Bytes) (ih : List Digest) (rest : List Nat)
    (cur : Digest) (hIdx pIdx : Int) (nb : Digest)
    (h1 : listGetI ih hIdx = some nb) (h2 : readBitI key (pIdx - 1) = none) :
    verifyAux key ih (0 :: rest) cur hIdx pIdx = none := by
  conv_lhs => rw [verifyAux]
  rw [if_pos rfl, h1, h2]

theorem verifyAux_pos_some (key : Bytes) (ih : List Digest) (rest : List Nat)
    (cur : Digest) (hIdx pIdx : Int) (sc : Nat) (cp : Bytes) (hsc : sc ≠ 0)
    (h : buildCommonPath key (pIdx - sc) sc = some cp) :
    verifyAux key ih (sc :: rest) cur hIdx pIdx =
      verifyAux key ih rest (.dshort (serializedPathSegmentLength sc) cp cur)
        hIdx (pIdx - sc) := by
  conv_lhs => rw [verifyAux]
  rw [if_neg hsc, h]

theorem verifyAux_pos_none (key : Bytes) (ih : List Digest) (rest : List Nat)
    (cur : Digest) (hIdx pIdx : Int) (sc : Nat) (hsc : sc ≠ 0)
    (h : buildCommonPath key (pIdx - sc) sc = none) :
    verifyAux key ih (sc :: rest) cur hIdx pIdx = none := by
  conv_lhs => rw [verifyAux]
  rw [if_neg hsc, h]

theorem listGetI_none_of_ge {α : Type} (l : List α) (i : Int)
    (h : (l.length : Int) ≤ i) : listGetI l i = none := by
  unfold listGetI
  rw [if_neg (by omega), List.get?_eq_getElem?, List.getElem?_eq_none (by omega)]

/-- Entries appended past the read window of `Verify`'s backward loop do not
change its result. -/
theorem verifyAux_ih_ext (key : Bytes) (H extra : List Digest) :
    ∀ (l : List Nat) (cur : Digest) (hIdx pIdx : Int), hIdx < (H.length : Int) →
      verifyAux key (H ++ extra) l cur hIdx pIdx = verifyAux key H l cur hIdx pIdx := by
  intro l
  induction l with
  | nil =>
    intro cur hIdx pIdx h
    rfl
  | cons sc rest ihind =>
    intro cur hIdx pIdx h
    by_cases hsc : sc = 0
    · subst hsc
      by_cases hneg : hIdx < 0
      · rw [verifyAux_zero_none1 key (H ++ extra) rest cur hIdx pIdx (listGetI_neg _ _ hneg),
          verifyAux_zero_none1 key H rest cur hIdx pIdx (listGetI_neg _ _ hneg)]
      · have hget : listGetI (H ++ extra) hIdx = listGetI H hIdx :=
          listGetI_append_first H extra hIdx h
        rcases hH : listGetI H hIdx with _ | nb
        · rw [verifyAux_zero_none1 key (H ++ extra) rest cur hIdx pIdx (by rw [hget, hH]),
            verifyAux_zero_none1 key H rest cur hIdx pIdx hH]
        · rcases hrb : readBitI key (pIdx - 1) with _ | b
          · rw [verifyAux_zero_none2 key (H ++ extra) rest cur hIdx pIdx nb (by rw [hget, hH]) hrb,
              verifyAux_zero_none2 key H rest cur hIdx pIdx nb hH hrb]
          · rw [verifyAux_zero_some key (H ++ extra) rest cur hIdx pIdx nb b (by rw [hget, hH]) hrb,
              verifyAux_zero_some key H rest cur hIdx pIdx nb b hH hrb,
              ihind _ _ _ (by omega)]
    · rcases hcp : buildCommonPath key (pIdx - sc) sc with _ | cp
      · rw [verifyAux_pos_none key (H ++ extra) rest cur hIdx pIdx sc hsc hcp,
          verifyAux_pos_none key H rest cur hIdx pIdx sc hsc hcp]
      · rw [verifyAux_pos_some key (H ++ extra) rest cur hIdx pIdx sc cp hsc hcp,
          verifyAux_pos_some key H rest cur hIdx pIdx sc cp hsc hcp,
          ihind _ _ _ h]

theorem buildCommonPath_isSome (key : Bytes) (pIdx : Int) (sc : Nat)
    (h0 : 0 ≤ pIdx) (h : pIdx + sc ≤ 8 * (key.length : Int)) :
    (buildCommonPath key pIdx sc).isSome := by
  unfold buildCommonPath
  rw [bcp_foldlM key pIdx h0 sc _ h]
  rfl

/-- Totality of the `Verify` loop: with enough interim hashes for the zero
entries and all key-bit indices in range, no out-of-range access happens. -/
theorem verifyAux_total (key : Bytes) (ih : List Digest) :
    ∀ (l : List Nat) (cur : Digest) (hIdx pIdx : Int),
      (countZeros l : Int) ≤ hIdx + 1 → hIdx < (ih.length : Int) →
      pIdx ≤ 8 * (key.length : Int) → (countZeros l : Int) + (l.sum : Int) ≤ pIdx →
      (verifyAux key ih l cur hIdx pIdx).isSome := by
  intro l
  induction l with
  | nil =>
    intro cur hIdx pIdx h1 h2 h3 h4
    rw [verifyAux_nil]
    rfl
  | cons sc rest ihind =>
    intro cur hIdx pIdx h1 h2 h3 h4
    rw [countZeros_cons] at h1 h4
    rw [List.sum_cons] at h4
    by_cases hsc : sc = 0
    · subst hsc
      rw [if_pos rfl] at h1 h4
      obtain ⟨nb, hnb⟩ := Option.isSome_iff_exists.mp
        (listGetI_isSome ih hIdx (by omega) h2)
      have hrb : readBitI key (pIdx - 1) = some (readBit key (pIdx - 1).toNat) :=
        readBitI_in key _ (by omega) (by omega)
      rw [verifyAux_zero_some key ih rest cur hIdx pIdx nb _ hnb hrb]
      exact ihind _ _ _ (by omega) (by omega) (by omega)
        (by omega)
    · rw [if_neg hsc] at h1 h4
      obtain ⟨cp, hcp⟩ := Option.isSome_iff_exists.mp
        (buildCommonPath_isSome key (pIdx - sc) sc (by omega) (by omega))
      rw [verifyAux_pos_some key ih rest cur hIdx pIdx sc cp hsc hcp]
      exact ihind _ _ _ (by omega) h2 (by omega) (by omega)

/-- Two `Verify` runs over the same key, the same `shortCounts` and interim
lists of equal length proceed in lockstep: they panic together or return
together with the same final path index, and the reconstructed digests agree
exactly when the starting digests and every interim hash read agree. -/
theorem verifyAux_lockstep (key : Bytes) (ih1 ih2 : List Digest)
    (hlen : ih1.length = ih2.length) :
    ∀ (l : List Nat) (cur1 cur2 : Digest) (hIdx pIdx : Int),
      (verifyAux key ih1 l cur1 hIdx pIdx = none ∧
        verifyAux key ih2 l cur2 hIdx pIdx = none) ∨
      (∃ d1 d2 pf, verifyAux key ih1 l cur1 hIdx pIdx = some (d1, pf) ∧
        verifyAux key ih2 l cur2 hIdx pIdx = some (d2, pf) ∧
        (d1 = d2 ↔ (cur1 = cur2 ∧ ∀ j : Int, hIdx - (countZeros l : Int) < j → j ≤ hIdx →
          listGetI ih1 j = listGetI ih2 j))) := by
  intro l
  induction l with
  | nil =>
    intro cur1 cur2 hIdx pIdx
    right
    refine ⟨cur1, cur2, pIdx, rfl, rfl, ?_⟩
    constructor
    · intro hd
      refine ⟨hd, ?_⟩
      intro j hj1 hj2
      rw [countZeros_nil] at hj1
      exfalso
      omega
    · intro hd
      exact hd.1
  | cons sc rest ihind =>
    intro cur1 cur2 hIdx pIdx
    by_cases hsc : sc = 0
    · subst hsc
      by_cases hr : 0 ≤ hIdx ∧ hIdx < (ih1.length : Int)
      · obtain ⟨nb1, hnb1⟩ := Option.isSome_iff_exists.mp
          (listGetI_isSome ih1 hIdx hr.1 hr.2)
        obtain ⟨nb2, hnb2⟩ := Option.isSome_iff_exists.mp
          (listGetI_isSome ih2 hIdx hr.1 (by omega))
        rcases hrb : readBitI key (pIdx - 1) with _ | b
        · left
          exact ⟨verifyAux_zero_none2 key ih1 rest cur1 hIdx pIdx nb1 hnb1 hrb,
            verifyAux_zero_none2 key ih2 rest cur2 hIdx pIdx nb2 hnb2 hrb⟩
        · rw [verifyAux_zero_some key ih1 rest cur1 hIdx pIdx nb1 b hnb1 hrb,
            verifyAux_zero_some key ih2 rest cur2 hIdx pIdx nb2 b hnb2 hrb]
          rcases ihind (if b = 1 then .dfull nb1 cur1 else .dfull cur1 nb1)
              (if b = 1 then .dfull nb2 cur2 else .dfull cur2 nb2) (hIdx - 1) (pIdx - 1)
            with ⟨he1, he2⟩ | ⟨d1, d2, pf, he1, he2, hiff⟩
          · left
            exact ⟨he1, he2⟩
          · right
            refine ⟨d1, d2, pf, he1, he2, ?_⟩
            rw [hiff]
            have hcur : ((if b = 1 then Digest.dfull nb1 cur1 else Digest.dfull cur1 nb1) =
                (if b = 1 then Digest.dfull nb2 cur2 else Digest.dfull cur2 nb2)) ↔
                (nb1 = nb2 ∧ cur1 = cur2) := by
              by_cases hb : b = 1
              · rw [if_pos hb, if_pos hb]
                constructor
                · intro hh
                  injection hh with a1 a2
                  exact ⟨a1, a2⟩
                · intro hh
                  rw [hh.1, hh.2]
              · rw [if_neg hb, if_neg hb]
                constructor
                · intro hh
                  injection hh with a1 a2
                  exact ⟨a2, a1⟩
                · intro hh
                  rw [hh.1, hh.2]
            rw [hcur, countZeros_cons, if_pos rfl]
            constructor
            · intro hh
              refine ⟨hh.1.2, ?_⟩
              intro j hj1 hj2
              by_cases hje : j = hIdx
              · rw [hje, hnb1, hnb2]
                rw [hh.1.1]
              · exact hh.2 j (by omega) (by omega)
            · intro hh
              have hread : listGetI ih1 hIdx = listGetI ih2 hIdx :=
                hh.2 hIdx (by omega) (by omega)
              rw [hnb1, hnb2] at hread
              refine ⟨⟨Option.some.inj hread, hh.1⟩, ?_⟩
              intro j hj1 hj2
              exact hh.2 j (by omega) (by omega)
      · have hn1 : listGetI ih1 hIdx = none := by
          by_cases hneg : hIdx < 0
          · exact listGetI_neg _ _ hneg
          · exact listGetI_none_of_ge _ _ (by omega)
        have hn2 : listGetI ih2 hIdx = none := by
          by_cases hneg : hIdx < 0
          · exact listGetI_neg _ _ hneg
          · exact listGetI_none_of_ge _ _ (by omega)
        left
        exact ⟨verifyAux_zero_none1 key ih1 rest cur1 hIdx pIdx hn1,
          verifyAux_zero_none1 key ih2 rest cur2 hIdx pIdx hn2⟩
    · rcases hcp : buildCommonPath key (pIdx - sc) sc with _ | cp
      · left
        exact ⟨verifyAux_pos_none key ih1 rest cur1 hIdx pIdx sc hsc hcp,
          verifyAux_pos_none key ih2 rest cur2 hIdx pIdx sc hsc hcp⟩
      · rw [verifyAux_pos_some key ih1 rest cur1 hIdx pIdx sc cp hsc hcp,
          verifyAux_pos_some key ih2 rest cur2 hIdx pIdx sc cp hsc hcp]
        rcases ihind (.dshort (serializedPathSegmentLength sc) cp cur1)
            (.dshort (serializedPathSegmentLength sc) cp cur2) hIdx (pIdx - sc)
          with ⟨he1, he2⟩ | ⟨d1, d2, pf, he1, he2, hiff⟩
        · left
          exact ⟨he1, he2⟩
        · right
          refine ⟨d1, d2, pf, he1, he2, ?_⟩
          rw [hiff, countZeros_cons, if_neg hsc]
          constructor
          · intro hh
            have hcur : cur1 = cur2 := by
              have := hh.1
              injection this
            refine ⟨hcur, ?_⟩
            intro j hj1 hj2
            exact hh.2 j (by omega) hj2
          · intro hh
            refine ⟨by rw [hh.1], ?_⟩
            intro j hj1 hj2
            exact hh.2 j (by omega) hj2

theorem proveAux_full_eq (key : Bytes) (l r : Node) (index : Nat) :
    proveAux key (.full l r) index =
      if readBit key index = 0 then
        (proveAux key l (index + 1)).map (fun res => (res.1, 0 :: res.2.1, r.hash :: res.2.2))
      else
        (proveAux key r (index + 1)).map (fun res => (res.1, 0 :: res.2.1, l.hash :: res.2.2)) := by
  conv_lhs => rw [proveAux]

theorem proveAux_short_eq (key : Bytes) (c : Nat) (p : Bytes) (ch : Node) (index : Nat) :
    proveAux key (.short c p ch) index =
      if pathMatches key index p c then
        (proveAux key ch (index + c)).map (fun res => (res.1, c % 256 :: res.2.1, res.2.2))
      else none := by
  conv_lhs => rw [proveAux]

/-- `Prove` finds a key exactly when `Get` does. -/
theorem proveAux_isSome (key : Bytes) : ∀ (n : Node) (index : Nat),
    (proveAux key n index).isSome = (getAux key n index).isSome := by
  intro n
  induction n with
  | nil =>
    intro index
    rfl
  | leaf v =>
    intro index
    rfl
  | full l r ihl ihr =>
    intro index
    rw [proveAux_full_eq, getAux_full_eq]
    by_cases hb : readBit key index = 0
    · rw [if_pos hb, if_pos hb, Option.isSome_map']
      exact ihl _
    · rw [if_neg hb, if_neg hb, Option.isSome_map']
      exact ihr _
  | short c p ch ih =>
    intro index
    rw [proveAux_short_eq, getAux_short_eq]
    by_cases hm : pathMatches key index p c
    · rw [if_pos hm, if_pos hm, Option.isSome_map']
      exact ih _
    · rw [if_neg hm, if_neg hm]
      rfl

/-- Transcript accounting: on a good subtree with untruncated counts, the
recorded short counts sum with the number of interim hashes to the number of
remaining key bits, and the zero entries are exactly the interim hashes. -/
theorem proveAux_accounting (key : Bytes) : ∀ (n : Node) (r index : Nat)
    (hv : Digest) (ls : List Nat) (lh : List Digest),
    goodAt n r → countsOk n = true →
    proveAux key n index = some (hv, ls, lh) →
    ls.sum + lh.length = r ∧ countZeros ls = lh.length := by
  intro n
  induction n with
  | nil =>
    intro r index hv ls lh hg
    exact absurd hg (by simp [goodAt])
  | leaf v =>
    intro r index hv ls lh hg hck hp
    have he : proveAux key (.leaf v) index = some (.dleaf v, [], []) := rfl
    rw [he] at hp
    injection hp with h
    injection h with ha hrest
    injection hrest with hb1 hb2
    subst ha
    subst hb1
    subst hb2
    have hr0 : r = 0 := hg
    subst hr0
    exact ⟨rfl, rfl⟩
  | full l r2 ihl ihr =>
    intro r index hv ls lh hg hck hp
    obtain ⟨hr1, hgl, hgr⟩ := hg
    have hck2 : countsOk l = true ∧ countsOk r2 = true := by
      have h : (countsOk l && countsOk r2) = true := hck
      rw [Bool.and_eq_true] at h
      exact h
    rw [proveAux_full_eq] at hp
    by_cases hb : readBit key index = 0
    · rw [if_pos hb] at hp
      obtain ⟨res, hres, heq⟩ := Option.map_eq_some'.mp hp
      injection heq with ha hrest
      injection hrest with hb1 hb2
      subst ha
      subst hb1
      subst hb2
      obtain ⟨hsum, hz⟩ := ihl (r - 1) (index + 1) res.1 res.2.1 res.2.2 hgl hck2.1
        (by rw [hres])
      rw [List.sum_cons, countZeros_cons, List.length_cons]
      constructor
      · omega
      · rw [if_pos rfl]
        omega
    · rw [if_neg hb] at hp
      obtain ⟨res, hres, heq⟩ := Option.map_eq_some'.mp hp
      injection heq with ha hrest
      injection hrest with hb1 hb2
      subst ha
      subst hb1
      subst hb2
      obtain ⟨hsum, hz⟩ := ihr (r - 1) (index + 1) res.1 res.2.1 res.2.2 hgr hck2.2
        (by rw [hres])
      rw [List.sum_cons, countZeros_cons, List.length_cons]
      constructor
      · omega
      · rw [if_pos rfl]
        omega
  | short c p ch ih =>
    intro r index hv ls lh hg hck hp
    obtain ⟨hc1, hcr, hns, hplen, hpwf, hppad, hch⟩ := hg
    have hck2 : (decide (c ≤ 255) && countsOk ch) = true := hck
    rw [Bool.and_eq_true] at hck2
    have hc255 : c ≤ 255 := of_decide_eq_true hck2.1
    have hckch : countsOk ch = true := hck2.2
    rw [proveAux_short_eq] at hp
    by_cases hm : pathMatches key index p c
    · rw [if_pos hm] at hp
      obtain ⟨res, hres, heq⟩ := Option.map_eq_some'.mp hp
      injection heq with ha hrest
      injection hrest with hb1 hb2
      subst ha
      subst hb1
      subst hb2
      obtain ⟨hsum, hz⟩ := ih (r - c) (index + c) res.1 res.2.1 res.2.2 hch hckch
        (by rw [hres])
      have hmod : c % 256 = c := Nat.mod_eq_of_lt (by omega)
      rw [List.sum_cons, countZeros_cons, hmod]
      constructor
      · omega
      · rw [if_neg (by omega)]
        omega
    · rw [if_neg hm] at hp
      exact Option.noConfusion hp

/-- Soundness of `Verify` against `Prove`, compositional form: replaying the
transcript of a good subtree (whose counts are untruncated) on top of any
outer context rebuilds exactly the subtree root hash, consuming exactly the
subtree interim hashes and key bits. -/
theorem vsound (key : Bytes) : ∀ (n : Node) (r index : Nat) (hv : Digest)
    (ls : List Nat) (lh : List Digest) (Hpre : List Digest) (rest : List Nat),
    goodAt n r → countsOk n = true → index + r = 8 * key.length →
    proveAux key n index = some (hv, ls, lh) →
    verifyAux key (Hpre ++ lh) (ls.reverse ++ rest) hv
        ((Hpre.length : Int) + (lh.length : Int) - 1) ((index : Int) + (r : Int)) =
      verifyAux key Hpre rest n.hash ((Hpre.length : Int) - 1) (index : Int) := by
  intro n
  induction n with
  | nil =>
    intro r index hv ls lh Hpre rest hg
    exact absurd hg (by simp [goodAt])
  | leaf v =>
    intro r index hv ls lh Hpre rest hg hck hidx hp
    have he : proveAux key (.leaf v) index = some (.dleaf v, [], []) := rfl
    rw [he] at hp
    injection hp with h
    injection h with ha hrest
    injection hrest with hb1 hb2
    subst ha
    subst hb1
    subst hb2
    have hr0 : r = 0 := hg
    subst hr0
    rw [List.append_nil, List.reverse_nil, List.nil_append]
    have h1 : (Hpre.length : Int) + (([] : List Digest).length : Int) - 1 =
        (Hpre.length : Int) - 1 := by simp
    have h2 : (index : Int) + ((0 : Nat) : Int) = (index : Int) := by simp
    rw [h1, h2]
    rfl
  | full l r2 ihl ihr =>
    intro r index hv ls lh Hpre rest hg hck hidx hp
    obtain ⟨hr1, hgl, hgr⟩ := hg
    have hck2 : countsOk l = true ∧ countsOk r2 = true := by
      have h : (countsOk l && countsOk r2) = true := hck
      rw [Bool.and_eq_true] at h
      exact h
    rw [proveAux_full_eq] at hp
    by_cases hb : readBit key index = 0
    · rw [if_pos hb] at hp
      obtain ⟨res, hres, heq⟩ := Option.map_eq_some'.mp hp
      injection heq with ha hrest2
      injection hrest2 with hb1 hb2
      subst ha
      subst hb1
      subst hb2
      have hl1 : (0 :: res.2.1).reverse ++ rest = res.2.1.reverse ++ (0 :: rest) := by
        rw [List.reverse_cons, List.append_assoc, List.singleton_append]
      have hl2 : Hpre ++ r2.hash :: res.2.2 = (Hpre ++ [r2.hash]) ++ res.2.2 := by
        rw [List.append_cons]
      have hc1 : (Hpre.length : Int) + ((r2.hash :: res.2.2).length : Int) - 1 =
          (((Hpre ++ [r2.hash]).length : Int)) + ((res.2.2.length : Int)) - 1 := by
        rw [List.length_cons, List.length_append, List.length_singleton]
        push_cast
        ring
      have hc2 : (index : Int) + (r : Int) =
          (((index + 1 : Nat)) : Int) + (((r - 1 : Nat)) : Int) := by omega
      rw [hl1, hl2, hc1, hc2,
        ihl (r - 1) (index + 1) res.1 res.2.1 res.2.2 (Hpre ++ [r2.hash]) (0 :: rest)
          hgl hck2.1 (by omega) (by rw [hres])]
      have hget : listGetI (Hpre ++ [r2.hash]) (((Hpre ++ [r2.hash]).length : Int) - 1) =
          some r2.hash := by
        apply listGetI_append_last Hpre r2.hash []
        rw [List.length_append, List.length_singleton]
        omega
      have hrb : readBitI key ((((index + 1 : Nat)) : Int) - 1) =
          some (readBit key index) := by
        rw [readBitI_in key _ (by omega) (by omega)]
        have ht : ((((index + 1 : Nat)) : Int) - 1).toNat = index := by omega
        rw [ht]
      rw [verifyAux_zero_some key (Hpre ++ [r2.hash]) rest l.hash _ _ r2.hash
        (readBit key index) hget hrb, if_neg (by omega)]
      have hc3 : ((Hpre ++ [r2.hash]).length : Int) - 1 - 1 = (Hpre.length : Int) - 1 := by
        rw [List.length_append, List.length_singleton]
        omega
      have hc4 : (((index + 1 : Nat)) : Int) - 1 = (index : Int) := by omega
      rw [hc3, hc4, verifyAux_ih_ext key Hpre [r2.hash] rest (Digest.dfull l.hash r2.hash)
        ((Hpre.length : Int) - 1) (index : Int) (by omega)]
      rfl
    · rw [if_neg hb] at hp
      obtain ⟨res, hres, heq⟩ := Option.map_eq_some'.mp hp
      injection heq with ha hrest2
      injection hrest2 with hb1 hb2
      subst ha
      subst hb1
      subst hb2
      have hl1 : (0 :: res.2.1).reverse ++ rest = res.2.1.reverse ++ (0 :: rest) := by
        rw [List.reverse_cons, List.append_assoc, List.singleton_append]
      have hl2 : Hpre ++ l.hash :: res.2.2 = (Hpre ++ [l.hash]) ++ res.2.2 := by
        rw [List.append_cons]
      have hc1 : (Hpre.length : Int) + ((l.hash :: res.2.2).length : Int) - 1 =
          (((Hpre ++ [l.hash]).length : Int)) + ((res.2.2.length : Int)) - 1 := by
        rw [List.length_cons, List.length_append, List.length_singleton]
        push_cast
        ring
      have hc2 : (index : Int) + (r : Int) =
          (((index + 1 : Nat)) : Int) + (((r - 1 : Nat)) : Int) := by omega
      rw [hl1, hl2, hc1, hc2,
        ihr (r - 1) (index + 1) res.1 res.2.1 res.2.2 (Hpre ++ [l.hash]) (0 :: rest)
          hgr hck2.2 (by omega) (by rw [hres])]
      have hget : listGetI (Hpre ++ [l.hash]) (((Hpre ++ [l.hash]).length : Int) - 1) =
          some l.hash := by
        apply listGetI_append_last Hpre l.hash []
        rw [List.length_append, List.length_singleton]
        omega
      have hrb : readBitI key ((((index + 1 : Nat)) : Int) - 1) =
          some (readBit key index) := by
        rw [readBitI_in key _ (by omega) (by omega)]
        have ht : ((((index + 1 : Nat)) : Int) - 1).toNat = index := by omega
        rw [ht]
      have hb1v : readBit key index = 1 := by
        have := readBit_lt_two key index
        omega
      rw [verifyAux_zero_some key (Hpre ++ [l.hash]) rest r2.hash _ _ l.hash
        (readBit key index) hget hrb, if_pos hb1v]
      have hc3 : ((Hpre ++ [l.hash]).length : Int) - 1 - 1 = (Hpre.length : Int) - 1 := by
        rw [List.length_append, List.length_singleton]
        omega
      have hc4 : (((index + 1 : Nat)) : Int) - 1 = (index : Int) := by omega
      rw [hc3, hc4, verifyAux_ih_ext key Hpre [l.hash] rest (Digest.dfull l.hash r2.hash)
        ((Hpre.length : Int) - 1) (index : Int) (by omega)]
      rfl
  | short c p ch ih =>
    intro r index hv ls lh Hpre rest hg hck hidx hp
    obtain ⟨hc1s, hcr, hns, hplen, hpwf, hppad, hch⟩ := hg
    have hck2 : (decide (c ≤ 255) && countsOk ch) = true := hck
    rw [Bool.and_eq_true] at hck2
    have hc255 : c ≤ 255 := of_decide_eq_true hck2.1
    have hckch : countsOk ch = true := hck2.2
    rw [proveAux_short_eq] at hp
    by_cases hm : pathMatches key index p c
    · rw [if_pos hm] at hp
      obtain ⟨res, hres, heq⟩ := Option.map_eq_some'.mp hp
      injection heq with ha hrest2
      injection hrest2 with hb1 hb2
      subst ha
      subst hb1
      subst hb2
      have hmod : c % 256 = c := Nat.mod_eq_of_lt (by omega)
      rw [hmod]
      have hl1 : (c :: res.2.1).reverse ++ rest = res.2.1.reverse ++ (c :: rest) := by
        rw [List.reverse_cons, List.append_assoc, List.singleton_append]
      have hc2 : (index : Int) + (r : Int) =
          (((index + c : Nat)) : Int) + (((r - c : Nat)) : Int) := by omega
      rw [hl1, hc2,
        ih (r - c) (index + c) res.1 res.2.1 res.2.2 Hpre (c :: rest)
          hch hckch (by omega) (by rw [hres])]
      have hcp : buildCommonPath key ((((index + c : Nat)) : Int) - c) c = some p := by
        have he2 : (((index + c : Nat)) : Int) - c = (index : Int) := by omega
        rw [he2]
        exact buildCommonPath_eq_path key p index c (by omega) hplen hpwf hppad hm
      rw [verifyAux_pos_some key Hpre rest ch.hash ((Hpre.length : Int) - 1)
        (((index + c : Nat)) : Int) c p (by omega) hcp]
      have hc5 : (((index + c : Nat)) : Int) - c = (index : Int) := by omega
      rw [hc5]
      rfl
    · rw [if_neg hm] at hp
      exact Option.noConfusion hp
theorem listGetI_getD {α : Type} (l : List α) (n : Nat) (d : α) (h : n < l.length) :
    listGetI l (n : Int) = some (l.getD n d) := by
  rw [listGetI_ofNat, List.get?_eq_getElem?, List.getElem?_eq_getElem h,
    List.getD_eq_getElem l d h]

theorem listGetI_set_self {α : Type} (l : List α) (n : Nat) (a : α) (h : n < l.length) :
    listGetI (l.set n a) (n : Int) = some a := by
  rw [listGetI_ofNat, List.get?_eq_getElem?]
  simp [h]

/-- `Verify` with the running `foldl` replaced by the list sum. -/
theorem verify_unfold (p : Proof) (d : Digest) :
    p.verify d = match verifyAux p.key p.interimHashes p.shortCounts.reverse p.hashValue
      ((p.interimHashes.length : Int) - 1)
      ((p.interimHashes.length : Int) + (p.shortCounts.sum : Int)) with
      | none => none
      | some res => some (decide (res.2 = 0 ∧ res.1 = d)) := by
  simp only [Proof.verify]
  rw [foldl_int_sum, Int.zero_add]

/-- Core soundness bundle for a proof produced by `Prove` on a good trie with
untruncated counts. -/
theorem prove_sound_core (t : Tree) (key : Bytes)
    (hg : goodAt t.root (8 * t.keyLength)) (hkl : key.length = t.keyLength)
    (hck : countsOk t.root = true) (p : Proof) (hp : t.prove key = some p) :
    p.key = key ∧ countZeros p.shortCounts = p.interimHashes.length ∧
    p.shortCounts.sum + p.interimHashes.length = 8 * key.length ∧
    verifyAux p.key p.interimHashes p.shortCounts.reverse p.hashValue
      ((p.interimHashes.length : Int) - 1)
      ((p.interimHashes.length : Int) + (p.shortCounts.sum : Int)) =
      some (t.root.hash, 0) := by
  unfold Tree.prove at hp
  obtain ⟨res, hres, heq⟩ := Option.map_eq_some'.mp hp
  have hg2 : goodAt t.root (8 * key.length) := by
    rw [hkl]
    exact hg
  obtain ⟨hsum, hz⟩ := proveAux_accounting key t.root (8 * key.length) 0
    res.1 res.2.1 res.2.2 hg2 hck (by rw [hres])
  have hmain := vsound key t.root (8 * key.length) 0 res.1 res.2.1 res.2.2 [] []
    hg2 hck (by omega) (by rw [hres])
  rw [List.nil_append, List.append_nil, verifyAux_nil] at hmain
  have e1 : ((([] : List Digest).length : Int)) + ((res.2.2.length : Int)) - 1 =
      ((res.2.2.length : Int)) - 1 := by
    rw [List.length_nil]
    omega
  have e2 : (((0 : Nat)) : Int) + (((8 * key.length : Nat)) : Int) =
      ((res.2.2.length : Int)) + ((res.2.1.sum : Int)) := by omega
  have e3 : ((([] : List Digest).length : Int)) - 1 = -1 := by
    rw [List.length_nil]
    rfl
  rw [e1, e2] at hmain
  subst heq
  refine ⟨rfl, hz, ?_, ?_⟩
  · show res.2.1.sum + res.2.2.length = 8 * key.length
    exact hsum
  · show verifyAux key res.2.2 res.2.1.reverse res.1
        ((res.2.2.length : Int) - 1) ((res.2.2.length : Int) + (res.2.1.sum : Int)) =
        some (t.root.hash, 0)
    exact hmain
/-- C5 counterexample: the proof value with key `[0x00]`, a leaf value hash,
`shortCounts = [0]` and no interim hashes makes `Verify` read
`InterimHashes[-1]` — an out-of-range access (`none`), not a `false` return. -/
theorem C5_counterexample :
    (Proof.mk [0] (.dleaf [1]) [0] []).verify .dnil = none := by
  decide

/-- C5 (amended): `Verify` returns a boolean — rather than panicking on an
out-of-range access — for every proof whose zero `shortCounts` entries are
covered by `interimHashes` and whose combined path length fits the key:
`countZeros shortCounts ≤ |interimHashes|` and
`|interimHashes| + sum shortCounts ≤ 8·|key|`.  (Proofs produced by `Prove`
satisfy both with equality.) -/
theorem C5_verify_totality (p : Proof) (d : Digest)
    (h1 : countZeros p.shortCounts ≤ p.interimHashes.length)
    (h2 : p.interimHashes.length + p.shortCounts.sum ≤ 8 * p.key.length) :
    ∃ b : Bool, p.verify d = some b := by
  rw [verify_unfold]
  have ht := verifyAux_total p.key p.interimHashes p.shortCounts.reverse p.hashValue
    ((p.interimHashes.length : Int) - 1)
    ((p.interimHashes.length : Int) + (p.shortCounts.sum : Int))
    (by rw [countZeros_reverse]; omega) (by omega) (by omega)
    (by rw [countZeros_reverse, List.sum_reverse]; omega)
  obtain ⟨res, hres⟩ := Option.isSome_iff_exists.mp ht
  rw [hres]
  exact ⟨_, rfl⟩

theorem C5_verify_totality_witness :
    ∃ b : Bool, (Proof.mk [0] (.dleaf [9]) [8] []).verify
      (.dshort [0, 8] [0] (.dleaf [9])) = some b :=
  C5_verify_totality (Proof.mk [0] (.dleaf [9]) [8] []) (.dshort [0, 8] [0] (.dleaf [9]))
    (by decide) (by decide)

/-- C6 counterexample: `Prove` performs no key-length check — on a trie of
key length 1 holding the key `[0x00]`, proving the two-byte key `[0x00, 0x05]`
returns `found = true` instead of the claimed not-found. -/
theorem C6_counterexample :
    ((buildTree 1 [([0], [9])]).prove [0, 5]).isSome = true := by
  decide

/-- C6 (amended): `IncompatibleKeyLength` is raised by `NewTree` exactly when
the requested length is outside `[1, 8192]` and by `Put` exactly when the key
length differs from the configured one; `Get` and `Del` never raise and
return not-found / `false` on a wrong-length key.  (`Prove`, by contrast,
performs no length check at all — see the counterexample.) -/
theorem C6_error_taxonomy (kl : Nat) (t : Tree) (key v : Bytes) :
    (NewTree kl = .error .incompatibleKeyLength ↔ (kl < 1 ∨ maxKeyLength < kl)) ∧
    (t.put key v = .error .incompatibleKeyLength ↔ key.length ≠ t.keyLength) ∧
    (key.length ≠ t.keyLength → t.get key = none ∧ t.del key = (false, t)) := by
  refine ⟨?_, ?_, ?_⟩
  · unfold NewTree
    by_cases h : kl < 1 ∨ maxKeyLength < kl
    · rw [if_pos h]
      exact ⟨fun _ => h, fun _ => rfl⟩
    · rw [if_neg h]
      exact ⟨fun hcon => Except.noConfusion hcon, fun hcon => absurd hcon h⟩
  · simp only [Tree.put]
    by_cases h : key.length ≠ t.keyLength
    · rw [if_pos h]
      exact ⟨fun _ => h, fun _ => rfl⟩
    · rw [if_neg h]
      exact ⟨fun hcon => Except.noConfusion hcon, fun hcon => absurd hcon h⟩
  · intro h
    constructor
    · unfold Tree.get
      rw [if_pos (Or.inr (fun he => h he.symm))]
    · unfold Tree.del
      rw [if_pos (Or.inr (fun he => h he.symm))]

theorem C6_error_taxonomy_witness :
    (NewTree 0 = .error .incompatibleKeyLength ↔ ((0 : Nat) < 1 ∨ maxKeyLength < 0)) ∧
    ((Tree.mk 1 Node.nil).put [0, 5] [7] = .error .incompatibleKeyLength ↔
      ([0, 5] : Bytes).length ≠ (Tree.mk 1 Node.nil).keyLength) ∧
    (([0, 5] : Bytes).length ≠ (Tree.mk 1 Node.nil).keyLength →
      (Tree.mk 1 Node.nil).get [0, 5] = none ∧
      (Tree.mk 1 Node.nil).del [0, 5] = (false, Tree.mk 1 Node.nil)) :=
  C6_error_taxonomy 0 (Tree.mk 1 Node.nil) [0, 5] [7]

set_option maxRecDepth 40000 in
/-- C3 counterexample: on a trie of key length 32 holding the single 32-byte
zero key, the root is a short node of count 256; `Prove` records
`uint8(256) = 0`, `Verify` then treats that entry as a full node and reads
`InterimHashes[-1]` — an out-of-range access (`none`), not acceptance.  So a
present key of a legal (1..8192) key-length trie can yield a proof that
`Verify` cannot accept. -/
theorem C3_counterexample :
    ((buildTree 32 [(List.replicate 32 0, [1])]).prove (List.replicate 32 0)).isSome = true ∧
    ((buildTree 32 [(List.replicate 32 0, [1])]).hash).isSome = true ∧
    (((buildTree 32 [(List.replicate 32 0, [1])]).prove (List.replicate 32 0)).bind
      (fun p => ((buildTree 32 [(List.replicate 32 0, [1])]).hash).bind
        (fun d => p.verify d))) = none := by
  decide

/-- C3 (amended): for every good trie all of whose short-node counts are at
most 255 (in particular any trie of key length at most 31 bytes) and every
present key of the configured length, `Prove` returns a proof and `Verify`
accepts it against the trie`s current root hash. -/
theorem C3_proof_soundness (t : Tree) (key : Bytes)
    (hgood : t.good) (hkl : key.length = t.keyLength)
    (hck : countsOk t.root = true) (hpresent : (t.get key).isSome) :
    ∃ p : Proof, t.prove key = some p ∧
      ∃ d : Digest, t.hash = some d ∧ p.verify d = some true := by
  unfold Tree.get at hpresent
  by_cases hnil : t.root = .nil ∨ t.keyLength ≠ key.length
  · rw [if_pos hnil] at hpresent
    exact absurd hpresent (by simp)
  · rw [if_neg hnil] at hpresent
    push_neg at hnil
    have hg : goodAt t.root (8 * t.keyLength) := by
      rcases hgood with h | h
      · exact absurd h hnil.1
      · exact h
    have hps : (t.prove key).isSome := by
      unfold Tree.prove
      rw [Option.isSome_map', proveAux_isSome]
      exact hpresent
    obtain ⟨p, hp⟩ := Option.isSome_iff_exists.mp hps
    obtain ⟨hpkey, hz, hsum, hrun⟩ := prove_sound_core t key hg hkl hck p hp
    refine ⟨p, hp, t.root.hash, ?_, ?_⟩
    · unfold Tree.hash
      rw [if_neg hnil.1]
    · rw [verify_unfold, hrun]
      simp

theorem C3_proof_soundness_witness :
    ∃ p : Proof, (buildTree 2 [([0, 255], [9]), ([128, 0], [7])]).prove [0, 255] = some p ∧
      ∃ d : Digest, (buildTree 2 [([0, 255], [9]), ([128, 0], [7])]).hash = some d ∧
        p.verify d = some true :=
  C3_proof_soundness (buildTree 2 [([0, 255], [9]), ([128, 0], [7])]) [0, 255]
    (buildTree_spec 2 [([0, 255], [9]), ([128, 0], [7])] []).2.1
    (by decide) (by decide) (by decide)

/-- A successful `Verify` loop run determines the returned boolean. -/
theorem verify_run (p : Proof) (d : Digest) (res : Digest × Int)
    (h : verifyAux p.key p.interimHashes p.shortCounts.reverse p.hashValue
      ((p.interimHashes.length : Int) - 1)
      ((p.interimHashes.length : Int) + (p.shortCounts.sum : Int)) = some res) :
    p.verify d = some (decide (res.2 = 0 ∧ res.1 = d)) := by
  rw [verify_unfold, h]

/-- C4 counterexample: the proof for key `[0x00]` in the one-key trie has
`shortCounts = [8]`; flipping bit 0 of that byte gives `136`, and `Verify` on
the tampered proof reads key bits 8..135 of the one-byte key — an
out-of-range access (`none`), not the claimed `false` return. -/
theorem C4_counterexample :
    (buildTree 1 [([0], [9])]).prove [0] = some ⟨[0], .dleaf [9], [8], []⟩ ∧
    (Proof.mk [0] (.dleaf [9]) [136] []).verify
      (Node.hash (buildTree 1 [([0], [9])]).root) = none := by
  decide

/-- C4 (amended): on a good trie with untruncated counts, `Prove` of an
absent key of the configured length returns not-found; and for a proof of a
present key, replacing the value hash, the expected root, or any single
interim hash by a different digest makes `Verify` return `false`.  (Altering
a `shortCounts` entry, by contrast, can make `Verify` panic — see the
counterexample.) -/
theorem C4_non_forgeability (t : Tree) (key : Bytes)
    (hgood : t.good) (hkl : key.length = t.keyLength) (hck : countsOk t.root = true) :
    (t.get key = none → t.prove key = none) ∧
    (∀ p root, t.prove key = some p → t.hash = some root →
      (∀ hv2, hv2 ≠ p.hashValue →
        (Proof.mk p.key hv2 p.shortCounts p.interimHashes).verify root = some false) ∧
      (∀ root2, root2 ≠ root → p.verify root2 = some false) ∧
      (∀ i d2, i < p.interimHashes.length → d2 ≠ p.interimHashes.getD i .dnil →
        (Proof.mk p.key p.hashValue p.shortCounts (p.interimHashes.set i d2)).verify root
          = some false)) := by
  constructor
  · intro hget
    unfold Tree.prove
    rcases hcase : proveAux key t.root 0 with _ | res
    · rfl
    · exfalso
      have h1 : (proveAux key t.root 0).isSome := by
        rw [hcase]
        rfl
      rw [proveAux_isSome] at h1
      unfold Tree.get at hget
      by_cases hnil : t.root = .nil ∨ t.keyLength ≠ key.length
      · rcases hnil with hnil | hlen
        · rw [hnil] at h1
          exact absurd h1 (by simp [getAux])
        · exact hlen hkl.symm
      · rw [if_neg hnil] at hget
        rw [hget] at h1
        exact absurd h1 (by simp)
  · intro p root hp hroot
    have hnil : t.root ≠ .nil := by
      intro h
      unfold Tree.hash at hroot
      rw [if_pos h] at hroot
      exact Option.noConfusion hroot
    have hrooteq : root = t.root.hash := by
      unfold Tree.hash at hroot
      rw [if_neg hnil] at hroot
      exact (Option.some.inj hroot).symm
    have hg : goodAt t.root (8 * t.keyLength) := by
      rcases hgood with h | h
      · exact absurd h hnil
      · exact h
    obtain ⟨hpkey, hz, hsum, hrun⟩ := prove_sound_core t key hg hkl hck p hp
    refine ⟨?_, ?_, ?_⟩
    · intro hv2 hne
      rcases verifyAux_lockstep p.key p.interimHashes p.interimHashes rfl
          p.shortCounts.reverse p.hashValue hv2 ((p.interimHashes.length : Int) - 1)
          ((p.interimHashes.length : Int) + (p.shortCounts.sum : Int))
        with ⟨he1, he2⟩ | ⟨d1, d2, pf, he1, he2, hiff⟩
      · rw [hrun] at he1
        exact Option.noConfusion he1
      · rw [hrun] at he1
        injection he1 with he1p
        injection he1p with hd1 hpf
        rw [verify_run (Proof.mk p.key hv2 p.shortCounts p.interimHashes) root (d2, pf) he2]
        show some (decide (pf = 0 ∧ d2 = root)) = some false
        have hd2ne : d2 ≠ root := by
          intro hcon
          have hdd : d1 = d2 := by
            rw [← hd1, hcon, hrooteq]
          exact hne ((hiff.mp hdd).1.symm)
        have hdec : decide (pf = 0 ∧ d2 = root) = false := by
          rw [decide_eq_false_iff_not]
          intro hcon
          exact hd2ne hcon.2
        rw [hdec]
    · intro root2 hne
      rw [verify_run p root2 (t.root.hash, 0) hrun]
      show some (decide ((0 : Int) = 0 ∧ t.root.hash = root2)) = some false
      have hdec : decide ((0 : Int) = 0 ∧ t.root.hash = root2) = false := by
        rw [decide_eq_false_iff_not]
        intro hcon
        exact hne (hcon.2.symm.trans hrooteq.symm)
      rw [hdec]
    · intro i d2 hi hne
      rcases verifyAux_lockstep p.key p.interimHashes (p.interimHashes.set i d2)
          (p.interimHashes.length_set i d2).symm
          p.shortCounts.reverse p.hashValue p.hashValue ((p.interimHashes.length : Int) - 1)
          ((p.interimHashes.length : Int) + (p.shortCounts.sum : Int))
        with ⟨he1, he2⟩ | ⟨d1, dd2, pf, he1, he2, hiff⟩
      · rw [hrun] at he1
        exact Option.noConfusion he1
      · rw [hrun] at he1
        injection he1 with he1p
        injection he1p with hd1 hpf
        have he3 : verifyAux p.key (p.interimHashes.set i d2) p.shortCounts.reverse
            p.hashValue (((p.interimHashes.set i d2).length : Int) - 1)
            (((p.interimHashes.set i d2).length : Int) + (p.shortCounts.sum : Int)) =
            some (dd2, pf) := by
          rw [List.length_set]
          exact he2
        rw [verify_run (Proof.mk p.key p.hashValue p.shortCounts (p.interimHashes.set i d2))
          root (dd2, pf) he3]
        show some (decide (pf = 0 ∧ dd2 = root)) = some false
        have hd2ne : dd2 ≠ root := by
          intro hcon
          have hdd : d1 = dd2 := by
            rw [← hd1, hcon, hrooteq]
          have hreads := (hiff.mp hdd).2
          have hlo : (p.interimHashes.length : Int) - 1 -
              (countZeros p.shortCounts.reverse : Int) < (i : Int) := by
            rw [countZeros_reverse, hz]
            omega
          have hhi : (i : Int) ≤ (p.interimHashes.length : Int) - 1 := by omega
          have hwindow := hreads (i : Int) hlo hhi
          rw [listGetI_getD p.interimHashes i Digest.dnil hi,
            listGetI_set_self p.interimHashes i d2 hi] at hwindow
          exact hne ((Option.some.inj hwindow).symm)
        have hdec : decide (pf = 0 ∧ dd2 = root) = false := by
          rw [decide_eq_false_iff_not]
          intro hcon
          exact hd2ne hcon.2
        rw [hdec]

theorem C4_non_forgeability_witness :
    ((buildTree 1 [([0], [9])]).get [255] = none →
      (buildTree 1 [([0], [9])]).prove [255] = none) ∧
    (∀ p root, (buildTree 1 [([0], [9])]).prove [255] = some p →
      (buildTree 1 [([0], [9])]).hash = some root →
      (∀ hv2, hv2 ≠ p.hashValue →
        (Proof.mk p.key hv2 p.shortCounts p.interimHashes).verify root = some false) ∧
      (∀ root2, root2 ≠ root → p.verify root2 = some false) ∧
      (∀ i d2, i < p.interimHashes.length → d2 ≠ p.interimHashes.getD i .dnil →
        (Proof.mk p.key p.hashValue p.shortCounts (p.interimHashes.set i d2)).verify root
          = some false)) :=
  C4_non_forgeability (buildTree 1 [([0], [9])]) [255]
    (buildTree_spec 1 [([0], [9])] []).2.1 (by decide) (by decide)

theorem getAuxF_spec (key : Bytes) : ∀ (n : Node) (r index fuel : Nat),
    (n = .nil ∨ goodAt n r) → r < fuel →
    getAuxF key fuel n index = some (getAux key n index) := by
  intro n
  induction n with
  | nil =>
    intro r index fuel h hf
    cases fuel with
    | zero => omega
    | succ f => rfl
  | leaf v =>
    intro r index fuel h hf
    cases fuel with
    | zero => omega
    | succ f => rfl
  | full l r2 ihl ihr =>
    intro r index fuel h hf
    rcases h with h | h
    · exact Node.noConfusion h
    obtain ⟨hr1, hgl, hgr⟩ := h
    cases fuel with
    | zero => omega
    | succ f =>
      simp only [getAuxF]
      rw [getAux_full_eq]
      by_cases hb : readBit key index = 0
      · rw [if_pos hb, if_pos hb, ihl (r - 1) (index + 1) f (Or.inr hgl) (by omega)]
      · rw [if_neg hb, if_neg hb, ihr (r - 1) (index + 1) f (Or.inr hgr) (by omega)]
  | short c p ch ih =>
    intro r index fuel h hf
    rcases h with h | h
    · exact Node.noConfusion h
    obtain ⟨hc1, hcr, hns, hplen, hpwf, hppad, hch⟩ := h
    cases fuel with
    | zero => omega
    | succ f =>
      simp only [getAuxF]
      rw [getAux_short_eq]
      by_cases hm : pathMatches key index p c
      · rw [if_pos hm, if_pos hm, ih (r - c) (index + c) f (Or.inr hch) (by omega)]
      · rw [if_neg hm, if_neg hm]

theorem putAuxF_spec (key val : Bytes) : ∀ (n : Node) (r index fuel : Nat),
    (n = .nil ∨ goodAt n r) → r < fuel →
    putAuxF key val fuel n index = some (putAux key val n index) := by
  intro n
  induction n with
  | nil =>
    intro r index fuel h hf
    cases fuel with
    | zero => omega
    | succ f => rfl
  | leaf v =>
    intro r index fuel h hf
    cases fuel with
    | zero => omega
    | succ f => rfl
  | full l r2 ihl ihr =>
    intro r index fuel h hf
    rcases h with h | h
    · exact Node.noConfusion h
    obtain ⟨hr1, hgl, hgr⟩ := h
    cases fuel with
    | zero => omega
    | succ f =>
      simp only [putAuxF]
      rw [putAux_full_eq]
      by_cases hb : readBit key index = 0
      · rw [if_pos hb, if_pos hb, ihl (r - 1) (index + 1) f (Or.inr hgl) (by omega),
          Option.map_some']
      · rw [if_neg hb, if_neg hb, ihr (r - 1) (index + 1) f (Or.inr hgr) (by omega),
          Option.map_some']
  | short c p ch ih =>
    intro r index fuel h hf
    rcases h with h | h
    · exact Node.noConfusion h
    obtain ⟨hc1, hcr, hns, hplen, hpwf, hppad, hch⟩ := h
    cases fuel with
    | zero => omega
    | succ f =>
      simp only [putAuxF, putAux]
      by_cases hk : commonLen key index p c = c
      · rw [if_pos hk, if_pos hk, ih (r - c) (index + c) f (Or.inr hch) (by omega),
          Option.map_some']
      · rw [if_neg hk, if_neg hk]

theorem proveAuxF_spec (key : Bytes) : ∀ (n : Node) (r index fuel : Nat),
    (n = .nil ∨ goodAt n r) → r < fuel →
    proveAuxF key fuel n index = some (proveAux key n index) := by
  intro n
  induction n with
  | nil =>
    intro r index fuel h hf
    cases fuel with
    | zero => omega
    | succ f => rfl
  | leaf v =>
    intro r index fuel h hf
    cases fuel with
    | zero => omega
    | succ f => rfl
  | full l r2 ihl ihr =>
    intro r index fuel h hf
    rcases h with h | h
    · exact Node.noConfusion h
    obtain ⟨hr1, hgl, hgr⟩ := h
    cases fuel with
    | zero => omega
    | succ f =>
      simp only [proveAuxF]
      rw [proveAux_full_eq]
      by_cases hb : readBit key index = 0
      · rw [if_pos hb, if_pos hb, ihl (r - 1) (index + 1) f (Or.inr hgl) (by omega),
          Option.map_some']
      · rw [if_neg hb, if_neg hb, ihr (r - 1) (index + 1) f (Or.inr hgr) (by omega),
          Option.map_some']
  | short c p ch ih =>
    intro r index fuel h hf
    rcases h with h | h
    · exact Node.noConfusion h
    obtain ⟨hc1, hcr, hns, hplen, hpwf, hppad, hch⟩ := h
    cases fuel with
    | zero => omega
    | succ f =>
      simp only [proveAuxF]
      rw [proveAux_short_eq]
      by_cases hm : pathMatches key index p c
      · rw [if_pos hm, if_pos hm, ih (r - c) (index + c) f (Or.inr hch) (by omega),
          Option.map_some']
      · rw [if_neg hm, if_neg hm]

theorem delAuxF_spec (key : Bytes) : ∀ (n : Node) (r index fuel : Nat),
    (n = .nil ∨ goodAt n r) → r < fuel →
    delAuxF key fuel n index = some (delAux key n index) := by
  intro n
  induction n with
  | nil =>
    intro r index fuel h hf
    cases fuel with
    | zero => omega
    | succ f => rfl
  | leaf v =>
    intro r index fuel h hf
    cases fuel with
    | zero => omega
    | succ f => rfl
  | full l r2 ihl ihr =>
    intro r index fuel h hf
    rcases h with h | h
    · exact Node.noConfusion h
    obtain ⟨hr1, hgl, hgr⟩ := h
    cases fuel with
    | zero => omega
    | succ f =>
      simp only [delAuxF]
      rw [delAux_full_eq]
      by_cases hb : readBit key index = 0
      · rw [if_pos hb, if_pos hb, ihl (r - 1) (index + 1) f (Or.inr hgl) (by omega),
          Option.map_some']
      · rw [if_neg hb, if_neg hb, ihr (r - 1) (index + 1) f (Or.inr hgr) (by omega),
          Option.map_some']
  | short c p ch ih =>
    intro r index fuel h hf
    rcases h with h | h
    · exact Node.noConfusion h
    obtain ⟨hc1, hcr, hns, hplen, hpwf, hppad, hch⟩ := h
    cases fuel with
    | zero => omega
    | succ f =>
      simp only [delAuxF]
      rw [delAux_short_eq]
      by_cases hm : pathMatches key index p c
      · rw [if_pos hm, if_pos hm, ih (r - c) (index + c) f (Or.inr hch) (by omega),
          Option.map_some']
      · rw [if_neg hm, if_neg hm]

/-- C10: on any trie satisfying the structural invariants and any key of the
configured length, the traversal loops of `unsafePut`, `unsafeGet`, `Prove`
and `unsafeDel` all stop within `8·keyLength + 1` iterations, returning the
untimed traversal results. -/
theorem C10_termination (t : Tree) (key val : Bytes)
    (hgood : t.good) (hkl : key.length = t.keyLength) :
    putAuxF key val (8 * key.length + 1) t.root 0 = some (putAux key val t.root 0) ∧
    getAuxF key (8 * key.length + 1) t.root 0 = some (getAux key t.root 0) ∧
    proveAuxF key (8 * key.length + 1) t.root 0 = some (proveAux key t.root 0) ∧
    delAuxF key (8 * key.length + 1) t.root 0 = some (delAux key t.root 0) := by
  have h : t.root = .nil ∨ goodAt t.root (8 * key.length) := by
    rcases hgood with h | h
    · exact Or.inl h
    · rw [hkl]
      exact Or.inr h
  exact ⟨putAuxF_spec key val t.root (8 * key.length) 0 _ h (by omega),
    getAuxF_spec key t.root (8 * key.length) 0 _ h (by omega),
    proveAuxF_spec key t.root (8 * key.length) 0 _ h (by omega),
    delAuxF_spec key t.root (8 * key.length) 0 _ h (by omega)⟩

theorem C10_termination_witness :
    putAuxF [0] [7] (8 * ([0] : Bytes).length + 1) (buildTree 1 [([0], [9]), ([255], [3])]).root 0 =
      some (putAux [0] [7] (buildTree 1 [([0], [9]), ([255], [3])]).root 0) ∧
    getAuxF [0] (8 * ([0] : Bytes).length + 1) (buildTree 1 [([0], [9]), ([255], [3])]).root 0 =
      some (getAux [0] (buildTree 1 [([0], [9]), ([255], [3])]).root 0) ∧
    proveAuxF [0] (8 * ([0] : Bytes).length + 1) (buildTree 1 [([0], [9]), ([255], [3])]).root 0 =
      some (proveAux [0] (buildTree 1 [([0], [9]), ([255], [3])]).root 0) ∧
    delAuxF [0] (8 * ([0] : Bytes).length + 1) (buildTree 1 [([0], [9]), ([255], [3])]).root 0 =
      some (delAux [0] (buildTree 1 [([0], [9]), ([255], [3])]).root 0) :=
  C10_termination (buildTree 1 [([0], [9]), ([255], [3])]) [0] [7]
    (buildTree_spec 1 [([0], [9]), ([255], [3])] []).2.1 (by decide)

end Merkle
